import Mathlib

set_option autoImplicit false

/-!
Verification of the job-pilot document pipeline.

This file gives a shallow embedding, in Lean, of the text-processing core of
the repository and proves (or refutes) the specification claims about it.
Strings are modelled as `List Char` (with `String` wrappers at the statement
boundary).  Python/JavaScript regular-expression steps are modelled by
explicit, executable scanners (fueled structural recursion so that concrete
runs reduce definitionally); case-insensitive matching is modelled by ASCII
case folding (the data the source applies it to is ASCII).

Source files embedded here:
* `src/ai_processing/resume_optimizer/intelligent_optimizer.py.line.bak`
  (`_optimize_experience_line`, `_optimize_summary_line`, `_final_grammar_check`,
  and the module-level weak-phrase table);
* `src/client/src/app/api/export-resume-pdf/route.ts` (`cleanPdfText`,
  `structureResumeText` date tagging, `generateResumeHTML`);
* `src/unnamed/part_000` (the PDF line-merge loop of its `POST` handler);
* `src/client/src/components/ui/Progress.tsx` (`parseResumeContent`);
* `src/client/src/app/store/resumeStore.ts` (`updateResumeData`,
  `getEmptyResumeData`);
* `src/client/src/types/resume.ts` (the data model).
-/

/-! ### Character classes (ASCII model of Python/JS character predicates) -/

/-- Python/JS whitespace (`\s`), restricted to its ASCII members. -/
def pyWs (c : Char) : Bool :=
  c = ' ' || c = '\t' || c = '\n' || c = '\r' || c = '\x0b' || c = '\x0c'

/-- Space-or-tab, the class `[ \t]` used by `cleanPdfText`. -/
def isST (c : Char) : Bool := c = ' ' || c = '\t'

/-- ASCII upper-case letter. -/
def isUpperA (c : Char) : Bool := 65 ≤ c.toNat && c.toNat ≤ 90

/-- ASCII lower-case letter. -/
def isLowerA (c : Char) : Bool := 97 ≤ c.toNat && c.toNat ≤ 122

/-- ASCII digit. -/
def isDigitA (c : Char) : Bool := 48 ≤ c.toNat && c.toNat ≤ 57

/-- Regex word character `\w` (ASCII part): letter, digit or underscore. -/
def isW (c : Char) : Bool := isUpperA c || isLowerA c || isDigitA c || c = '_'

/-- ASCII lower-casing (model of `str.lower` / the `IGNORECASE` fold). -/
def lcA (c : Char) : Char := if isUpperA c then Char.ofNat (c.toNat + 32) else c

/-- ASCII upper-casing (model of `str.upper` / `toUpperCase` on one char). -/
def ucA (c : Char) : Char := if isLowerA c then Char.ofNat (c.toNat - 32) else c

theorem toNat_ofNat_of_lt {n : Nat} (h : n < 55296) : (Char.ofNat n).toNat = n := by
  have hv : n.isValidChar := Or.inl h
  simp [Char.ofNat, hv, Char.ofNatAux]
  rfl

theorem char_toNat_inj {a b : Char} (h : a.toNat = b.toNat) : a = b := by
  apply Char.eq_of_val_eq
  apply UInt32.eq_of_toBitVec_eq
  have h2 : a.val.toNat = b.val.toNat := h
  exact BitVec.eq_of_toNat_eq h2

theorem ofNat_toNat_self (c : Char) : Char.ofNat c.toNat = c := by
  apply char_toNat_inj
  have hv : c.toNat.isValidChar := c.valid
  rcases hv with h | h
  · exact toNat_ofNat_of_lt h
  · simp [Char.ofNat, Or.inr h, Char.ofNatAux]
    rfl

theorem isLowerA_iff (c : Char) : isLowerA c = true ↔ 97 ≤ c.toNat ∧ c.toNat ≤ 122 := by
  simp [isLowerA]

theorem isUpperA_iff (c : Char) : isUpperA c = true ↔ 65 ≤ c.toNat ∧ c.toNat ≤ 90 := by
  simp [isUpperA]

theorem isDigitA_iff (c : Char) : isDigitA c = true ↔ 48 ≤ c.toNat ∧ c.toNat ≤ 57 := by
  simp [isDigitA]

theorem toNat_ucA_lower {c : Char} (h : isLowerA c = true) :
    (ucA c).toNat = c.toNat - 32 := by
  rw [isLowerA_iff] at h
  unfold ucA
  rw [if_pos (by rw [isLowerA_iff]; exact h)]
  exact toNat_ofNat_of_lt (by omega)

theorem ucA_of_not_lower {c : Char} (h : ¬ isLowerA c = true) : ucA c = c := by
  unfold ucA
  rw [if_neg h]

theorem isUpperA_ucA (c : Char) : isUpperA (ucA c) = (isUpperA c || isLowerA c) := by
  by_cases h : isLowerA c = true
  · have hn := (isLowerA_iff c).mp h
    have ht := toNat_ucA_lower h
    have hu : isUpperA (ucA c) = true := by rw [isUpperA_iff, ht]; omega
    have hnu : isUpperA c = false := by simp [isUpperA]; omega
    simp [hu, hnu, h]
  · have hb : isLowerA c = false := by simpa using h
    rw [ucA_of_not_lower h]
    simp [hb]

theorem isLowerA_ucA (c : Char) : isLowerA (ucA c) = false := by
  by_cases h : isLowerA c = true
  · have hn := (isLowerA_iff c).mp h
    have ht := toNat_ucA_lower h
    simp [isLowerA, ht]
    omega
  · have hb : isLowerA c = false := by simpa using h
    rw [ucA_of_not_lower h]
    exact hb

theorem ucA_ucA (c : Char) : ucA (ucA c) = ucA c := by
  have h := isLowerA_ucA c
  unfold ucA
  rw [if_neg (by rw [show (if isLowerA c = true then Char.ofNat (c.toNat - 32) else c) = ucA c from rfl]; simp [h])]

theorem lcA_ucA (c : Char) : lcA (ucA c) = lcA c := by
  by_cases h : isLowerA c = true
  · have hn := (isLowerA_iff c).mp h
    have ht := toNat_ucA_lower h
    have hup : isUpperA (ucA c) = true := by rw [isUpperA_iff, ht]; omega
    have hnup : isUpperA c = false := by simp [isUpperA]; omega
    unfold lcA
    rw [if_pos hup, if_neg (by simp [hnup]), ht]
    have : c.toNat - 32 + 32 = c.toNat := by omega
    rw [this, ofNat_toNat_self]
  · rw [ucA_of_not_lower h]

theorem isW_ucA (c : Char) : isW (ucA c) = isW c := by
  by_cases h : isLowerA c = true
  · have hn := (isLowerA_iff c).mp h
    have ht := toNat_ucA_lower h
    have hw : isW (ucA c) = true := by
      have : isUpperA (ucA c) = true := by rw [isUpperA_iff, ht]; omega
      simp [isW, this]
    have hw2 : isW c = true := by simp [isW, h]
    rw [hw, hw2]
  · rw [ucA_of_not_lower h]

theorem length_dropWhile_le (p : Char → Bool) (l : List Char) :
    (l.dropWhile p).length ≤ l.length := by
  induction l with
  | nil => simp
  | cons a t ih =>
    by_cases h : p a = true
    · simp [List.dropWhile, h]; omega
    · simp [List.dropWhile, h]

/-! ### List-of-characters utilities -/

/-- Left trim over Python whitespace. -/
def trimL (s : List Char) : List Char := s.dropWhile pyWs

/-- Right trim over Python whitespace. -/
def trimR (s : List Char) : List Char := (s.reverse.dropWhile pyWs).reverse

/-- Python `str.strip()` (ASCII whitespace). -/
def trimBoth (s : List Char) : List Char := trimR (trimL s)

/-- Last-character punctuation test, Python `line.endswith(('.', '!', '?'))`. -/
def endsPunct (s : List Char) : Bool :=
  match s.getLast? with
  | some c => c = '.' || c = '!' || c = '?'
  | none => false

/-- Python `line[0].upper() + line[1:]`: upper-case the first character. -/
def capFirstL : List Char → List Char
  | [] => []
  | c :: cs => ucA c :: cs

/-! ### Word-boundary-aware case-insensitive substitution
(model of Python `re.sub` for the compiled pattern
`\b<phrase>\b` with `re.IGNORECASE`, where `<phrase>` is a literal of
letters and single spaces — `intelligent_optimizer.py` lines 335–339). -/

/-- Case-insensitive literal prefix match: if the ASCII-lowercased head of `s`
equals `p`, return the rest of `s`. -/
def matchCI (p s : List Char) : Option (List Char) :=
  if p.length ≤ s.length ∧ (s.take p.length).map lcA = p then some (s.drop p.length)
  else none

theorem matchCI_some {p s rest : List Char} (h : matchCI p s = some rest) :
    rest = s.drop p.length ∧ p.length ≤ s.length ∧ (s.take p.length).map lcA = p := by
  unfold matchCI at h
  by_cases hc : p.length ≤ s.length ∧ (s.take p.length).map lcA = p
  · rw [if_pos hc] at h
    injection h with h
    exact ⟨h.symm, hc⟩
  · rw [if_neg hc] at h
    cases h

theorem matchCI_of_split {p a b : List Char} (h : a.map lcA = p) :
    matchCI p (a ++ b) = some b := by
  have hlen : a.length = p.length := by rw [← h]; simp
  unfold matchCI
  rw [if_pos]
  · congr 1
    rw [List.drop_append_eq_append_drop]
    simp [hlen]
  · constructor
    · simp; omega
    · rw [List.take_append_eq_append_take]
      simp [hlen, h]

/-- Word-boundary after the match: next char absent or not a word character. -/
def boundR : List Char → Bool
  | [] => true
  | c :: _ => !(isW c)

/-- The condition under which `re.sub` fires at the current position: the
previous character is not a word character (`w = false`, the `\b` before),
the phrase matches case-insensitively, and a word boundary follows. -/
def replCond (p : List Char) (w : Bool) (s : List Char) : Prop :=
  w = false ∧ p ≠ [] ∧ ∃ rest, matchCI p s = some rest ∧ boundR rest = true

instance (p : List Char) (w : Bool) (s : List Char) : Decidable (replCond p w s) := by
  unfold replCond
  exact inferInstance

/-- Fueled scanner for one `pattern.sub(repl, line)` pass: left to right,
non-overlapping, continuing after each match. `w` records whether the
previous character of the original string is a word character. -/
def subScanF (p r : List Char) : Nat → Bool → List Char → List Char
  | 0, _, s => s
  | _ + 1, _, [] => []
  | fuel + 1, w, c :: cs =>
    match matchCI p (c :: cs) with
    | some rest =>
      if w = false ∧ boundR rest = true ∧ p ≠ [] then
        r ++ subScanF p r fuel true rest
      else c :: subScanF p r fuel (isW c) cs
    | none => c :: subScanF p r fuel (isW c) cs

/-- One full substitution pass over a line. -/
def subScan (p r : List Char) (w : Bool) (s : List Char) : List Char :=
  subScanF p r s.length w s

/-- The weak-phrase dictionary (module-level default in
`intelligent_optimizer.py`, lines 215–233), in Python dict insertion order. -/
def weakRules : List (List Char × List Char) :=
  [ ("responsible for".data, "managed".data)
  , ("duties included".data, "executed".data)
  , ("worked on".data, "developed".data)
  , ("helped with".data, "contributed to".data)
  , ("assisted with".data, "supported".data)
  , ("participated in".data, "collaborated on".data)
  , ("involved in".data, "drove".data)
  , ("was tasked with".data, "spearheaded".data) ]

/-- Apply one weak-phrase rule over the whole line. -/
def applyRule (s : List Char) (pr : List Char × List Char) : List Char :=
  subScan pr.1 pr.2 false s

/-- The weak-phrase substitution loop
(`for pattern, replacement in self.weak_phrases_patterns.items(): line = pattern.sub(...)`). -/
def weakSubL (s : List Char) : List Char := weakRules.foldl applyRule s

/-! ### The Rule Engine (`_optimize_experience_line`, `_optimize_summary_line`)

The optimizer is embedded in its no-NLP fallback configuration (spaCy/NLTK
absent, `use_spacy = False`), which the source supports explicitly
("Falling back to basic optimizations"); in that configuration the
strong-verb-prepend block of `_optimize_experience_line` is a no-op.
Modelled from the spec: the bullet-point pattern list
(`resources/resume_sections.json` is referenced by the source but is not part
of the sources here) is modelled as the single canonical-marker pattern
`^•\s*`, per spec §4.1/§6; the re-attached marker (source line 779, mojibake
in the backup file) is modelled as `"• "`.  A raised `IndexError` is
modelled as `none`. -/

/-- Does any bullet pattern match at the start of the line (`pattern.match`)? -/
def isBulletLineL : List Char → Bool
  | '•' :: _ => true
  | _ => false

/-- The bullet-strip loop: `line = pattern.sub("", line).strip()`. -/
def stripBulletsL (s : List Char) : List Char :=
  match s with
  | '•' :: rest => trimBoth (rest.dropWhile pyWs)
  | _ => trimBoth s

/-- Terminal-punctuation step of `_optimize_experience_line` /
`_optimize_summary_line`: append `'.'` unless the line already ends in
`.`, `!` or `?` (no length threshold in these two functions). -/
def punctuateL (s : List Char) : List Char :=
  if endsPunct s then s else s ++ ['.']

/-- Embedding of `_optimize_experience_line` (lines 691–793), no-NLP mode.
`none` models the `IndexError` raised by `line[0]` on an empty string. -/
def optimizeExperienceLineL (s : List Char) : Option (List Char) :=
  if isBulletLineL s then
    match weakSubL (stripBulletsL s) with
    | [] => none
    | c :: cs => some ('•' :: ' ' :: punctuateL (ucA c :: cs))
  else some s

/-- Embedding of `_optimize_summary_line` (lines 901–941).
`none` models the `IndexError` raised by `line[0]` on an empty string. -/
def optimizeSummaryLineL (s : List Char) : Option (List Char) :=
  match weakSubL s with
  | [] => none
  | c :: cs => some (punctuateL (ucA c :: cs))

/-- String-level wrapper for `_optimize_experience_line`. -/
def optimizeExperienceLine (s : String) : Option String :=
  (optimizeExperienceLineL s.data).map fun l => ⟨l⟩

/-- String-level wrapper for `_optimize_summary_line`. -/
def optimizeSummaryLine (s : String) : Option String :=
  (optimizeSummaryLineL s.data).map fun l => ⟨l⟩

/-! ### `_final_grammar_check` (lines 1141–1257) -/

/-- Split on `'\n'` (Python `text.split('\n')`; keeps empty fields). -/
def splitNL : List Char → List (List Char)
  | [] => [[]]
  | c :: rest =>
    if c = '\n' then [] :: splitNL rest
    else
      match splitNL rest with
      | [] => [[c]]
      | l :: ls => (c :: l) :: ls

/-- Join with `'\n'` (Python `'\n'.join(lines)`). -/
def joinNL : List (List Char) → List Char
  | [] => []
  | [l] => l
  | l :: ls => l ++ '\n' :: joinNL ls

/-- The bullet-capitalization/punctuation fix of `_final_grammar_check`
(lines 1169–1197): extract the marker (`group(0)` of `^•\s*`), strip the
text, capitalize it, and append a period only when the text is longer than 20
characters and does not already end in `.`, `!` or `?`. -/
def bulletFixLineL (line : List Char) : List Char :=
  match line with
  | '•' :: rest =>
    (match trimBoth (rest.dropWhile pyWs) with
     | [] => line
     | c :: cs =>
       ('•' :: rest.takeWhile pyWs) ++
         (if 20 < (ucA c :: cs).length ∧ endsPunct (ucA c :: cs) = false then
            (ucA c :: cs) ++ ['.']
          else ucA c :: cs))
  | _ => line

/-- Vowel class `[aeiouAEIOU]` of the a/an fix. -/
def isVowelAE (c : Char) : Bool :=
  c = 'a' || c = 'e' || c = 'i' || c = 'o' || c = 'u' ||
  c = 'A' || c = 'E' || c = 'I' || c = 'O' || c = 'U'

/-- Head-of-list vowel test. -/
def headVowel : List Char → Bool
  | v :: _ => isVowelAE v
  | [] => false

/-- Fueled scanner for the a/an fix:
`re.sub(r'\ba\s+([aeiouAEIOU])', r'an \1', line)`.
`w` tracks whether the previous character is a word character (for `\b`). -/
def aAnScanF : Nat → Bool → List Char → List Char
  | 0, _, s => s
  | _ + 1, _, [] => []
  | fuel + 1, w, c :: cs =>
    if c = 'a' ∧ w = false ∧ 1 ≤ (cs.takeWhile pyWs).length ∧
        headVowel (cs.dropWhile pyWs) = true then
      match cs.dropWhile pyWs with
      | v :: tail => 'a' :: 'n' :: ' ' :: v :: aAnScanF fuel (isW v) tail
      | [] => [c]
    else c :: aAnScanF fuel (isW c) cs

/-- The a/an fix over a line. -/
def aAnScan (s : List Char) : List Char := aAnScanF s.length false s

/-- Fueled scanner for the double-whitespace fix:
`re.sub(r'\s{2,}', ' ', line)`. -/
def collapseWs2F : Nat → List Char → List Char
  | 0, s => s
  | _ + 1, [] => []
  | fuel + 1, c :: cs =>
    if pyWs c ∧ 1 ≤ (cs.takeWhile pyWs).length then
      ' ' :: collapseWs2F fuel (cs.dropWhile pyWs)
    else c :: collapseWs2F fuel cs

/-- The double-whitespace fix over a line. -/
def collapseWs2 (s : List Char) : List Char := collapseWs2F s.length s

/-- Per-line body of `_final_grammar_check`: bullet fix, then the a/an fix,
then whitespace collapse (the `common_errors` loop is a no-op in the source:
its body is `pass`). -/
def finalGrammarLineL (l : List Char) : List Char :=
  collapseWs2 (aAnScan (bulletFixLineL l))

/-- Embedding of `_final_grammar_check` (lines 1141–1257). -/
def finalGrammarCheckL (s : List Char) : List Char :=
  joinNL ((splitNL s).map finalGrammarLineL)

/-- String-level wrapper for `_final_grammar_check`. -/
def finalGrammarCheck (s : String) : String := ⟨finalGrammarCheckL s.data⟩

/-! ### C3: the Rule Engine throws on empty lines -/

/-- C3 (code_bug evidence): contrary to the spec's "the engine never throws;
an empty input string passes through unchanged", `_optimize_summary_line`
raises `IndexError` (modelled `none`) on the empty string, and
`_optimize_experience_line` raises on a bullet line whose text is empty after
the marker is stripped. -/
theorem c3_rule_engine_throws_on_empty :
    optimizeSummaryLine "" = none ∧ optimizeExperienceLine "•" = none := by
  constructor
  · rfl
  · rfl

/-- C6 (counterexample): the claim says lines of 20 characters or fewer are
left unpunctuated by every rewrite stage, but `_optimize_summary_line`
appends a period to the 5-character line "led x". -/
theorem c6_counterexample_short_line_punctuated :
    optimizeSummaryLine "led x" = some "Led x." ∧ "led x".length ≤ 20 := by
  constructor
  · rfl
  · decide

/-- C1 (counterexample): `_final_grammar_check` is not idempotent: on
"a a egg" one application yields "an a egg", a second yields "an an egg"
(the a→an substitution creates a fresh match). -/
theorem c1_counterexample_grammar_not_idempotent :
    finalGrammarCheck (finalGrammarCheck "a a egg") ≠ finalGrammarCheck "a a egg" := by
  decide

/-! ### `cleanPdfText` (`export-resume-pdf/route.ts` extract-resume-text
handler, lines 682–748)

Each regular-expression `replace` is embedded as an explicit scanner; the
scanners carry a fuel argument (initialized to the input length, and strictly
larger than the characters consumed per step) so that they reduce
definitionally.  JS `\s` is modelled by its ASCII members (`pyWs`). -/

/-- Step `replace(/\r\n/g, '\n')`. -/
def nlUnify : List Char → List Char
  | [] => []
  | '\r' :: '\n' :: t => '\n' :: nlUnify t
  | c :: t => c :: nlUnify t

/-- Fueled scanner for `replace(/•\s*/g, '\n• ')`. -/
def dotBulletF : Nat → List Char → List Char
  | 0, s => s
  | _ + 1, [] => []
  | fuel + 1, c :: cs =>
    if c = '•' then '\n' :: '•' :: ' ' :: dotBulletF fuel (cs.dropWhile pyWs)
    else c :: dotBulletF fuel cs

/-- Fueled scanner for `replace(/\*\s*/g, '\n* ')`. -/
def starBulletF : Nat → List Char → List Char
  | 0, s => s
  | _ + 1, [] => []
  | fuel + 1, c :: cs =>
    if c = '*' then '\n' :: '*' :: ' ' :: starBulletF fuel (cs.dropWhile pyWs)
    else c :: starBulletF fuel cs

/-- Fueled scanner for `replace(/[\-–]\s+/g, '\n- ')`. -/
def dashBulletF : Nat → List Char → List Char
  | 0, s => s
  | _ + 1, [] => []
  | fuel + 1, c :: cs =>
    if (c = '-' ∨ c = '–') ∧ 1 ≤ (cs.takeWhile pyWs).length then
      '\n' :: '-' :: ' ' :: dashBulletF fuel (cs.dropWhile pyWs)
    else c :: dashBulletF fuel cs

/-- Lookahead `(?=[A-Z][a-z])`. -/
def lookUpperLower : List Char → Bool
  | u :: l :: _ => isUpperA u && isLowerA l
  | _ => false

/-- Fueled scanner for `replace(/o\s+(?=[A-Z][a-z])/g, '\no ')`
(the lookahead is not consumed). -/
def oBulletF : Nat → List Char → List Char
  | 0, s => s
  | _ + 1, [] => []
  | fuel + 1, c :: cs =>
    if c = 'o' ∧ 1 ≤ (cs.takeWhile pyWs).length ∧
        lookUpperLower (cs.dropWhile pyWs) = true then
      '\n' :: 'o' :: ' ' :: oBulletF fuel (cs.dropWhile pyWs)
    else c :: oBulletF fuel cs

/-- Remainder parse of `- ?([a-z])` after the leading `[a-z]`. -/
def hyphRest : List Char → Option (Char × List Char)
  | '-' :: d :: t =>
    if isLowerA d then some (d, t)
    else if d = ' ' then
      match t with
      | e :: t2 => if isLowerA e then some (e, t2) else none
      | [] => none
    else none
  | _ => none

/-- Fueled scanner for `replace(/([a-z])- ?([a-z])/g, '$1$2')`. -/
def deHyphF : Nat → List Char → List Char
  | 0, s => s
  | _ + 1, [] => []
  | fuel + 1, c :: cs =>
    if isLowerA c then
      match hyphRest cs with
      | some (d, t) => c :: d :: deHyphF fuel t
      | none => c :: deHyphF fuel cs
    else c :: deHyphF fuel cs

/-- Fueled scanner for `replace(/[ \t]+/g, ' ')`. -/
def collapseSTF : Nat → List Char → List Char
  | 0, s => s
  | _ + 1, [] => []
  | fuel + 1, c :: cs =>
    if isST c then ' ' :: collapseSTF fuel (cs.dropWhile isST)
    else c :: collapseSTF fuel cs

/-- Newline test as a Bool predicate. -/
def isNL (c : Char) : Bool := c = '\n'

/-- Fueled scanner for `replace(/\n{3,}/g, '\n\n')`. -/
def collapseNLF : Nat → List Char → List Char
  | 0, s => s
  | _ + 1, [] => []
  | fuel + 1, c :: cs =>
    if c = '\n' ∧ 2 ≤ (cs.takeWhile isNL).length then
      '\n' :: '\n' :: collapseNLF fuel (cs.dropWhile isNL)
    else c :: collapseNLF fuel cs

/-- Step `replace(/[•‣◦⁃∙]/g, '•')`. -/
def bulletGlyph (c : Char) : Char :=
  if c = '•' ∨ c = '‣' ∨ c = '◦' ∨ c = '⁃' ∨ c = '∙' then '•' else c

/-- Step `replace(/[–—]/g, '-')`. -/
def dashGlyph (c : Char) : Char :=
  if c = '–' ∨ c = '—' then '-' else c

/-- Character class `[A-Z\s&]` of the header-run patterns. -/
def isCapsClass (c : Char) : Bool := isUpperA c || pyWs c || c = '&'

/-- Decide whether `l` is exactly a concatenation of at least `needed` units,
each of shape `[A-Z][A-Z\s&]+` (the unit of `(?:[A-Z][A-Z\s&]+){3,}`). -/
def decompGE : Nat → Nat → List Char → Bool
  | 0, _, _ => false
  | _ + 1, needed, [] => needed = 0
  | fuel + 1, needed, c :: cs =>
    isUpperA c &&
      (List.range (cs.takeWhile isCapsClass).length).any
        (fun j => decompGE fuel (needed - 1) (cs.drop (j + 1)))

/-- Longest prefix of `f` decomposable into at least 3 units (the greedy
extent of `(?:[A-Z][A-Z\s&]+){3,}`). -/
def capsExtent (f : List Char) : Option Nat :=
  (List.range (f.length + 1)).reverse.findSome?
    (fun n => if decompGE (n + 1) 3 (f.take n) then some n else none)

/-- Head exists and is not a newline. -/
def headNotNL : List Char → Bool
  | d :: _ => d ≠ '\n'
  | [] => false

/-- Variant with follower `([^\n])`: the largest extent whose next character
exists and is not a newline (the backtracked extent of pattern 12). -/
def capsExtentBefore (f : List Char) : Option Nat :=
  (List.range (f.length + 1)).reverse.findSome?
    (fun n =>
      if decompGE (n + 1) 3 (f.take n) ∧ headNotNL (f.drop n) = true then some n
      else none)

/-- Fueled scanner for
`replace(/([^\n])((?:[A-Z][A-Z\s&]+){3,})/g, '$1\n\n$2')`. -/
def capsBreakBeforeF : Nat → List Char → List Char
  | 0, s => s
  | _ + 1, [] => []
  | fuel + 1, c :: cs =>
    if c ≠ '\n' then
      match capsExtent cs with
      | some n => c :: '\n' :: '\n' :: (cs.take n ++ capsBreakBeforeF fuel (cs.drop n))
      | none => c :: capsBreakBeforeF fuel cs
    else c :: capsBreakBeforeF fuel cs

/-- Fueled scanner for
`replace(/((?:[A-Z][A-Z\s&]+){3,})([^\n])/g, '$1\n$2')`. -/
def capsBreakAfterF : Nat → List Char → List Char
  | 0, s => s
  | _ + 1, [] => []
  | fuel + 1, c :: cs =>
    match capsExtentBefore (c :: cs) with
    | some n =>
      (c :: cs).take n ++ '\n' ::
        (match (c :: cs).drop n with
         | d :: rest => d :: capsBreakAfterF fuel rest
         | [] => [])
    | none => c :: capsBreakAfterF fuel cs

/-- Tail consume for section pattern 1: `\s*(?:\n|\:|$)` — greedy whitespace
then a newline, a colon or the end; on success returns the rest after the
consumed part (backtracking consumes up to the last newline of the run). -/
def secP1End (after : List Char) : Option (List Char) :=
  let w2 := after.takeWhile pyWs
  let a2 := after.dropWhile pyWs
  match a2 with
  | ':' :: r => some r
  | [] => some []
  | _ =>
    if '\n' ∈ w2 then some ((w2.reverse.takeWhile (fun x => x ≠ '\n')).reverse ++ a2)
    else none

/-- Group search for section pattern 1: given the class run after the leading
`[A-Z]`, find the largest group end (ending in `[A-Z]`) whose tail matches.
The `[A-Z\\s&]+` body of the group is non-empty, so at least two characters
follow the leading `[A-Z]` (`2 ≤ e`: the whole group has three or more). -/
def secP1Grp (c0 : Char) (cs0 : List Char) : Option (List Char × List Char) :=
  (List.range (cs0.takeWhile isCapsClass).length).reverse.findSome?
    (fun i =>
      let e := i + 1
      if 2 ≤ e then
        let grp := cs0.take e
        match grp.getLast? with
        | some g =>
          if isUpperA g then
            match secP1End (cs0.drop e) with
            | some rest => some (c0 :: grp, rest)
            | none => none
          else none
        | none => none
      else none)

/-- Fueled scanner for section pattern 1:
`replace(/\n\s*([A-Z][A-Z\s&]+[A-Z])\s*(?:\n|\:|$)/g, '\n\n$1\n')`. -/
def secPat1F : Nat → List Char → List Char
  | 0, s => s
  | _ + 1, [] => []
  | fuel + 1, c :: cs =>
    if c = '\n' then
      match cs.dropWhile pyWs with
      | c0 :: cs0 =>
        if isUpperA c0 then
          match secP1Grp c0 cs0 with
          | some (grp, rest) => '\n' :: '\n' :: grp ++ '\n' :: secPat1F fuel rest
          | none => c :: secPat1F fuel cs
        else c :: secPat1F fuel cs
      | [] => c :: secPat1F fuel cs
    else c :: secPat1F fuel cs

/-- Underline characters `[\-=_]`. -/
def isDashUl (c : Char) : Bool := c = '-' || c = '=' || c = '_'

/-- Parse one `\s+[A-Z][a-z]+`: returns the consumed text and the rest. -/
def wordStep (s : List Char) : Option (List Char × List Char) :=
  let w := s.takeWhile pyWs
  if w.length = 0 then none
  else
    match s.dropWhile pyWs with
    | u :: rest =>
      if isUpperA u then
        let low := rest.takeWhile isLowerA
        if 1 ≤ low.length then some (w ++ u :: low, rest.dropWhile isLowerA)
        else none
      else none
    | [] => none

/-- Tail of section pattern 2: `\n[\-=_]{3,}\n`. -/
def secP2Tail (rest : List Char) : Option (List Char) :=
  match rest with
  | '\n' :: r2 =>
    if 3 ≤ (r2.takeWhile isDashUl).length then
      match r2.dropWhile isDashUl with
      | '\n' :: r3 => some r3
      | _ => none
    else none
  | _ => none

/-- Greedy parse of `(?:\s+[A-Z][a-z]+){1,}` followed by the underline tail
(longest word count first, then backtrack). -/
def secP2Ext : Nat → List Char → Option (List Char × List Char)
  | 0, _ => none
  | fuel + 1, rest =>
    match wordStep rest with
    | some (wtxt, rest2) =>
      match secP2Ext fuel rest2 with
      | some (g, r) => some (wtxt ++ g, r)
      | none =>
        match secP2Tail rest2 with
        | some r => some (wtxt, r)
        | none => none
    | none => none

/-- Fueled scanner for section pattern 2:
`replace(/\n([A-Z][a-z]+(?:\s+[A-Z][a-z]+){1,})\n[\-=_]{3,}\n/g, '\n\n$1\n')`. -/
def secPat2F : Nat → List Char → List Char
  | 0, s => s
  | _ + 1, [] => []
  | fuel + 1, c :: cs =>
    if c = '\n' then
      match cs with
      | u :: rest =>
        if isUpperA u ∧ 1 ≤ (rest.takeWhile isLowerA).length then
          match secP2Ext (rest.length + 1) (rest.dropWhile isLowerA) with
          | some (g, r) =>
            '\n' :: '\n' :: u :: (rest.takeWhile isLowerA ++ g) ++ '\n' :: secPat2F fuel r
          | none => c :: secPat2F fuel cs
        else c :: secPat2F fuel cs
      | [] => c :: secPat2F fuel cs
    else c :: secPat2F fuel cs

/-- Character class `[a-zA-Z\s]`. -/
def isAlphaWs (c : Char) : Bool := isUpperA c || isLowerA c || pyWs c

/-- Fueled scanner for section pattern 3:
`replace(/\n\s*([A-Z][a-zA-Z\s]+):[^\n]*\n/g, '\n\n$1\n')`.
The class run is maximal, so the colon can only follow the full run. -/
def secPat3F : Nat → List Char → List Char
  | 0, s => s
  | _ + 1, [] => []
  | fuel + 1, c :: cs =>
    if c = '\n' then
      match cs.dropWhile pyWs with
      | c0 :: cs0 =>
        if isUpperA c0 ∧ 1 ≤ (cs0.takeWhile isAlphaWs).length then
          match cs0.dropWhile isAlphaWs with
          | ':' :: afterColon =>
            (match afterColon.dropWhile (fun x => x ≠ '\n') with
             | '\n' :: r =>
               '\n' :: '\n' :: c0 :: (cs0.takeWhile isAlphaWs) ++ '\n' :: secPat3F fuel r
             | _ => c :: secPat3F fuel cs)
          | _ => c :: secPat3F fuel cs
        else c :: secPat3F fuel cs
      | [] => c :: secPat3F fuel cs
    else c :: secPat3F fuel cs

/-- Group-body search for section pattern 4: largest prefix of the class run
followed by a newline or colon (a newline may sit inside the run). -/
def secP4Body (run : List Char) (afterRun : List Char) : Option (Nat × List Char) :=
  (List.range run.length).reverse.findSome?
    (fun i =>
      let e := i + 1
      if e = run.length then
        match afterRun with
        | ':' :: r => some (e, r)
        | _ => none
      else
        match run.drop e with
        | '\n' :: _ => some (e, run.drop (e + 1) ++ afterRun)
        | _ => none)

/-- Fueled scanner for section pattern 4:
`replace(/\n\s*(\d+\.?\s+[A-Z][a-zA-Z\s]+)(?:\n|\:)/g, '\n\n$1\n')`. -/
def secPat4F : Nat → List Char → List Char
  | 0, s => s
  | _ + 1, [] => []
  | fuel + 1, c :: cs =>
    if c = '\n' then
      let afterWs := cs.dropWhile pyWs
      let digits := afterWs.takeWhile isDigitA
      if 1 ≤ digits.length then
        let afterDig := afterWs.dropWhile isDigitA
        let dotPart := (match afterDig with
                        | '.' :: _ => ['.']
                        | _ => [])
        let afterDot := (match afterDig with
                         | '.' :: r => r
                         | r => r)
        let ws2 := afterDot.takeWhile pyWs
        if 1 ≤ ws2.length then
          match afterDot.dropWhile pyWs with
          | c0 :: cs0 =>
            if isUpperA c0 ∧ 1 ≤ (cs0.takeWhile isAlphaWs).length then
              match secP4Body (cs0.takeWhile isAlphaWs) (cs0.dropWhile isAlphaWs) with
              | some (e, rest) =>
                '\n' :: '\n' :: (digits ++ dotPart ++ ws2 ++ c0 :: (cs0.takeWhile isAlphaWs).take e)
                  ++ '\n' :: secPat4F fuel rest
              | none => c :: secPat4F fuel cs
            else c :: secPat4F fuel cs
          | [] => c :: secPat4F fuel cs
        else c :: secPat4F fuel cs
      else c :: secPat4F fuel cs
    else c :: secPat4F fuel cs

/-- Fueled scanner for `replace(/([^\n])([•\*\-])/g, '$1\n$2')`. -/
def bulletOwnLineF : Nat → List Char → List Char
  | 0, s => s
  | _ + 1, [] => []
  | fuel + 1, c :: cs =>
    if c ≠ '\n' then
      match cs with
      | b :: rest =>
        if b = '•' ∨ b = '*' ∨ b = '-' then c :: '\n' :: b :: bulletOwnLineF fuel rest
        else c :: bulletOwnLineF fuel cs
      | [] => [c]
    else c :: bulletOwnLineF fuel cs

/-- Fueled scanner for the callback replace
`replace(/\n\s*([A-Za-z])/g, ...)`: an upper-case letter is turned into a
bullet line (`'\n• ' + p1`, dropping the matched whitespace); a lower-case
letter leaves the match unchanged (but consumed). -/
def upperBulletF : Nat → List Char → List Char
  | 0, s => s
  | _ + 1, [] => []
  | fuel + 1, c :: cs =>
    if c = '\n' then
      match cs.dropWhile pyWs with
      | l :: rest =>
        if isUpperA l then '\n' :: '•' :: ' ' :: l :: upperBulletF fuel rest
        else if isLowerA l then '\n' :: (cs.takeWhile pyWs ++ l :: upperBulletF fuel rest)
        else c :: upperBulletF fuel cs
      | [] => c :: upperBulletF fuel cs
    else c :: upperBulletF fuel cs

/-- Run one fueled scanner with its fuel set to the input length (the form
in which every step of `cleanPdfTextL` invokes its scanner). -/
def stage (f : Nat → List Char → List Char) (x : List Char) : List Char := f x.length x

/-- Embedding of `cleanPdfText` (route.ts lines 682–748): the full chain of
replaces, in source order, followed by `trim()`. -/
def cleanPdfTextL (s : List Char) : List Char :=
  trimBoth (stage upperBulletF (stage bulletOwnLineF (stage secPat4F (stage secPat3F
    (stage secPat2F (stage secPat1F (stage capsBreakAfterF (stage capsBreakBeforeF
    (((stage collapseNLF (stage collapseSTF (stage deHyphF (stage oBulletF
    (stage dashBulletF (stage starBulletF (stage dotBulletF
      (nlUnify s)))))))).map bulletGlyph).map dashGlyph)))))))))

/-- String-level wrapper for `cleanPdfText`. -/
def cleanPdfText (s : String) : String := ⟨cleanPdfTextL s.data⟩

/-! ### Whitespace-pair invariants (C9 amendment) -/

/-- No two adjacent characters are both space-or-tab. -/
def noSTPair : List Char → Bool
  | a :: b :: t => (!(isST a && isST b)) && noSTPair (b :: t)
  | _ => true

/-- The head character, if any, is not space-or-tab. -/
def headNotST : List Char → Bool
  | c :: _ => !isST c
  | [] => true

/-- The last character, if any, is not space-or-tab. -/
def lastNotST (l : List Char) : Bool :=
  match l.getLast? with
  | some c => !isST c
  | none => true

theorem noSTPair_tail {a : Char} {l : List Char} (h : noSTPair (a :: l) = true) :
    noSTPair l = true := by
  match l with
  | [] => rfl
  | b :: t =>
    have he : noSTPair (a :: b :: t) = ((!(isST a && isST b)) && noSTPair (b :: t)) := rfl
    rw [he] at h
    exact (Bool.and_eq_true _ _ |>.mp h).2

theorem headNotST_of_noSTPair_cons {a : Char} {l : List Char}
    (h : noSTPair (a :: l) = true) (ha : isST a = true) : headNotST l = true := by
  match l with
  | [] => rfl
  | b :: t =>
    have he : noSTPair (a :: b :: t) = ((!(isST a && isST b)) && noSTPair (b :: t)) := rfl
    rw [he] at h
    have h1 := (Bool.and_eq_true _ _ |>.mp h).1
    show (!isST b) = true
    cases hb : isST b
    · rfl
    · rw [ha, hb] at h1; simp at h1

theorem noSTPair_cons_of {a : Char} {l : List Char}
    (h : isST a = false ∨ headNotST l = true) (hl : noSTPair l = true) :
    noSTPair (a :: l) = true := by
  match l with
  | [] => rfl
  | b :: t =>
    show ((!(isST a && isST b)) && noSTPair (b :: t)) = true
    rw [Bool.and_eq_true]
    refine ⟨?_, hl⟩
    rcases h with h | h
    · rw [h]; rfl
    · have hb : isST b = false := by
        have h2 : (!isST b) = true := h
        cases hb : isST b
        · rfl
        · rw [hb] at h2; simp at h2
      rw [hb, Bool.and_false]; rfl

theorem noSTPair_dropWhile (p : Char → Bool) {l : List Char}
    (h : noSTPair l = true) : noSTPair (l.dropWhile p) = true := by
  induction l with
  | nil => exact h
  | cons a t ih =>
    by_cases hp : p a = true
    · rw [List.dropWhile_cons_of_pos hp]
      exact ih (noSTPair_tail h)
    · rw [List.dropWhile_cons_of_neg hp]
      exact h

theorem headNotST_dropWhile {p : Char → Bool} (hp : ∀ c, isST c = true → p c = true)
    (l : List Char) : headNotST (l.dropWhile p) = true := by
  induction l with
  | nil => rfl
  | cons a t ih =>
    by_cases hpa : p a = true
    · rw [List.dropWhile_cons_of_pos hpa]; exact ih
    · rw [List.dropWhile_cons_of_neg hpa]
      show (!isST a) = true
      cases ha : isST a
      · rfl
      · exact absurd (hp a ha) hpa

theorem noSTPair_append_left {A B : List Char} (h : noSTPair (A ++ B) = true) :
    noSTPair A = true := by
  induction A with
  | nil => rfl
  | cons a A2 ih =>
    match A2 with
    | [] => rfl
    | b :: A3 =>
      have h2 : noSTPair (a :: b :: (A3 ++ B)) = true := h
      have hp := (Bool.and_eq_true _ _ |>.mp h2).1
      have ht : noSTPair (b :: A3) = true := ih (noSTPair_tail h2)
      show ((!(isST a && isST b)) && noSTPair (b :: A3)) = true
      rw [Bool.and_eq_true]
      exact ⟨hp, ht⟩

theorem noSTPair_append_right {A B : List Char} (h : noSTPair (A ++ B) = true) :
    noSTPair B = true := by
  induction A with
  | nil => exact h
  | cons a A2 ih => exact ih (noSTPair_tail h)

theorem noSTPair_suffix {A B : List Char} (hs : B <:+ A) (h : noSTPair A = true) :
    noSTPair B = true := by
  obtain ⟨C, rfl⟩ := hs
  exact noSTPair_append_right h

theorem noSTPair_infix {A B : List Char} (hs : B <:+: A) (h : noSTPair A = true) :
    noSTPair B = true := by
  obtain ⟨C, D, rfl⟩ := hs
  rw [List.append_assoc] at h
  exact noSTPair_append_left (noSTPair_append_right h)

theorem noSTPair_take {l : List Char} (h : noSTPair l = true) (n : Nat) :
    noSTPair (l.take n) = true := by
  refine noSTPair_append_left (B := l.drop n) ?_
  rw [List.take_append_drop]
  exact h

theorem seam_of_append {A B : List Char} (h : noSTPair (A ++ B) = true)
    (hA : lastNotST A = false) : headNotST B = true := by
  induction A with
  | nil => simp [lastNotST] at hA
  | cons a A2 ih =>
    match A2 with
    | [] =>
      have ha : isST a = true := by
        have h2 : lastNotST [a] = (!isST a) := rfl
        rw [h2] at hA
        cases ha : isST a
        · rw [ha] at hA; simp at hA
        · rfl
      exact headNotST_of_noSTPair_cons h ha
    | b :: A3 =>
      have hA2 : lastNotST (b :: A3) = false := by
        have h2 : lastNotST (a :: b :: A3) = lastNotST (b :: A3) := by
          unfold lastNotST
          rw [List.getLast?_cons_cons]
        rw [← h2]
        exact hA
      exact ih (noSTPair_tail h) hA2

theorem noSTPair_append {A B : List Char} (hA : noSTPair A = true)
    (hB : noSTPair B = true) (h : lastNotST A = true ∨ headNotST B = true) :
    noSTPair (A ++ B) = true := by
  induction A with
  | nil => exact hB
  | cons a A2 ih =>
    match A2 with
    | [] =>
      refine noSTPair_cons_of ?_ hB
      rcases h with h | h
      · left
        have h2 : lastNotST [a] = (!isST a) := rfl
        rw [h2] at h
        cases ha : isST a
        · rfl
        · rw [ha] at h; simp at h
      · right; exact h
    | b :: A3 =>
      have hseam : lastNotST (b :: A3) = true ∨ headNotST B = true := by
        rcases h with h | h
        · left
          have h2 : lastNotST (a :: b :: A3) = lastNotST (b :: A3) := by
            unfold lastNotST
            rw [List.getLast?_cons_cons]
          rw [← h2]
          exact h
        · right; exact h
      refine noSTPair_cons_of ?_ (ih (noSTPair_tail hA) hseam)
      have hp := (Bool.and_eq_true _ _ |>.mp hA).1
      cases ha : isST a
      · left; rfl
      · right
        show (!isST b) = true
        cases hb : isST b
        · rfl
        · rw [ha, hb] at hp; simp at hp

theorem noSTPair_copy_cons {c : Char} {cs X : List Char}
    (h : noSTPair (c :: cs) = true) (hX : noSTPair X = true)
    (hhd : headNotST cs = true → headNotST X = true) :
    noSTPair (c :: X) = true := by
  refine noSTPair_cons_of ?_ hX
  cases hc : isST c
  · left; rfl
  · right; exact hhd (headNotST_of_noSTPair_cons h hc)

theorem lastNotST_reverse (l : List Char) : lastNotST l.reverse = headNotST l := by
  unfold lastNotST
  rw [List.getLast?_reverse]
  match l with
  | [] => rfl
  | c :: t => rfl

theorem noSTPair_reverse {l : List Char} (h : noSTPair l = true) :
    noSTPair l.reverse = true := by
  induction l with
  | nil => rfl
  | cons a t ih =>
    rw [List.reverse_cons]
    refine noSTPair_append (ih (noSTPair_tail h)) rfl ?_
    cases ha : isST a
    · right
      show (!isST a) = true
      rw [ha]; rfl
    · left
      rw [lastNotST_reverse]
      exact headNotST_of_noSTPair_cons h ha

theorem headNotST_collapseSTF (fuel : Nat) {s : List Char} (h : headNotST s = true) :
    headNotST (collapseSTF fuel s) = true := by
  match fuel, s with
  | 0, s => exact h
  | fuel + 1, [] => rfl
  | fuel + 1, c :: cs =>
    have hc : isST c = false := by
      have h2 : (!isST c) = true := h
      cases hc : isST c
      · rfl
      · rw [hc] at h2; simp at h2
    rw [collapseSTF, if_neg (by simp [hc])]
    exact h

theorem noSTPair_collapseSTF (fuel : Nat) : ∀ s : List Char, s.length ≤ fuel →
    noSTPair (collapseSTF fuel s) = true := by
  induction fuel with
  | zero =>
    intro s h
    have hs : s = [] := List.eq_nil_of_length_eq_zero (Nat.le_zero.mp h)
    rw [hs]
    rfl
  | succ n ih =>
    intro s h
    match s with
    | [] => rfl
    | c :: cs =>
      have hlen : cs.length ≤ n := by
        have h2 : cs.length + 1 ≤ n + 1 := by simpa using h
        omega
      rw [collapseSTF]
      by_cases hc : isST c = true
      · rw [if_pos hc]
        refine noSTPair_cons_of (Or.inr ?_) ?_
        · exact headNotST_collapseSTF n (headNotST_dropWhile (fun _ hh => hh) cs)
        · exact ih _ (le_trans (length_dropWhile_le _ _) hlen)
      · rw [if_neg hc]
        refine noSTPair_cons_of (Or.inl (by simpa using hc)) ?_
        exact ih _ hlen

theorem noSTPair_trimBoth {s : List Char} (h : noSTPair s = true) :
    noSTPair (trimBoth s) = true := by
  unfold trimBoth trimR trimL
  exact noSTPair_reverse (noSTPair_dropWhile _ (noSTPair_reverse (noSTPair_dropWhile _ h)))

theorem headNotST_collapseNLF (fuel : Nat) {s : List Char} (h : headNotST s = true) :
    headNotST (collapseNLF fuel s) = true := by
  match fuel, s with
  | 0, s => exact h
  | fuel + 1, [] => rfl
  | fuel + 1, c :: cs =>
    rw [collapseNLF]
    by_cases hcond : c = '\n' ∧ 2 ≤ (cs.takeWhile isNL).length
    · rw [if_pos hcond]
      rfl
    · rw [if_neg hcond]
      exact h

theorem noSTPair_collapseNLF (fuel : Nat) : ∀ {s : List Char}, noSTPair s = true →
    noSTPair (collapseNLF fuel s) = true := by
  induction fuel with
  | zero => intro s h; exact h
  | succ n ih =>
    intro s h
    match s with
    | [] => rfl
    | c :: cs =>
      rw [collapseNLF]
      by_cases hcond : c = '\n' ∧ 2 ≤ (cs.takeWhile isNL).length
      · rw [if_pos hcond]
        refine noSTPair_cons_of (Or.inl rfl) ?_
        refine noSTPair_cons_of (Or.inl rfl) ?_
        exact ih (noSTPair_dropWhile _ (noSTPair_tail h))
      · rw [if_neg hcond]
        exact noSTPair_copy_cons h (ih (noSTPair_tail h)) (headNotST_collapseNLF n)

theorem isST_bulletGlyph (c : Char) : isST (bulletGlyph c) = isST c := by
  unfold bulletGlyph
  by_cases h : c = '•' ∨ c = '‣' ∨ c = '◦' ∨ c = '⁃' ∨ c = '∙'
  · rw [if_pos h]
    rcases h with h | h | h | h | h <;> rw [h] <;> rfl
  · rw [if_neg h]

theorem isST_dashGlyph (c : Char) : isST (dashGlyph c) = isST c := by
  unfold dashGlyph
  by_cases h : c = '–' ∨ c = '—'
  · rw [if_pos h]
    rcases h with h | h <;> rw [h] <;> rfl
  · rw [if_neg h]

theorem noSTPair_map {f : Char → Char} (hf : ∀ c, isST (f c) = isST c) :
    ∀ {l : List Char}, noSTPair l = true → noSTPair (l.map f) = true := by
  intro l
  induction l with
  | nil => intro _; rfl
  | cons a t ih =>
    intro h
    rw [List.map_cons]
    refine noSTPair_cons_of ?_ (ih (noSTPair_tail h))
    cases ha : isST a
    · left
      rw [hf a]
      exact ha
    · right
      have hht := headNotST_of_noSTPair_cons h ha
      match t with
      | [] => rfl
      | b :: t2 =>
        rw [List.map_cons]
        show (!isST (f b)) = true
        rw [hf b]
        exact hht

theorem headNotST_capsBreakBeforeF (fuel : Nat) {s : List Char} (h : headNotST s = true) :
    headNotST (capsBreakBeforeF fuel s) = true := by
  match fuel, s with
  | 0, s => exact h
  | fuel + 1, [] => rfl
  | fuel + 1, c :: cs =>
    rw [capsBreakBeforeF]
    by_cases hc : c ≠ '\n'
    · rw [if_pos hc]
      cases hext : capsExtent cs with
      | some m => exact h
      | none => exact h
    · rw [if_neg hc]
      exact h

theorem noSTPair_capsBreakBeforeF (fuel : Nat) : ∀ {s : List Char}, noSTPair s = true →
    noSTPair (capsBreakBeforeF fuel s) = true := by
  induction fuel with
  | zero => intro s h; exact h
  | succ n ih =>
    intro s h
    match s with
    | [] => rfl
    | c :: cs =>
      rw [capsBreakBeforeF]
      by_cases hc : c ≠ '\n'
      · rw [if_pos hc]
        cases hext : capsExtent cs with
        | some m =>
          refine noSTPair_cons_of (Or.inr rfl) ?_
          refine noSTPair_cons_of (Or.inl rfl) ?_
          refine noSTPair_cons_of (Or.inl rfl) ?_
          refine noSTPair_append (noSTPair_take (noSTPair_tail h) m)
            (ih (noSTPair_suffix (List.drop_suffix m cs) (noSTPair_tail h))) ?_
          by_cases hlast : lastNotST (cs.take m) = true
          · left; exact hlast
          · right
            refine headNotST_capsBreakBeforeF n ?_
            refine seam_of_append (A := cs.take m) ?_ (by simpa using hlast)
            rw [List.take_append_drop]
            exact noSTPair_tail h
        | none =>
          exact noSTPair_copy_cons h (ih (noSTPair_tail h)) (headNotST_capsBreakBeforeF n)
      · rw [if_neg hc]
        exact noSTPair_copy_cons h (ih (noSTPair_tail h)) (headNotST_capsBreakBeforeF n)

theorem headNotST_capsBreakAfterF (fuel : Nat) {s : List Char} (h : headNotST s = true) :
    headNotST (capsBreakAfterF fuel s) = true := by
  match fuel, s with
  | 0, s => exact h
  | fuel + 1, [] => rfl
  | fuel + 1, c :: cs =>
    rw [capsBreakAfterF]
    cases hext : capsExtentBefore (c :: cs) with
    | none => exact h
    | some m =>
      match m with
      | 0 => rfl
      | m + 1 => exact h

theorem noSTPair_capsBreakAfterF (fuel : Nat) : ∀ {s : List Char}, noSTPair s = true →
    noSTPair (capsBreakAfterF fuel s) = true := by
  induction fuel with
  | zero => intro s h; exact h
  | succ n ih =>
    intro s h
    match s with
    | [] => rfl
    | c :: cs =>
      rw [capsBreakAfterF]
      cases hext : capsExtentBefore (c :: cs) with
      | none =>
        exact noSTPair_copy_cons h (ih (noSTPair_tail h)) (headNotST_capsBreakAfterF n)
      | some m =>
        refine noSTPair_append (noSTPair_take h m) ?_ (Or.inr rfl)
        refine noSTPair_cons_of (Or.inl rfl) ?_
        cases hdrop : (c :: cs).drop m with
        | nil => rfl
        | cons d rest =>
          have hdr : noSTPair (d :: rest) = true := by
            rw [← hdrop]
            exact noSTPair_suffix (List.drop_suffix m (c :: cs)) h
          exact noSTPair_copy_cons hdr (ih (noSTPair_tail hdr)) (headNotST_capsBreakAfterF n)

theorem suffix_append_same {l m t : List Char} (h : l <:+ m) : l ++ t <:+ m ++ t := by
  obtain ⟨C, rfl⟩ := h
  exact ⟨C, by rw [List.append_assoc]⟩

theorem secP1End_suffix {after rest : List Char} (h : secP1End after = some rest) :
    rest <:+ after := by
  simp only [secP1End] at h
  split at h
  · rename_i r heq
    injection h with h
    subst h
    refine List.IsSuffix.trans ?_ (List.dropWhile_suffix pyWs)
    rw [heq]
    exact List.suffix_cons ':' r
  · injection h with h
    subst h
    exact List.nil_suffix
  · split at h
    · injection h with h
      subst h
      have h1 : ((after.takeWhile pyWs).reverse.takeWhile (fun x => x ≠ '\n')).reverse
          <:+ after.takeWhile pyWs := by
        obtain ⟨t, ht⟩ :=
          List.takeWhile_prefix (l := (after.takeWhile pyWs).reverse)
            (fun x => x ≠ '\n')
        refine ⟨t.reverse, ?_⟩
        calc t.reverse ++
              ((after.takeWhile pyWs).reverse.takeWhile (fun x => x ≠ '\n')).reverse
            = ((after.takeWhile pyWs).reverse.takeWhile (fun x => x ≠ '\n') ++ t).reverse := by
              rw [List.reverse_append]
          _ = (after.takeWhile pyWs).reverse.reverse := by rw [ht]
          _ = after.takeWhile pyWs := List.reverse_reverse _
      calc ((after.takeWhile pyWs).reverse.takeWhile (fun x => x ≠ '\n')).reverse ++
            after.dropWhile pyWs
          <:+ after.takeWhile pyWs ++ after.dropWhile pyWs := suffix_append_same h1
        _ = after := List.takeWhile_append_dropWhile pyWs after
    · exact absurd h (by simp)

theorem secP1Grp_spec {c0 : Char} {cs0 grp rest : List Char}
    (h : secP1Grp c0 cs0 = some (grp, rest)) :
    ∃ e, 2 ≤ e ∧ grp = c0 :: cs0.take e ∧ secP1End (cs0.drop e) = some rest := by
  unfold secP1Grp at h
  obtain ⟨i, _, hf⟩ := List.exists_of_findSome?_eq_some h
  simp only at hf
  split at hf
  · rename_i hle
    split at hf
    · split at hf
      · split at hf
        · rename_i heq
          injection hf with hf
          rw [Prod.mk.injEq] at hf
          obtain ⟨h1, h2⟩ := hf
          refine ⟨i + 1, hle, h1.symm, ?_⟩
          rw [h2] at heq
          exact heq
        · exact absurd hf (by simp)
      · exact absurd hf (by simp)
    · exact absurd hf (by simp)
  · exact absurd hf (by simp)

theorem headNotST_secPat1F (fuel : Nat) {s : List Char} (h : headNotST s = true) :
    headNotST (secPat1F fuel s) = true := by
  match fuel, s with
  | 0, s => exact h
  | fuel + 1, [] => rfl
  | fuel + 1, c :: cs =>
    rw [secPat1F]
    split
    · split
      · split
        · split
          · rfl
          · exact h
        · exact h
      · exact h
    · exact h

theorem noSTPair_secPat1F (fuel : Nat) : ∀ {s : List Char}, noSTPair s = true →
    noSTPair (secPat1F fuel s) = true := by
  induction fuel with
  | zero => intro s h; exact h
  | succ n ih =>
    intro s h
    match s with
    | [] => rfl
    | c :: cs =>
      have hcopy : noSTPair (c :: secPat1F n cs) = true :=
        noSTPair_copy_cons h (ih (noSTPair_tail h)) (headNotST_secPat1F n)
      rw [secPat1F]
      split
      · split
        · split
          · split
            · rename_i t0 c0 cs0 hd hu o grp rest hg
              obtain ⟨e, _, hgrp, hend⟩ := secP1Grp_spec hg
              have hc0cs0 : noSTPair (c0 :: cs0) = true := by
                rw [← hd]
                exact noSTPair_dropWhile pyWs (noSTPair_tail h)
              have hgrpST : noSTPair grp = true := by
                rw [hgrp]
                have h2 := noSTPair_take hc0cs0 (e + 1)
                rwa [List.take_succ_cons] at h2
              have hrest : noSTPair rest = true := by
                refine noSTPair_suffix ?_ hc0cs0
                refine List.IsSuffix.trans (secP1End_suffix hend) ?_
                refine List.IsSuffix.trans (List.drop_suffix e cs0) ?_
                exact List.suffix_cons c0 cs0
              show noSTPair ('\n' :: '\n' :: (grp ++ '\n' :: secPat1F n rest)) = true
              refine noSTPair_cons_of (Or.inl rfl) ?_
              refine noSTPair_cons_of (Or.inl rfl) ?_
              refine noSTPair_append hgrpST ?_ (Or.inr rfl)
              refine noSTPair_cons_of (Or.inl rfl) ?_
              exact ih hrest
            · exact hcopy
          · exact hcopy
        · exact hcopy
      · exact hcopy

theorem isST_false_of_upper {c : Char} (h : isUpperA c = true) : isST c = false := by
  cases hst : isST c
  · rfl
  · have h2 : c = ' ' ∨ c = '\t' := by simpa [isST] using hst
    rcases h2 with h2 | h2 <;> rw [h2] at h <;> exact absurd h (by decide)

theorem isST_false_of_digit {c : Char} (h : isDigitA c = true) : isST c = false := by
  cases hst : isST c
  · rfl
  · have h2 : c = ' ' ∨ c = '\t' := by simpa [isST] using hst
    rcases h2 with h2 | h2 <;> rw [h2] at h <;> exact absurd h (by decide)

theorem noSTPair_of_forall {l : List Char} (h : ∀ c ∈ l, isST c = false) :
    noSTPair l = true := by
  induction l with
  | nil => rfl
  | cons a t ih =>
    refine noSTPair_cons_of (Or.inl (h a (List.mem_cons_self a t))) (ih ?_)
    intro c hc
    exact h c (List.mem_cons_of_mem a hc)

theorem lastNotST_of_forall {l : List Char} (h : ∀ c ∈ l, isST c = false) :
    lastNotST l = true := by
  unfold lastNotST
  cases hl : l.getLast? with
  | none => rfl
  | some g =>
    have hg : g ∈ l := by
      obtain ⟨hne, rfl⟩ := List.mem_getLast?_eq_getLast (by rw [hl]; exact rfl)
      exact List.getLast_mem hne
    show (!isST g) = true
    rw [h g hg]
    rfl

theorem wordStep_spec {s wtxt rest2 : List Char} (h : wordStep s = some (wtxt, rest2)) :
    s = wtxt ++ rest2 := by
  simp only [wordStep] at h
  split at h
  · exact absurd h (by simp)
  · split at h
    · rename_i u rest heq
      split at h
      · split at h
        · injection h with h
          rw [Prod.mk.injEq] at h
          obtain ⟨h1, h2⟩ := h
          rw [← h1, ← h2]
          calc s = s.takeWhile pyWs ++ s.dropWhile pyWs :=
                (List.takeWhile_append_dropWhile pyWs s).symm
            _ = s.takeWhile pyWs ++ (u :: (rest.takeWhile isLowerA ++ rest.dropWhile isLowerA)) := by
                rw [heq, List.takeWhile_append_dropWhile]
            _ = s.takeWhile pyWs ++ u :: rest.takeWhile isLowerA ++ rest.dropWhile isLowerA := by
                simp
        · exact absurd h (by simp)
      · exact absurd h (by simp)
    · exact absurd h (by simp)

theorem secP2Tail_suffix {rest r : List Char} (h : secP2Tail rest = some r) :
    r <:+ rest := by
  simp only [secP2Tail] at h
  split at h
  · rename_i r2
    split at h
    · split at h
      · rename_i r3 heq2
        injection h with h
        rw [← h]
        refine List.IsSuffix.trans ?_ (List.suffix_cons '\n' r2)
        refine List.IsSuffix.trans ?_ (List.dropWhile_suffix isDashUl)
        rw [heq2]
        exact List.suffix_cons '\n' r3
      · exact absurd h (by simp)
    · exact absurd h (by simp)
  · exact absurd h (by simp)

theorem secP2Ext_spec : ∀ (fuel : Nat) {rest g r : List Char},
    secP2Ext fuel rest = some (g, r) → ∃ mid, rest = g ++ mid ∧ r <:+ mid := by
  intro fuel
  induction fuel with
  | zero => intro rest g r h; exact absurd h (by simp [secP2Ext])
  | succ n ih =>
    intro rest g r h
    rw [secP2Ext] at h
    split at h
    · rename_i wtxt rest2 heq
      split at h
      · rename_i g2 r2 heq2
        injection h with h
        rw [Prod.mk.injEq] at h
        obtain ⟨h1, h2⟩ := h
        obtain ⟨mid, hmid, hr⟩ := ih heq2
        refine ⟨mid, ?_, ?_⟩
        · rw [wordStep_spec heq, hmid, ← h1, List.append_assoc]
        · rw [← h2]; exact hr
      · split at h
        · rename_i r0 heq3
          injection h with h
          rw [Prod.mk.injEq] at h
          obtain ⟨h1, h2⟩ := h
          refine ⟨rest2, ?_, ?_⟩
          · rw [wordStep_spec heq, ← h1]
          · rw [← h2]; exact secP2Tail_suffix heq3
        · exact absurd h (by simp)
    · exact absurd h (by simp)

theorem secPat2F_cons (fuel : Nat) (c : Char) (cs : List Char) :
    secPat2F (fuel + 1) (c :: cs) =
      (if c = '\n' then
        match cs with
        | u :: rest =>
          if isUpperA u ∧ 1 ≤ (rest.takeWhile isLowerA).length then
            match secP2Ext (rest.length + 1) (rest.dropWhile isLowerA) with
            | some (g, r) =>
              '\n' :: '\n' :: u :: (rest.takeWhile isLowerA ++ g) ++ '\n' :: secPat2F fuel r
            | none => c :: secPat2F fuel cs
          else c :: secPat2F fuel cs
        | [] => c :: secPat2F fuel cs
      else c :: secPat2F fuel cs) := rfl

theorem headNotST_secPat2F (fuel : Nat) {s : List Char} (h : headNotST s = true) :
    headNotST (secPat2F fuel s) = true := by
  match fuel, s with
  | 0, s => exact h
  | fuel + 1, [] => rfl
  | fuel + 1, c :: cs =>
    rw [secPat2F_cons]
    split
    · split
      · split
        · split
          · rfl
          · exact h
        · exact h
      · exact h
    · exact h

theorem noSTPair_secPat2F (fuel : Nat) : ∀ {s : List Char}, noSTPair s = true →
    noSTPair (secPat2F fuel s) = true := by
  induction fuel with
  | zero => intro s h; exact h
  | succ n ih =>
    intro s h
    match s with
    | [] => rfl
    | c :: cs =>
      have hcopy : noSTPair (c :: secPat2F n cs) = true :=
        noSTPair_copy_cons h (ih (noSTPair_tail h)) (headNotST_secPat2F n)
      rw [secPat2F_cons]
      split
      · split
        · split
          · split
            · rename_i x0 u rest hcond o g r hext
              obtain ⟨mid, hmid, hr⟩ := secP2Ext_spec (rest.length + 1) hext
              have hcs2 : noSTPair (u :: rest) = true := noSTPair_tail h
              have hdecomp : u :: rest =
                  (u :: (rest.takeWhile isLowerA ++ g)) ++ mid := by
                have hrw : rest = rest.takeWhile isLowerA ++ (g ++ mid) := by
                  rw [← hmid, List.takeWhile_append_dropWhile]
                rw [List.cons_append, List.append_assoc, ← hrw]
              have hpre : noSTPair (u :: (rest.takeWhile isLowerA ++ g)) = true := by
                refine noSTPair_append_left (B := mid) ?_
                rw [← hdecomp]
                exact hcs2
              have hrest : noSTPair r = true := by
                refine noSTPair_suffix (List.IsSuffix.trans hr ?_) hcs2
                rw [hdecomp]
                exact List.suffix_append _ mid
              show noSTPair
                ('\n' :: '\n' :: ((u :: (rest.takeWhile isLowerA ++ g)) ++
                  '\n' :: secPat2F n r)) = true
              refine noSTPair_cons_of (Or.inl rfl) ?_
              refine noSTPair_cons_of (Or.inl rfl) ?_
              refine noSTPair_append hpre ?_ (Or.inr rfl)
              refine noSTPair_cons_of (Or.inl rfl) ?_
              exact ih hrest
            · exact hcopy
          · exact hcopy
        · exact hcopy
      · exact hcopy

theorem headNotST_secPat3F (fuel : Nat) {s : List Char} (h : headNotST s = true) :
    headNotST (secPat3F fuel s) = true := by
  match fuel, s with
  | 0, s => exact h
  | fuel + 1, [] => rfl
  | fuel + 1, c :: cs =>
    rw [secPat3F]
    split
    · split
      · split
        · split
          · split
            · rfl
            · exact h
          · exact h
        · exact h
      · exact h
    · exact h

theorem noSTPair_secPat3F (fuel : Nat) : ∀ {s : List Char}, noSTPair s = true →
    noSTPair (secPat3F fuel s) = true := by
  induction fuel with
  | zero => intro s h; exact h
  | succ n ih =>
    intro s h
    match s with
    | [] => rfl
    | c :: cs =>
      have hcopy : noSTPair (c :: secPat3F n cs) = true :=
        noSTPair_copy_cons h (ih (noSTPair_tail h)) (headNotST_secPat3F n)
      rw [secPat3F]
      split
      · split
        · split
          · split
            · split
              · rename_i x0 c0 cs0 hd hcond x1 afterColon hac x2 r hr
                have hc0cs0 : noSTPair (c0 :: cs0) = true := by
                  rw [← hd]
                  exact noSTPair_dropWhile pyWs (noSTPair_tail h)
                have htw : noSTPair (cs0.takeWhile isAlphaWs) = true := by
                  refine noSTPair_append_left (B := cs0.dropWhile isAlphaWs) ?_
                  rw [List.takeWhile_append_dropWhile]
                  exact noSTPair_tail hc0cs0
                have hrest : noSTPair r = true := by
                  refine noSTPair_suffix ?_ (noSTPair_tail hc0cs0)
                  refine List.IsSuffix.trans (List.suffix_cons '\n' r) ?_
                  rw [← hr]
                  refine List.IsSuffix.trans (List.dropWhile_suffix (fun x => x ≠ '\n')) ?_
                  refine List.IsSuffix.trans (List.suffix_cons ':' afterColon) ?_
                  rw [← hac]
                  exact List.dropWhile_suffix isAlphaWs
                show noSTPair ('\n' :: '\n' ::
                  ((c0 :: cs0.takeWhile isAlphaWs) ++ '\n' :: secPat3F n r)) = true
                refine noSTPair_cons_of (Or.inl rfl) ?_
                refine noSTPair_cons_of (Or.inl rfl) ?_
                refine noSTPair_append
                  (noSTPair_cons_of (Or.inl (isST_false_of_upper hcond.1)) htw) ?_
                  (Or.inr rfl)
                refine noSTPair_cons_of (Or.inl rfl) ?_
                exact ih hrest
              · exact hcopy
            · exact hcopy
          · exact hcopy
        · exact hcopy
      · exact hcopy

theorem secP4Body_spec {run afterRun : List Char} {e : Nat} {rest : List Char}
    (h : secP4Body run afterRun = some (e, rest)) : rest <:+ run ++ afterRun := by
  unfold secP4Body at h
  obtain ⟨i, _, hf⟩ := List.exists_of_findSome?_eq_some h
  simp only at hf
  split at hf
  · split at hf
    · rename_i r
      injection hf with hf
      rw [Prod.mk.injEq] at hf
      obtain ⟨h1, h2⟩ := hf
      rw [← h2]
      refine List.IsSuffix.trans ?_ (List.suffix_append run (':' :: r))
      exact List.suffix_cons ':' r
    · exact absurd hf (by simp)
  · split at hf
    · rename_i x heq
      injection hf with hf
      rw [Prod.mk.injEq] at hf
      obtain ⟨h1, h2⟩ := hf
      rw [← h2]
      exact suffix_append_same (List.drop_suffix (i + 1 + 1) run)
    · exact absurd hf (by simp)

theorem lastNotST_concat (l : List Char) (a : Char) :
    lastNotST (l ++ [a]) = (!isST a) := by
  unfold lastNotST
  rw [List.getLast?_concat]

theorem headNotST_secPat4F (fuel : Nat) {s : List Char} (h : headNotST s = true) :
    headNotST (secPat4F fuel s) = true := by
  match fuel, s with
  | 0, s => exact h
  | fuel + 1, [] => rfl
  | fuel + 1, c :: cs =>
    rw [secPat4F]
    split
    · dsimp only
      split
      · split
        · split
          · split
            · split
              · rfl
              · exact h
            · exact h
          · exact h
        · exact h
      · exact h
    · exact h

theorem noSTPair_group_assemble {dg dot adot : List Char} {c0 : Char} {cs0 X : List Char}
    {e : Nat}
    (hdg : ∀ x ∈ dg, isST x = false)
    (hdot : dot = [] ∨ dot = ['.'])
    (hadot : noSTPair adot = true)
    (heqC : adot.dropWhile pyWs = c0 :: cs0)
    (hup : isUpperA c0 = true)
    (hX : noSTPair X = true) :
    noSTPair ('\n' :: '\n' ::
      ((((dg ++ dot) ++ adot.takeWhile pyWs) ++
        (c0 :: (cs0.takeWhile isAlphaWs).take e)) ++ ('\n' :: X))) = true := by
  have hc0cs0 : noSTPair (c0 :: cs0) = true := by
    rw [← heqC]
    exact noSTPair_dropWhile pyWs hadot
  have hw2 : noSTPair (adot.takeWhile pyWs) = true := by
    refine noSTPair_append_left (B := adot.dropWhile pyWs) ?_
    rw [List.takeWhile_append_dropWhile]
    exact hadot
  have hrun : noSTPair ((cs0.takeWhile isAlphaWs).take e) = true := by
    refine noSTPair_take ?_ e
    refine noSTPair_append_left (B := cs0.dropWhile isAlphaWs) ?_
    rw [List.takeWhile_append_dropWhile]
    exact noSTPair_tail hc0cs0
  have hdgP : noSTPair dg = true := noSTPair_of_forall hdg
  have hdgL : lastNotST dg = true := lastNotST_of_forall hdg
  have hdotP : noSTPair dot = true := by
    rcases hdot with h | h <;> rw [h] <;> rfl
  have hA2 : noSTPair (dg ++ dot) = true :=
    noSTPair_append hdgP hdotP (Or.inl hdgL)
  have hA2L : lastNotST (dg ++ dot) = true := by
    rcases hdot with h | h
    · rw [h, List.append_nil]
      exact hdgL
    · rw [h, lastNotST_concat]
      rfl
  have hA1 : noSTPair ((dg ++ dot) ++ adot.takeWhile pyWs) = true :=
    noSTPair_append hA2 hw2 (Or.inl hA2L)
  have hB1 : noSTPair (c0 :: (cs0.takeWhile isAlphaWs).take e) = true :=
    noSTPair_cons_of (Or.inl (isST_false_of_upper hup)) hrun
  have hG : noSTPair (((dg ++ dot) ++ adot.takeWhile pyWs) ++
      (c0 :: (cs0.takeWhile isAlphaWs).take e)) = true := by
    refine noSTPair_append hA1 hB1 (Or.inr ?_)
    show (!isST c0) = true
    rw [isST_false_of_upper hup]
    rfl
  refine noSTPair_cons_of (Or.inl rfl) ?_
  refine noSTPair_cons_of (Or.inl rfl) ?_
  refine noSTPair_append hG ?_ (Or.inr rfl)
  exact noSTPair_cons_of (Or.inl rfl) hX

theorem noSTPair_secPat4F (fuel : Nat) : ∀ {s : List Char}, noSTPair s = true →
    noSTPair (secPat4F fuel s) = true := by
  induction fuel with
  | zero => intro s h; exact h
  | succ n ih =>
    intro s h
    match s with
    | [] => rfl
    | c :: cs =>
      have hcopy : noSTPair (c :: secPat4F n cs) = true :=
        noSTPair_copy_cons h (ih (noSTPair_tail h)) (headNotST_secPat4F n)
      have haD : noSTPair ((cs.dropWhile pyWs).dropWhile isDigitA) = true :=
        noSTPair_dropWhile isDigitA (noSTPair_dropWhile pyWs (noSTPair_tail h))
      have hdg : ∀ x ∈ (cs.dropWhile pyWs).takeWhile isDigitA, isST x = false :=
        fun x hx => isST_false_of_digit (List.mem_takeWhile_imp hx)
      rw [secPat4F]
      split
      · dsimp only
        split
        · split
          · split
            · split
              · split
                · rename_i t0 c0 cs0 heqC hcond o e rest heqB
                  rcases hshape : (cs.dropWhile pyWs).dropWhile isDigitA with _ | ⟨d, r⟩
                  · rw [hshape] at heqC
                    have heqC2 : ([] : List Char) = c0 :: cs0 := heqC
                    exact absurd heqC2 (by simp)
                  · rw [hshape] at haD heqC
                    by_cases hd : d = '.'
                    · subst hd
                      have heqC2 : r.dropWhile pyWs = c0 :: cs0 := heqC
                      have hadot : noSTPair r = true := noSTPair_tail haD
                      have hc0cs0 : noSTPair (c0 :: cs0) = true := by
                        rw [← heqC2]
                        exact noSTPair_dropWhile pyWs hadot
                      have hrest : noSTPair rest = true := by
                        refine noSTPair_suffix ?_ (noSTPair_tail hc0cs0)
                        have hs2 := secP4Body_spec heqB
                        rwa [List.takeWhile_append_dropWhile] at hs2
                      exact noSTPair_group_assemble hdg (Or.inr rfl) hadot heqC2
                        hcond.1 (ih hrest)
                    · have hdot : (match d :: r with
                          | '.' :: _ => (['.'] : List Char)
                          | _ => []) = [] := by
                        split
                        · rename_i tail heq
                          injection heq with h1 _
                          exact absurd h1 hd
                        · rfl
                      have hAd : (match d :: r with
                          | '.' :: r2 => r2
                          | r2 => r2) = d :: r := by
                        split
                        · rename_i tail heq
                          injection heq with h1 _
                          exact absurd h1 hd
                        · rfl
                      rw [hAd] at heqC
                      have heqC2 : (d :: r).dropWhile pyWs = c0 :: cs0 := heqC
                      have hc0cs0 : noSTPair (c0 :: cs0) = true := by
                        rw [← heqC2]
                        exact noSTPair_dropWhile pyWs haD
                      have hrest : noSTPair rest = true := by
                        refine noSTPair_suffix ?_ (noSTPair_tail hc0cs0)
                        have hs2 := secP4Body_spec heqB
                        rwa [List.takeWhile_append_dropWhile] at hs2
                      rw [hdot, hAd]
                      exact noSTPair_group_assemble hdg (Or.inl rfl) haD heqC2
                        hcond.1 (ih hrest)
                · exact hcopy
              · exact hcopy
            · exact hcopy
          · exact hcopy
        · exact hcopy
      · exact hcopy

theorem isST_false_of_lower {c : Char} (h : isLowerA c = true) : isST c = false := by
  cases hst : isST c
  · rfl
  · have h2 : c = ' ' ∨ c = '\t' := by simpa [isST] using hst
    rcases h2 with h2 | h2 <;> rw [h2] at h <;> exact absurd h (by decide)

theorem bulletOwnLineF_cons (fuel : Nat) (c : Char) (cs : List Char) :
    bulletOwnLineF (fuel + 1) (c :: cs) =
      (if c ≠ '\n' then
        match cs with
        | b :: rest =>
          if b = '•' ∨ b = '*' ∨ b = '-' then c :: '\n' :: b :: bulletOwnLineF fuel rest
          else c :: bulletOwnLineF fuel cs
        | [] => [c]
      else c :: bulletOwnLineF fuel cs) := rfl

theorem headNotST_bulletOwnLineF (fuel : Nat) {s : List Char} (h : headNotST s = true) :
    headNotST (bulletOwnLineF fuel s) = true := by
  match fuel, s with
  | 0, s => exact h
  | fuel + 1, [] => rfl
  | fuel + 1, c :: cs =>
    rw [bulletOwnLineF_cons]
    split
    · split
      · split
        · exact h
        · exact h
      · exact h
    · exact h

theorem noSTPair_bulletOwnLineF (fuel : Nat) : ∀ {s : List Char}, noSTPair s = true →
    noSTPair (bulletOwnLineF fuel s) = true := by
  induction fuel with
  | zero => intro s h; exact h
  | succ n ih =>
    intro s h
    match s with
    | [] => rfl
    | c :: cs =>
      have hcopy : noSTPair (c :: bulletOwnLineF n cs) = true :=
        noSTPair_copy_cons h (ih (noSTPair_tail h)) (headNotST_bulletOwnLineF n)
      rw [bulletOwnLineF_cons]
      split
      · split
        · split
          · rename_i b rest hne hb
            refine noSTPair_cons_of (Or.inr rfl) ?_
            refine noSTPair_cons_of (Or.inl rfl) ?_
            exact noSTPair_copy_cons (noSTPair_tail h)
              (ih (noSTPair_tail (noSTPair_tail h))) (headNotST_bulletOwnLineF n)
          · exact hcopy
        · rfl
      · exact hcopy

theorem headNotST_upperBulletF (fuel : Nat) {s : List Char} (h : headNotST s = true) :
    headNotST (upperBulletF fuel s) = true := by
  match fuel, s with
  | 0, s => exact h
  | fuel + 1, [] => rfl
  | fuel + 1, c :: cs =>
    rw [upperBulletF]
    split
    · split
      · split
        · rfl
        · split
          · rfl
          · exact h
      · exact h
    · exact h

theorem noSTPair_upperBulletF (fuel : Nat) : ∀ {s : List Char}, noSTPair s = true →
    noSTPair (upperBulletF fuel s) = true := by
  induction fuel with
  | zero => intro s h; exact h
  | succ n ih =>
    intro s h
    match s with
    | [] => rfl
    | c :: cs =>
      have hcopy : noSTPair (c :: upperBulletF n cs) = true :=
        noSTPair_copy_cons h (ih (noSTPair_tail h)) (headNotST_upperBulletF n)
      have htw : noSTPair (cs.takeWhile pyWs) = true := by
        refine noSTPair_append_left (B := cs.dropWhile pyWs) ?_
        rw [List.takeWhile_append_dropWhile]
        exact noSTPair_tail h
      rw [upperBulletF]
      split
      · split
        · split
          · rename_i t0 l rest heq hup
            have hlr : noSTPair (l :: rest) = true := by
              rw [← heq]
              exact noSTPair_dropWhile pyWs (noSTPair_tail h)
            refine noSTPair_cons_of (Or.inl rfl) ?_
            refine noSTPair_cons_of (Or.inl rfl) ?_
            refine noSTPair_cons_of (Or.inr ?_) ?_
            · show (!isST l) = true
              rw [isST_false_of_upper hup]
              rfl
            · exact noSTPair_copy_cons hlr (ih (noSTPair_tail hlr)) (headNotST_upperBulletF n)
          · split
            · rename_i t0 l rest heq hnup hlow
              have hlr : noSTPair (l :: rest) = true := by
                rw [← heq]
                exact noSTPair_dropWhile pyWs (noSTPair_tail h)
              refine noSTPair_cons_of (Or.inl rfl) ?_
              refine noSTPair_append htw ?_ (Or.inr ?_)
              · exact noSTPair_copy_cons hlr (ih (noSTPair_tail hlr))
                  (headNotST_upperBulletF n)
              · show (!isST l) = true
                rw [isST_false_of_lower hlow]
                rfl
            · exact hcopy
        · exact hcopy
      · exact hcopy

/-! ### Newline-run invariant for the collapse step -/

/-- No three consecutive newline characters. -/
def noNL3 : List Char → Bool
  | a :: b :: c :: t => (!(isNL a && isNL b && isNL c)) && noNL3 (b :: c :: t)
  | _ => true

/-- The head character, if any, is not a newline. -/
def headNoNL : List Char → Bool
  | c :: _ => !isNL c
  | [] => true

/-- The first two characters are both newlines. -/
def head2NL : List Char → Bool
  | a :: b :: _ => isNL a && isNL b
  | _ => false

theorem head2NL_cons_of {x : Char} {l : List Char}
    (h : isNL x = false ∨ headNoNL l = true) : head2NL (x :: l) = false := by
  match l with
  | [] => rfl
  | z :: t =>
    show (isNL x && isNL z) = false
    rcases h with h | h
    · rw [h]
      rfl
    · have hz : isNL z = false := by
        have h2 : (!isNL z) = true := h
        cases hz : isNL z
        · rfl
        · rw [hz] at h2; simp at h2
      rw [hz, Bool.and_false]

theorem noNL3_cons_of {a : Char} {l : List Char}
    (h : isNL a = false ∨ head2NL l = false) (hl : noNL3 l = true) :
    noNL3 (a :: l) = true := by
  match l with
  | [] => rfl
  | [b] => rfl
  | b :: c :: t =>
    show ((!(isNL a && isNL b && isNL c)) && noNL3 (b :: c :: t)) = true
    rw [Bool.and_eq_true]
    refine ⟨?_, hl⟩
    rcases h with h | h
    · rw [h]
      rfl
    · have h2 : (isNL b && isNL c) = false := h
      rw [Bool.and_assoc, h2, Bool.and_false]
      rfl

theorem noNL3_tail {a : Char} {l : List Char} (h : noNL3 (a :: l) = true) :
    noNL3 l = true := by
  match l with
  | [] => rfl
  | [b] => rfl
  | b :: c :: t =>
    have he : noNL3 (a :: b :: c :: t) =
        ((!(isNL a && isNL b && isNL c)) && noNL3 (b :: c :: t)) := rfl
    rw [he] at h
    exact (Bool.and_eq_true _ _ |>.mp h).2

theorem noNL3_cons2_of {l : List Char} (h : headNoNL l = true) (hl : noNL3 l = true) :
    noNL3 ('\n' :: '\n' :: l) = true := by
  match l with
  | [] => rfl
  | x :: t =>
    have hx : isNL x = false := by
      have h2 : (!isNL x) = true := h
      cases hx : isNL x
      · rfl
      · rw [hx] at h2; simp at h2
    refine noNL3_cons_of (Or.inr ?_) ?_
    · exact head2NL_cons_of (Or.inr h)
    · refine noNL3_cons_of (Or.inr (head2NL_cons_of (Or.inl hx))) hl

theorem headNoNL_dropWhile_isNL (l : List Char) : headNoNL (l.dropWhile isNL) = true := by
  induction l with
  | nil => rfl
  | cons a t ih =>
    by_cases ha : isNL a = true
    · rw [List.dropWhile_cons_of_pos ha]
      exact ih
    · rw [List.dropWhile_cons_of_neg ha]
      show (!isNL a) = true
      cases hx : isNL a
      · rfl
      · exact absurd hx ha

theorem headNoNL_collapseNLF (fuel : Nat) {s : List Char} (h : headNoNL s = true) :
    headNoNL (collapseNLF fuel s) = true := by
  match fuel, s with
  | 0, s => exact h
  | fuel + 1, [] => rfl
  | fuel + 1, c :: cs =>
    rw [collapseNLF]
    by_cases hcond : c = '\n' ∧ 2 ≤ (cs.takeWhile isNL).length
    · exfalso
      have hnc : (!isNL c) = true := h
      rw [hcond.1] at hnc
      simp [isNL] at hnc
    · rw [if_neg hcond]
      exact h

theorem head2NL_collapseNLF_low (fuel : Nat) : ∀ {cs : List Char},
    (cs.takeWhile isNL).length ≤ 1 → head2NL (collapseNLF fuel cs) = false := by
  induction fuel with
  | zero =>
    intro cs hlen
    match cs with
    | [] => rfl
    | x :: t =>
      refine head2NL_cons_of ?_
      cases hx : isNL x
      · left; rfl
      · right
        rw [List.takeWhile_cons_of_pos hx, List.length_cons] at hlen
        have ht : t.takeWhile isNL = [] :=
          List.eq_nil_of_length_eq_zero (by omega)
        match t with
        | [] => rfl
        | y :: t2 =>
          show (!isNL y) = true
          cases hy : isNL y
          · rfl
          · rw [List.takeWhile_cons_of_pos hy] at ht
            simp at ht
  | succ n ih =>
    intro cs hlen
    match cs with
    | [] => rfl
    | x :: t =>
      rw [collapseNLF]
      by_cases hcond : x = '\n' ∧ 2 ≤ (t.takeWhile isNL).length
      · exfalso
        rw [List.takeWhile_cons_of_pos (by rw [hcond.1]; rfl), List.length_cons] at hlen
        have h2 := hcond.2
        omega
      · rw [if_neg hcond]
        refine head2NL_cons_of ?_
        cases hx : isNL x
        · left; rfl
        · right
          refine headNoNL_collapseNLF n ?_
          rw [List.takeWhile_cons_of_pos hx, List.length_cons] at hlen
          have ht : t.takeWhile isNL = [] :=
            List.eq_nil_of_length_eq_zero (by omega)
          match t with
          | [] => rfl
          | y :: t2 =>
            show (!isNL y) = true
            cases hy : isNL y
            · rfl
            · rw [List.takeWhile_cons_of_pos hy] at ht
              simp at ht

theorem noNL3_collapseNLF (fuel : Nat) : ∀ s : List Char, s.length ≤ fuel →
    noNL3 (collapseNLF fuel s) = true := by
  induction fuel with
  | zero =>
    intro s h
    have hs : s = [] := List.eq_nil_of_length_eq_zero (Nat.le_zero.mp h)
    rw [hs]
    rfl
  | succ n ih =>
    intro s h
    match s with
    | [] => rfl
    | c :: cs =>
      have hlen : cs.length ≤ n := by
        have h2 : cs.length + 1 ≤ n + 1 := by simpa using h
        omega
      rw [collapseNLF]
      by_cases hcond : c = '\n' ∧ 2 ≤ (cs.takeWhile isNL).length
      · rw [if_pos hcond]
        refine noNL3_cons2_of ?_ ?_
        · exact headNoNL_collapseNLF n (headNoNL_dropWhile_isNL cs)
        · exact ih _ (le_trans (length_dropWhile_le _ _) hlen)
      · rw [if_neg hcond]
        refine noNL3_cons_of ?_ (ih _ hlen)
        cases hc : isNL c
        · left; rfl
        · right
          refine head2NL_collapseNLF_low n ?_
          by_contra hgt
          simp at hgt
          exact hcond ⟨by simpa [isNL] using hc, hgt⟩


/-- Reference collapse for the amended C9 claim, written from its words:
every maximal newline run of length three or more becomes exactly two
newlines (one blank line); shorter runs and all other characters are kept
unchanged.  Compared against the source-derived scanner `collapseNLF`. -/
def nlCollapseSpecF : Nat → List Char → List Char
  | 0, s => s
  | _ + 1, [] => []
  | fuel + 1, c :: cs =>
    if c = '\n' then
      (if 3 ≤ 1 + (cs.takeWhile isNL).length then ['\n', '\n']
       else List.replicate (1 + (cs.takeWhile isNL).length) '\n') ++
        nlCollapseSpecF fuel (cs.dropWhile isNL)
    else c :: nlCollapseSpecF fuel cs

theorem dropWhile_eq_self_of_takeWhile_nil {p : Char → Bool} {l : List Char}
    (h : l.takeWhile p = []) : l.dropWhile p = l := by
  cases l with
  | nil => rfl
  | cons d ds =>
    by_cases hd : p d = true
    · rw [List.takeWhile_cons_of_pos hd] at h
      exact absurd h (by simp)
    · exact List.dropWhile_cons_of_neg hd

theorem collapseNLF_eq_spec :
    ∀ (n : Nat) (s : List Char), s.length ≤ n →
    ∀ (f1 f2 : Nat), s.length ≤ f1 → s.length ≤ f2 →
    collapseNLF f1 s = nlCollapseSpecF f2 s := by
  intro n
  induction n with
  | zero =>
    intro s hs f1 f2 h1 h2
    have hnil : s = [] := List.eq_nil_of_length_eq_zero (Nat.le_zero.mp hs)
    subst hnil
    cases f1 <;> cases f2 <;> rfl
  | succ n ih =>
    intro s hs f1 f2 h1 h2
    match s with
    | [] => cases f1 <;> cases f2 <;> rfl
    | c :: cs =>
      simp only [List.length_cons] at hs h1 h2
      obtain ⟨a, rfl⟩ : ∃ a, f1 = a + 1 := ⟨f1 - 1, by omega⟩
      obtain ⟨b, rfl⟩ : ∃ b, f2 = b + 1 := ⟨f2 - 1, by omega⟩
      rw [collapseNLF, nlCollapseSpecF]
      by_cases hc : c = '\n'
      · by_cases ht : 2 ≤ (cs.takeWhile isNL).length
        · rw [if_pos ⟨hc, ht⟩, if_pos hc,
            if_pos (by omega : 3 ≤ 1 + (cs.takeWhile isNL).length)]
          have hdl := length_dropWhile_le isNL cs
          rw [ih (cs.dropWhile isNL) (by omega) a b (by omega) (by omega)]
          rfl
        · rw [if_neg (fun hand => ht hand.2), if_pos hc,
            if_neg (by omega : ¬ 3 ≤ 1 + (cs.takeWhile isNL).length)]
          have ht01 : (cs.takeWhile isNL).length = 0 ∨
              (cs.takeWhile isNL).length = 1 := by omega
          rcases ht01 with ht0 | ht1
          · have htw : cs.takeWhile isNL = [] := List.eq_nil_of_length_eq_zero ht0
            rw [ht0, dropWhile_eq_self_of_takeWhile_nil htw, hc]
            show '\n' :: collapseNLF a cs = '\n' :: nlCollapseSpecF b cs
            rw [ih cs (by omega) a b (by omega) (by omega)]
          · cases cs with
            | nil => simp at ht1
            | cons d cs2 =>
              by_cases hd : isNL d = true
              · have ht2 : (cs2.takeWhile isNL).length = 0 := by
                  have ht1c := ht1
                  rw [List.takeWhile_cons_of_pos hd, List.length_cons] at ht1c
                  omega
                have htw2 : cs2.takeWhile isNL = [] :=
                  List.eq_nil_of_length_eq_zero ht2
                have hdnl : d = '\n' := by simpa [isNL] using hd
                simp only [List.length_cons] at hs h1 h2
                obtain ⟨a2, rfl⟩ : ∃ a2, a = a2 + 1 := ⟨a - 1, by omega⟩
                rw [collapseNLF]
                rw [if_neg (fun hand => by
                  have h5 := hand.2
                  rw [htw2] at h5
                  simp at h5)]
                rw [ht1, List.dropWhile_cons_of_pos hd,
                  dropWhile_eq_self_of_takeWhile_nil htw2, hc, hdnl]
                show '\n' :: '\n' :: collapseNLF a2 cs2 =
                  '\n' :: '\n' :: nlCollapseSpecF b cs2
                rw [ih cs2 (by omega) a2 b (by omega) (by omega)]
              · rw [List.takeWhile_cons_of_neg hd] at ht1
                simp at ht1
      · rw [if_neg (fun hand => hc hand.1), if_neg hc]
        rw [ih cs (by omega) a b (by omega) (by omega)]

theorem string_data_mk (l : List Char) : (String.mk l).data = l := rfl

/-- C9 (amended): the normalizer never throws and maps the empty string to
the empty string; for every input, no two adjacent space-or-tab characters
survive to the output of `cleanPdfText`; and the newline-collapse step
rewrites every maximal run of three or more newlines to exactly two (one
blank line), leaving shorter runs and all other characters unchanged — it
coincides with the reference collapse `nlCollapseSpecF`, and in particular
no newline triple survives it. -/
theorem c9_amended_whitespace_collapse :
    cleanPdfText "" = "" ∧
    (∀ s : String, noSTPair (cleanPdfText s).data = true) ∧
    (∀ s : List Char, collapseNLF s.length s = nlCollapseSpecF s.length s) ∧
    (∀ s : List Char, noNL3 (collapseNLF s.length s) = true) := by
  refine ⟨rfl, ?_, ?_, ?_⟩
  · intro s
    rw [cleanPdfText.eq_def, string_data_mk, cleanPdfTextL]
    generalize stage deHyphF (stage oBulletF (stage dashBulletF (stage starBulletF
      (stage dotBulletF (nlUnify s.data))))) = y0
    generalize hy1 : stage collapseSTF y0 = y1
    generalize hy2 : stage collapseNLF y1 = y2
    generalize hy3 : y2.map bulletGlyph = y3
    generalize hy4 : y3.map dashGlyph = y4
    generalize hy5 : stage capsBreakBeforeF y4 = y5
    generalize hy6 : stage capsBreakAfterF y5 = y6
    generalize hy7 : stage secPat1F y6 = y7
    generalize hy8 : stage secPat2F y7 = y8
    generalize hy9 : stage secPat3F y8 = y9
    generalize hy10 : stage secPat4F y9 = y10
    generalize hy11 : stage bulletOwnLineF y10 = y11
    generalize hy12 : stage upperBulletF y11 = y12
    have h1 : noSTPair y1 = true := by
      rw [← hy1]; exact noSTPair_collapseSTF _ _ (le_refl _)
    have h2 : noSTPair y2 = true := by
      rw [← hy2]; exact noSTPair_collapseNLF _ h1
    have h3 : noSTPair y3 = true := by
      rw [← hy3]; exact noSTPair_map isST_bulletGlyph h2
    have h4 : noSTPair y4 = true := by
      rw [← hy4]; exact noSTPair_map isST_dashGlyph h3
    have h5 : noSTPair y5 = true := by
      rw [← hy5]; exact noSTPair_capsBreakBeforeF _ h4
    have h6 : noSTPair y6 = true := by
      rw [← hy6]; exact noSTPair_capsBreakAfterF _ h5
    have h7 : noSTPair y7 = true := by
      rw [← hy7]; exact noSTPair_secPat1F _ h6
    have h8 : noSTPair y8 = true := by
      rw [← hy8]; exact noSTPair_secPat2F _ h7
    have h9 : noSTPair y9 = true := by
      rw [← hy9]; exact noSTPair_secPat3F _ h8
    have h10 : noSTPair y10 = true := by
      rw [← hy10]; exact noSTPair_secPat4F _ h9
    have h11 : noSTPair y11 = true := by
      rw [← hy11]; exact noSTPair_bulletOwnLineF _ h10
    have h12 : noSTPair y12 = true := by
      rw [← hy12]; exact noSTPair_upperBulletF _ h11
    exact noSTPair_trimBoth h12
  · intro s
    exact collapseNLF_eq_spec s.length s (le_refl _) s.length s.length (le_refl _)
      (le_refl _)
  · intro s
    exact noNL3_collapseNLF s.length s (le_refl _)

/-! ### The PDF line-merge loop (`src/unnamed/part_000`, `POST`, lines 82–118) -/

/-- Test `line.match(/[.!?:;,]$/)`. -/
def endsMergePunct (l : List Char) : Bool :=
  match l.getLast? with
  | some c => c = '.' || c = '!' || c = '?' || c = ':' || c = ';' || c = ','
  | none => false

/-- JS `startsWith`. -/
def startsWithSeq (pre l : List Char) : Bool := l.take pre.length = pre

/-- The merge loop body: for each line, when it does not end in punctuation
and the next line is a non-empty non-marker line, drop a trailing hyphen or
append a space — and then push the line (the lines are re-joined with
newlines afterwards). -/
def mergeLinesGo : List (List Char) → List (List Char)
  | [] => []
  | [l] => [trimBoth l]
  | l :: next :: rest =>
    let t := trimBoth l
    if t = [] then [] :: mergeLinesGo (next :: rest)
    else
      let tn := trimBoth next
      if ¬ endsMergePunct t = true ∧ startsWithSeq "<BULLET>".data tn = false ∧
          startsWithSeq "<HEADER>".data tn = false ∧
          startsWithSeq "<SUBHEADER>".data tn = false ∧ tn ≠ [] then
        (if t.getLast? = some '-' then t.dropLast else t ++ [' ']) :: mergeLinesGo (next :: rest)
      else t :: mergeLinesGo (next :: rest)

/-- Embedding of the split/merge/join block (part_000 lines 82–118). -/
def mergeSplitLines (s : String) : String := ⟨joinNL (mergeLinesGo (splitNL s.data))⟩

/-- Substring occurrence test. -/
def containsSub (s sub : List Char) : Bool :=
  (List.range (s.length + 1)).any fun i => ((s.drop i).take sub.length) = sub

/-! ### Date tagging of `structureResumeText` (route.ts lines 820–830) -/

/-- Date-range dash class `[-–—]`. -/
def dashDate (c : Char) : Bool := c = '-' || c = '–' || c = '—'

/-- ASCII letter. -/
def isAlpha (c : Char) : Bool := isUpperA c || isLowerA c

/-- Parse exactly `n` digits. -/
def takeDigits (n : Nat) (s : List Char) : Option (List Char × List Char) :=
  let d := s.take n
  if d.length = n ∧ d.all isDigitA then some (d, s.drop n) else none

/-- Parse `\d{1,2}\/\d{4}` (greedy, with the only viable backtrack). -/
def parse12Slash4 (s : List Char) : Option (List Char × List Char) :=
  match s with
  | a :: b :: r =>
    if isDigitA a ∧ isDigitA b then
      match r with
      | '/' :: r2 => (takeDigits 4 r2).map fun pr => (a :: b :: '/' :: pr.1, pr.2)
      | _ => none
    else if isDigitA a ∧ b = '/' then
      (takeDigits 4 r).map fun pr => (a :: '/' :: pr.1, pr.2)
    else none
  | _ => none

/-- Parse `\s*[-–—]\s*`. -/
def parseDash (s : List Char) : Option (List Char × List Char) :=
  let w1 := s.takeWhile pyWs
  match s.dropWhile pyWs with
  | d :: r =>
    if dashDate d then
      some (w1 ++ d :: r.takeWhile pyWs, r.dropWhile pyWs)
    else none
  | [] => none

/-- Case-insensitive literal keyword parse (no trailing boundary). -/
def parseKeyword (kw : List Char) (s : List Char) : Option (List Char × List Char) :=
  if kw.length ≤ s.length ∧ (s.take kw.length).map lcA = kw then
    some (s.take kw.length, s.drop kw.length)
  else none

/-- Parse `(?:Present|Current|Now)` with the `i` flag. -/
def parsePCN (s : List Char) : Option (List Char × List Char) :=
  (parseKeyword "present".data s) <|> (parseKeyword "current".data s) <|>
    (parseKeyword "now".data s)

/-- The month alternation `(?:Jan|Feb|Mar|Apr|May|Jun|Jul|Aug|Sep|Oct|Nov|Dec)`
(first match wins), case-insensitive. -/
def parseMonth3 (s : List Char) : Option (List Char × List Char) :=
  [ "jan", "feb", "mar", "apr", "may", "jun", "jul", "aug", "sep", "oct",
    "nov", "dec" ].findSome? fun mn => parseKeyword mn.data s

/-- Parse a month name: the 3-letter alternation followed by `[a-z]*`
(case-insensitive under the `i` flag). -/
def parseMonthE (s : List Char) : Option (List Char × List Char) :=
  match parseMonth3 s with
  | some (m, r) => some (m ++ r.takeWhile isAlpha, r.dropWhile isAlpha)
  | none => none

/-- Parse `\s+`. -/
def parseWs1 (s : List Char) : Option (List Char × List Char) :=
  if 1 ≤ (s.takeWhile pyWs).length then some (s.takeWhile pyWs, s.dropWhile pyWs)
  else none

/-- Sequence two fragment parsers, concatenating their matched text. -/
def parseSeq (p q : List Char → Option (List Char × List Char))
    (s : List Char) : Option (List Char × List Char) :=
  match p s with
  | some (m1, r1) =>
    match q r1 with
    | some (m2, r2) => some (m1 ++ m2, r2)
    | none => none
  | none => none

/-- Date pattern 1 (with capture group):
`\b\d{1,2}\/\d{4}\s*[-–—]\s*\d{1,2}\/\d{4}` or the `Present|Current|Now`
variant. -/
def datePat1 : List Char → Option (List Char × List Char) :=
  parseSeq (parseSeq parse12Slash4 parseDash)
    (fun r => (parse12Slash4 r) <|> (parsePCN r))

/-- Date pattern 2 (no capture group): `Month YYYY - Month YYYY`. -/
def datePat2 : List Char → Option (List Char × List Char) :=
  parseSeq (parseSeq (parseSeq (parseSeq (parseSeq parseMonthE parseWs1)
    (takeDigits 4)) parseDash) (parseSeq parseMonthE parseWs1)) (takeDigits 4)

/-- Date pattern 3 (no capture group): `Month YYYY - Present|Current|Now`. -/
def datePat3 : List Char → Option (List Char × List Char) :=
  parseSeq (parseSeq (parseSeq (parseSeq parseMonthE parseWs1) (takeDigits 4))
    parseDash) parsePCN

/-- Date pattern 4 (no capture group):
`\b\d{4}\s*[-–—]\s*\d{4}` or the `Present|Current|Now` variant. -/
def datePat4 : List Char → Option (List Char × List Char) :=
  parseSeq (parseSeq (takeDigits 4) parseDash)
    (fun r => (takeDigits 4 r) <|> (parsePCN r))

/-- Word-character status of the last character of a match (for continuing
the `\b` tracking after a match). -/
def lastIsW (w : Bool) (m : List Char) : Bool :=
  match m.getLast? with
  | some c => isW c
  | none => w

/-- Fueled driver for one `replace(pattern, repl)` pass over the string.
`needB` says whether the pattern starts with `\b` (all the date patterns
start with a digit or letter, so `\b` amounts to: previous char not a word
character). -/
def dateScanF (pat : List Char → Option (List Char × List Char))
    (needB : Bool) (repl : List Char → List Char) :
    Nat → Bool → List Char → List Char
  | 0, _, s => s
  | _ + 1, _, [] => []
  | fuel + 1, w, c :: cs =>
    if needB ∧ w = true then c :: dateScanF pat needB repl fuel (isW c) cs
    else
      match pat (c :: cs) with
      | some (m, rest) => repl m ++ dateScanF pat needB repl fuel (lastIsW w m) rest
      | none => c :: dateScanF pat needB repl fuel (isW c) cs

/-- Replacement `'\n<DATE>$1</DATE>'` for pattern 1, whose group 1 exists:
`$1` is the matched text. -/
def dateRepl1 (m : List Char) : List Char :=
  '\n' :: ("<DATE>".data ++ m ++ "</DATE>".data)

/-- Replacement `'\n<DATE>$1</DATE>'` for patterns 2–4, which have no capture
group: per JS `String.replace`, `$1` is then inserted literally and the
matched text is discarded. -/
def dateReplLit (_ : List Char) : List Char :=
  '\n' :: "<DATE>$1</DATE>".data

/-- Embedding of the `datePatterns.forEach(...)` block of
`structureResumeText` (route.ts lines 820–830): the four date patterns
applied in order. -/
def structureDateTaggingL (s : List Char) : List Char :=
  let s1 := dateScanF datePat1 true dateRepl1 s.length false s
  let s2 := dateScanF datePat2 false dateReplLit s1.length false s1
  let s3 := dateScanF datePat3 false dateReplLit s2.length false s2
  dateScanF datePat4 true dateReplLit s3.length false s3

/-- String-level wrapper for the date-tagging block. -/
def structureDateTagging (s : String) : String := ⟨structureDateTaggingL s.data⟩


/-! ### C4, C5, C9: concrete evidence -/

/-- C4 (code_bug evidence): a bullet word hyphen-split across two lines is
not rejoined.  The part_000 merge loop drops the trailing hyphen but rejoins
the lines with a newline, producing "develop\ning"; `cleanPdfText` treats
the wrap hyphen as a bullet dash, producing "develop\n- ing".  Neither
output contains "developing". -/
theorem c4_dehyphenation_broken :
    mergeSplitLines "develop-\ning" = "develop\ning" ∧
    cleanPdfText "develop-\ning" = "develop\n- ing" ∧
    containsSub ("develop\ning".data) ("developing".data) = false ∧
    containsSub ("develop\n- ing".data) ("developing".data) = false := by
  refine ⟨rfl, rfl, ?_, ?_⟩ <;> decide

/-- C9 (counterexample): a run of three blank lines does not always collapse
to exactly one blank line: when the following line begins with an upper-case
letter, the bullet-detection callback of `cleanPdfText` swallows the blank
line entirely and inserts a bullet marker — the output contains no blank
line at all. -/
theorem c9_counterexample_blank_lines_eaten :
    cleanPdfText "A\n\n\n\nB" = "A\n• B" ∧
    containsSub ("A\n• B".data) ("\n\n".data) = false := by
  exact ⟨rfl, by decide⟩

/-- C5 (code_bug evidence): the `YYYY - YYYY` and `Month YYYY` date patterns
of `structureResumeText` have no capture group, so the replacement
`'\n<DATE>$1</DATE>'` inserts `$1` literally and the matched date text is
discarded (for `MM/YYYY` ranges, whose pattern does have a group, the text
is preserved — showing the intent). -/
theorem c5_date_text_discarded :
    structureDateTagging "Bachelor of Science, Tech University (2013-2017)" =
      "Bachelor of Science, Tech University (\n<DATE>$1</DATE>)" ∧
    containsSub ("Bachelor of Science, Tech University (\n<DATE>$1</DATE>)".data)
      ("2013".data) = false ∧
    structureDateTagging "01/2020 - 03/2021" = "\n<DATE>01/2020 - 03/2021</DATE>" ∧
    structureDateTagging "Jan 2020 - Mar 2021" = "\n<DATE>$1</DATE>" := by
  exact ⟨rfl, by decide, rfl, rfl⟩

/-! ### The data model (`src/client/src/types/resume.ts`) and the store
(`src/client/src/app/store/resumeStore.ts`)

JS runtime objects are modelled structurally; a field that may be absent at
runtime (`projects`, `certifications`, `additionalSections` are omitted by
the store's `getEmptyResumeData()` even though the TS interface declares
them) is modelled as an `Option`.  A `Partial<ResumeData>` is a record of
optional fields: `none` models an absent key, and the JS object spread
`{ ...base, ...partial }` keeps the base value exactly when the key is
absent from the partial. -/

/-- ContactInfo (resume.ts lines 4–12). -/
structure ContactInfo where
  name : String
  email : String
  phone : String
  location : String
  linkedin : Option String := none
  github : Option String := none
  portfolio : Option String := none
deriving Repr, DecidableEq

/-- Education (resume.ts lines 15–25). -/
structure Education where
  institution : String
  degree : String
  field : String
  startDate : String
  endDate : String
  location : Option String := none
  gpa : Option String := none
deriving Repr, DecidableEq

/-- Experience (resume.ts lines 28–37). -/
structure Experience where
  company : String
  title : String
  startDate : String
  endDate : String
  location : Option String := none
  bullets : List String
deriving Repr, DecidableEq

/-- SkillCategory (resume.ts lines 40–43). -/
structure SkillCategory where
  name : String
  skills : List String
deriving Repr, DecidableEq

/-- Skills (resume.ts lines 45–47). -/
structure Skills where
  categories : List SkillCategory
deriving Repr, DecidableEq

/-- Project (resume.ts lines 50–58). -/
structure Project where
  name : String
  description : Option String := none
  startDate : Option String := none
  endDate : Option String := none
  url : Option String := none
  bullets : List String
deriving Repr, DecidableEq

/-- Certification (resume.ts lines 61–68). -/
structure Certification where
  name : String
  issuer : Option String := none
  date : Option String := none
  url : Option String := none
deriving Repr, DecidableEq

/-- AdditionalSectionItem (resume.ts lines 71–77). -/
structure AdditionalSectionItem where
  title : Option String := none
  subtitle : Option String := none
  date : Option String := none
  bullets : Option (List String) := none
deriving Repr, DecidableEq

/-- AdditionalSection (resume.ts lines 80–84): a title plus an optional
items list and optional free-form content. -/
structure AdditionalSection where
  title : String
  items : Option (List AdditionalSectionItem) := none
  content : Option String := none
deriving Repr, DecidableEq

/-- The runtime shape of a `ResumeData` object (resume.ts lines 87–96; the
three trailing collections are `Option` because the store's empty default
omits them). -/
structure ResumeData where
  contactInfo : ContactInfo
  summary : String
  experience : List Experience
  education : List Education
  skills : Skills
  projects : Option (List Project)
  certifications : Option (List Certification)
  additionalSections : Option (List AdditionalSection)
deriving Repr, DecidableEq

/-- A `Partial<ResumeData>`: each field either present (`some`) or absent. -/
structure PartialResumeData where
  contactInfo : Option ContactInfo := none
  summary : Option String := none
  experience : Option (List Experience) := none
  education : Option (List Education) := none
  skills : Option Skills := none
  projects : Option (List Project) := none
  certifications : Option (List Certification) := none
  additionalSections : Option (List AdditionalSection) := none
deriving Repr, DecidableEq

/-- JS object spread `{ ...base, ...partial }` at the `ResumeData` shape:
fields present in the partial win, absent fields keep the base value. -/
def spreadMerge (base : ResumeData) (p : PartialResumeData) : ResumeData where
  contactInfo := p.contactInfo.getD base.contactInfo
  summary := p.summary.getD base.summary
  experience := p.experience.getD base.experience
  education := p.education.getD base.education
  skills := p.skills.getD base.skills
  projects :=
    match p.projects with
    | some v => some v
    | none => base.projects
  certifications :=
    match p.certifications with
    | some v => some v
    | none => base.certifications
  additionalSections :=
    match p.additionalSections with
    | some v => some v
    | none => base.additionalSections

/-- Embedding of `getEmptyResumeData` (resumeStore.ts lines 70–83): only
contactInfo, summary, experience, education and skills are defined. -/
def getEmptyResumeData : ResumeData where
  contactInfo := { name := "", email := "", phone := "", location := "" }
  summary := ""
  experience := []
  education := []
  skills := ⟨[]⟩
  projects := none
  certifications := none
  additionalSections := none

/-- Embedding of the `updateResumeData` action (resumeStore.ts lines
141–147): spread over the held document, or over the empty default when no
document is held. -/
def updateResumeData (cur : Option ResumeData) (p : PartialResumeData) : ResumeData :=
  match cur with
  | some rd => spreadMerge rd p
  | none => spreadMerge getEmptyResumeData p

/-- C10: `updateResumeData` is a shallow merge.  With a held document, every
top-level field not named in the partial is unchanged and every named field
is replaced wholesale; with no document, the result is the empty default
merged with the partial, and that default leaves projects, certifications
and additionalSections absent (so they stay absent whenever the partial does
not name them). -/
theorem c10_update_resume_data_shallow_merge :
    (∀ (rd : ResumeData) (p : PartialResumeData),
      (p.contactInfo = none → (updateResumeData (some rd) p).contactInfo = rd.contactInfo) ∧
      (p.summary = none → (updateResumeData (some rd) p).summary = rd.summary) ∧
      (p.experience = none → (updateResumeData (some rd) p).experience = rd.experience) ∧
      (p.education = none → (updateResumeData (some rd) p).education = rd.education) ∧
      (p.skills = none → (updateResumeData (some rd) p).skills = rd.skills) ∧
      (p.projects = none → (updateResumeData (some rd) p).projects = rd.projects) ∧
      (p.certifications = none →
        (updateResumeData (some rd) p).certifications = rd.certifications) ∧
      (p.additionalSections = none →
        (updateResumeData (some rd) p).additionalSections = rd.additionalSections) ∧
      (∀ v, p.contactInfo = some v → (updateResumeData (some rd) p).contactInfo = v) ∧
      (∀ v, p.summary = some v → (updateResumeData (some rd) p).summary = v) ∧
      (∀ v, p.experience = some v → (updateResumeData (some rd) p).experience = v) ∧
      (∀ v, p.education = some v → (updateResumeData (some rd) p).education = v) ∧
      (∀ v, p.skills = some v → (updateResumeData (some rd) p).skills = v) ∧
      (∀ v, p.projects = some v → (updateResumeData (some rd) p).projects = some v) ∧
      (∀ v, p.certifications = some v →
        (updateResumeData (some rd) p).certifications = some v) ∧
      (∀ v, p.additionalSections = some v →
        (updateResumeData (some rd) p).additionalSections = some v)) ∧
    (∀ p : PartialResumeData,
      updateResumeData none p = spreadMerge getEmptyResumeData p) ∧
    getEmptyResumeData.projects = none ∧
    getEmptyResumeData.certifications = none ∧
    getEmptyResumeData.additionalSections = none ∧
    (∀ p : PartialResumeData, p.projects = none →
      (updateResumeData none p).projects = none) ∧
    (∀ p : PartialResumeData, p.certifications = none →
      (updateResumeData none p).certifications = none) ∧
    (∀ p : PartialResumeData, p.additionalSections = none →
      (updateResumeData none p).additionalSections = none) := by
  refine ⟨fun rd p => ?_, fun p => rfl, rfl, rfl, rfl, ?_, ?_, ?_⟩
  · refine ⟨?_, ?_, ?_, ?_, ?_, ?_, ?_, ?_, ?_, ?_, ?_, ?_, ?_, ?_, ?_, ?_⟩ <;>
      first
        | (intro h; simp [updateResumeData, spreadMerge, h])
        | (intro v h; simp [updateResumeData, spreadMerge, h])
  · intro p h; simp [updateResumeData, spreadMerge, getEmptyResumeData, h]
  · intro p h; simp [updateResumeData, spreadMerge, getEmptyResumeData, h]
  · intro p h; simp [updateResumeData, spreadMerge, getEmptyResumeData, h]

/-- Example document used by the C10 witness. -/
def exampleExperience : Experience :=
  { company := "ACME", title := "Dev", startDate := "2020", endDate := "2021",
    bullets := ["did things"] }

/-- Example document used by the C10 witness. -/
def exampleDoc : ResumeData :=
  { getEmptyResumeData with
      summary := "old summary"
      experience := [exampleExperience] }

/-- Witness for C10 at a concrete document and partial. -/
theorem c10_witness :
    (updateResumeData (some exampleDoc) { summary := some "new summary" }).summary =
      "new summary" ∧
    (updateResumeData (some exampleDoc) { summary := some "new summary" }).experience =
      [exampleExperience] ∧
    (updateResumeData none { summary := some "s" }).projects = none := by
  refine ⟨?_, ?_, ?_⟩
  · exact ((c10_update_resume_data_shallow_merge.1 exampleDoc _).2.2.2.2.2.2.2.2.2).1 _ rfl
  · exact ((c10_update_resume_data_shallow_merge.1 exampleDoc _).2.2.1) rfl
  · exact (c10_update_resume_data_shallow_merge.2.2.2.2.2.1) _ rfl

/-! ### `parseResumeContent` of `Progress.tsx` (lines 769–1018)

The pdfMake content objects are abstracted to an inductive `PdfItem`
carrying exactly the text content each push site supplies (the style and
margin attributes are constants per site and are identified with the
constructor). -/

/-- Items pushed by `parseResumeContent`, one constructor per push site. -/
inductive PdfItem where
  | nameItem (text : List Char)
  | contactItem (text : List Char)
  | headerItem (text : List Char)
  | dividerItem
  | bulletListItem (items : List (List Char))
  | companyItem (text : List Char)
  | jobTitleItem (title date : List Char)
  | projDateItem (text : List Char)
  | projNameItem (name date : List Char)
  | degreeItem (text : List Char)
  | regularItem (text : List Char)
deriving Repr, DecidableEq

/-- Fueled scanner for `replace(/<[^>]+>/g, '')` (the head-scan tag strip). -/
def stripTagsF : Nat → List Char → List Char
  | 0, s => s
  | _ + 1, [] => []
  | fuel + 1, c :: cs =>
    if c = '<' then
      if 1 ≤ (cs.takeWhile (fun x => x ≠ '>')).length then
        match cs.dropWhile (fun x => x ≠ '>') with
        | '>' :: rest => stripTagsF fuel rest
        | _ => c :: stripTagsF fuel cs
      else c :: stripTagsF fuel cs
    else c :: stripTagsF fuel cs

/-- Lazy inner match for `(.*?)` up to the closing tag (smallest split whose
inner part contains no newline). -/
def findInner (closeT rest : List Char) : Option (List Char × List Char) :=
  (List.range (rest.length + 1)).findSome? fun i =>
    if startsWithSeq closeT (rest.drop i) ∧ (rest.take i).all (fun x => x ≠ '\n') then
      some (rest.take i, rest.drop (i + closeT.length))
    else none

/-- Fueled scanner for `replace(/<T>(.*?)<\/T>/g, '$1')`. -/
def replTagPairF (openT closeT : List Char) : Nat → List Char → List Char
  | 0, s => s
  | _ + 1, [] => []
  | fuel + 1, c :: cs =>
    if startsWithSeq openT (c :: cs) then
      match findInner closeT ((c :: cs).drop openT.length) with
      | some (inner, rest) => inner ++ replTagPairF openT closeT fuel rest
      | none => c :: replTagPairF openT closeT fuel cs
    else c :: replTagPairF openT closeT fuel cs

/-- Fueled scanner for `replace(/<BULLET>/g, '')` (literal removal). -/
def removeLitF (lit : List Char) : Nat → List Char → List Char
  | 0, s => s
  | _ + 1, [] => []
  | fuel + 1, c :: cs =>
    if startsWithSeq lit (c :: cs) then removeLitF lit fuel ((c :: cs).drop lit.length)
    else c :: removeLitF lit fuel cs

/-- Fueled scanner for
`replace(/<INDENT level="(\d+)">(.*?)<\/INDENT>/g, '$2')`. -/
def replIndentF : Nat → List Char → List Char
  | 0, s => s
  | _ + 1, [] => []
  | fuel + 1, c :: cs =>
    if startsWithSeq "<INDENT level=\"".data (c :: cs) then
      (let afterO := (c :: cs).drop ("<INDENT level=\"".data).length
       if 1 ≤ (afterO.takeWhile isDigitA).length then
         match afterO.dropWhile isDigitA with
         | '"' :: '>' :: rest2 =>
           (match findInner "</INDENT>".data rest2 with
            | some (inner, rest3) => inner ++ replIndentF fuel rest3
            | none => c :: replIndentF fuel cs)
         | _ => c :: replIndentF fuel cs
       else c :: replIndentF fuel cs)
    else c :: replIndentF fuel cs

/-- The in-loop marker cleaner (`cleanLine`, Progress.tsx lines 830–834). -/
def cleanMarkers (l : List Char) : List Char :=
  let a := replTagPairF "<HEADER>".data "</HEADER>".data l.length l
  let b := replTagPairF "<SUBHEADER>".data "</SUBHEADER>".data a.length a
  let c := removeLitF "<BULLET>".data b.length b
  replIndentF c.length c

/-- Test `/^[A-Z][A-Z\s]+$/`. -/
def capsLineTest (l : List Char) : Bool :=
  match l with
  | c :: cs => isUpperA c && 1 ≤ cs.length && cs.all (fun x => isUpperA x || pyWs x)
  | [] => false

/-- The recognized section-header vocabulary of `parseResumeContent`. -/
def pdfHeaderVocab (l : List Char) : Bool :=
  l = "EDUCATION".data ∨ l = "EXPERIENCE".data ∨ l = "SKILLS".data ∨
  l = "PROJECTS".data ∨ l = "CERTIFICATIONS".data ∨ l = "AWARDS".data

/-- Parse `\s*` (always succeeds). -/
def parseWsStar (s : List Char) : Option (List Char × List Char) :=
  some (s.takeWhile pyWs, s.dropWhile pyWs)

/-- Parse a literal character. -/
def parseCh (ch : Char) (s : List Char) : Option (List Char × List Char) :=
  match s with
  | c :: r => if c = ch then some ([c], r) else none
  | [] => none

/-- The plain-hyphen date core `\d{4}\s*-\s*\d{4}`. -/
def expDatePat : List Char → Option (List Char × List Char) :=
  parseSeq (parseSeq (parseSeq (parseSeq (takeDigits 4) parseWsStar) (parseCh '-'))
    parseWsStar) (takeDigits 4)

/-- First match of an unanchored pattern (`String.match` without flags):
smallest start position, returning the matched text. -/
def findPat (pat : List Char → Option (List Char × List Char)) (s : List Char) :
    Option (List Char) :=
  (List.range (s.length + 1)).findSome? fun i => (pat (s.drop i)).map fun pr => pr.1

/-- JS `indexOf` for a literal substring. -/
def indexOfSub (s sub : List Char) : Option Nat :=
  (List.range (s.length + 1)).find? fun i => startsWithSeq sub (s.drop i)

/-- Case-sensitive month alternation `(Jan|Feb|...|Dec)` (first match wins). -/
def parseMonthCap (s : List Char) : Option (List Char × List Char) :=
  [ "Jan", "Feb", "Mar", "Apr", "May", "Jun", "Jul", "Aug", "Sep", "Oct",
    "Nov", "Dec" ].findSome? fun mn =>
      if startsWithSeq mn.data s then some (mn.data, s.drop mn.data.length) else none

/-- Pattern `(Jan|...)\s+\d{4}\s*-` (the project-date test). -/
def monthDashPat : List Char → Option (List Char × List Char) :=
  parseSeq (parseSeq (parseSeq (parseSeq parseMonthCap parseWs1) (takeDigits 4))
    parseWsStar) (parseCh '-')

/-- Pattern `(Jan|...)\s+\d{4}\s*-.*\d{4}` (greedy `.*`: last completion). -/
def monthDotPat (s : List Char) : Option (List Char × List Char) :=
  match monthDashPat s with
  | some (m1, r) =>
    (List.range (r.length + 1)).reverse.findSome? fun k =>
      if (r.take k).all (fun x => x ≠ '\n') ∧ (takeDigits 4 (r.drop k)).isSome then
        some (m1 ++ r.take (k + 4), r.drop (k + 4))
      else none
  | none => none

/-- Anchored test for the regex `^\s*(Jan|...)\s+\d{4}\s*` ending in a hyphen. -/
def standaloneMonth (s : List Char) : Bool :=
  (parseSeq parseWsStar monthDashPat s).isSome

/-- Anchored test `/^\s*\d{4}\s*-\s*\d{4}\s*$/`. -/
def standaloneYears (s : List Char) : Bool :=
  match parseSeq (parseSeq parseWsStar expDatePat) parseWsStar s with
  | some (_, rest) => rest = []
  | none => false

/-- Case-insensitive substring test. -/
def containsCI (s sub : List Char) : Bool := containsSub (s.map lcA) sub

/-- Degree test `/bachelor|master|b\.s\.|m\.s\.|ph\.?d|gpa/i`. -/
def degreeTest (s : List Char) : Bool :=
  containsCI s "bachelor".data || containsCI s "master".data ||
  containsCI s "b.s.".data || containsCI s "m.s.".data ||
  containsCI s "phd".data || containsCI s "ph.d".data || containsCI s "gpa".data

/-- Project-section test `/who paid who|olympus|memento|socialsync/i`. -/
def projSectionTest (sec : List Char) : Bool :=
  containsCI sec "who paid who".data || containsCI sec "olympus".data ||
  containsCI sec "memento".data || containsCI sec "socialsync".data

/-- JS `line.startsWith('•') || line.startsWith('-') || line.startsWith('*')`. -/
def bulletStart (l : List Char) : Bool :=
  match l with
  | c :: _ => c = '•' || c = '-' || c = '*'
  | [] => false

/-- The EXPERIENCE job-title/date split (Progress.tsx lines 916–945):
first date match, its `indexOf`, and the split when the index is positive. -/
def jobSplit (clean : List Char) : Option (List Char × List Char) :=
  match findPat expDatePat clean with
  | some m =>
    match indexOfSub clean m with
    | some idx => if 0 < idx then some (trimBoth (clean.take idx), m) else none
    | none => none
  | none => none

/-- The PROJECTS title/date split (Progress.tsx lines 962–989). -/
def projSplit (clean : List Char) : Option (List Char × List Char) :=
  match (findPat monthDotPat clean) <|> (findPat expDatePat clean) with
  | some m =>
    match indexOfSub clean m with
    | some idx => if 0 < idx then some (trimBoth (clean.take idx), m) else none
    | none => none
  | none => none

/-- The degree branch and the default branch (lines 994–1006). -/
def degreeDefault (sec clean : List Char) : List PdfItem :=
  if sec = "EDUCATION".data ∧ degreeTest clean = true then [.degreeItem clean]
  else [.regularItem clean]

/-- The projects branch (lines 948–991); pushes fall through to the
degree/default branches when no `continue` is executed. -/
def projBranch (sec clean : List Char) : List PdfItem :=
  if (sec = "PROJECTS".data ∨ projSectionTest sec = true) ∧
      ((findPat expDatePat clean).isSome ∨ (findPat monthDashPat clean).isSome) then
    if standaloneMonth clean ∨ standaloneYears clean then
      .projDateItem clean :: degreeDefault sec clean
    else
      match projSplit clean with
      | some (nm, dat) => [.projNameItem nm dat]
      | none => degreeDefault sec clean
  else degreeDefault sec clean

/-- The non-bullet non-header branch cascade (lines 906–1006). -/
def otherBranch (sec line clean : List Char) : List PdfItem :=
  if sec = "EXPERIENCE".data ∧ line.map ucA = line ∧ 3 < line.length then
    [.companyItem clean]
  else if sec = "EXPERIENCE".data ∧ (findPat expDatePat clean).isSome then
    match jobSplit clean with
    | some (ttl, dat) => [.jobTitleItem ttl dat]
    | none => projBranch sec clean
  else projBranch sec clean

/-- The main loop of `parseResumeContent` (lines 825–1015), processing the
filtered lines from `contentStartIndex` with the section / bullet-list
state; the trailing close (lines 1010–1015) flushes a non-empty open list. -/
def mainLoopGo : List (List Char) → List Char → Bool → List (List Char) → List PdfItem
  | [], _, inB, items => if inB ∧ items ≠ [] then [.bulletListItem items] else []
  | l :: rest, sec, inB, items =>
    let line := trimBoth l
    if line = [] then mainLoopGo rest sec inB items
    else
      let clean := cleanMarkers line
      if capsLineTest clean = true ∧ pdfHeaderVocab clean then
        (if inB then [.bulletListItem items] else []) ++
          .headerItem clean :: .dividerItem :: mainLoopGo rest clean false []
      else if bulletStart line then
        mainLoopGo rest sec true
          ((if inB then items else []) ++ [trimBoth (clean.drop 1)])
      else
        (if inB then [.bulletListItem items] else []) ++
          otherBranch sec line clean ++ mainLoopGo rest sec false []

/-- Result of the head scan (lines 781–800). -/
structure HeadScan where
  nameText : List Char
  contactText : List Char
  startIdx : Nat
deriving Repr, DecidableEq

/-- The head scan: among the first five lines, the first non-blank line
(tag-stripped) becomes the name and the next becomes the contact line. -/
def headScanGo : List (List Char) → Nat → Nat → List Char → List Char → HeadScan
  | [], _, start, nm, ct => ⟨nm, ct, start⟩
  | l :: rest, i, start, nm, ct =>
    if 5 ≤ i then ⟨nm, ct, start⟩
    else
      let t := trimBoth l
      if t = [] then headScanGo rest (i + 1) start nm ct
      else if nm = [] then
        headScanGo rest (i + 1) (i + 1) (trimBoth (stripTagsF t.length t)) ct
      else if ct = [] then ⟨nm, trimBoth (stripTagsF t.length t), i + 1⟩
      else headScanGo rest (i + 1) start nm ct

/-- Embedding of `parseResumeContent` (Progress.tsx lines 769–1018):
the "Skills Emphasized" filter, the head scan, the name/contact pushes, and
the main loop. -/
def parseResumeContentL (text : List Char) : List PdfItem :=
  let filtered := (splitNL text).filter fun l =>
    containsSub l "Skills Emphasized".data = false
  let hs := headScanGo filtered 0 0 [] []
  (if hs.nameText ≠ [] then [.nameItem hs.nameText] else []) ++
    (if hs.contactText ≠ [] then [.contactItem hs.contactText] else []) ++
    mainLoopGo (filtered.drop hs.startIdx) [] false []

/-- String-level wrapper for `parseResumeContent`. -/
def parseResumeContent (s : String) : List PdfItem := parseResumeContentL s.data

/-- All text payloads of an item. -/
def itemTexts : PdfItem → List (List Char)
  | .nameItem t => [t]
  | .contactItem t => [t]
  | .headerItem t => [t]
  | .dividerItem => []
  | .bulletListItem ls => ls
  | .companyItem t => [t]
  | .jobTitleItem a b => [a, b]
  | .projDateItem t => [t]
  | .projNameItem a b => [a, b]
  | .degreeItem t => [t]
  | .regularItem t => [t]

/-- Does any text payload of the item contain `sub`? -/
def itemMentions (it : PdfItem) (sub : List Char) : Bool :=
  (itemTexts it).any fun t => containsSub t sub

/-- C2 (counterexample): `parseResumeContent` silently drops, by literal
content, every line containing the substring "Skills Emphasized": the input
below carries the non-blank line "Skills Emphasized: Python", yet no output
item mentions "Python" (or the filter phrase) at all. -/
theorem c2_counterexample_content_filtered :
    parseResumeContent "John Doe\njohn@x.com\nSKILLS\nSkills Emphasized: Python\nJava" =
      [.nameItem "John Doe".data, .contactItem "john@x.com".data,
       .headerItem "SKILLS".data, .dividerItem, .regularItem "Java".data] ∧
    "Skills Emphasized: Python".data ∈
      splitNL ("John Doe\njohn@x.com\nSKILLS\nSkills Emphasized: Python\nJava".data) ∧
    trimBoth ("Skills Emphasized: Python".data) ≠ [] ∧
    ((parseResumeContent
        "John Doe\njohn@x.com\nSKILLS\nSkills Emphasized: Python\nJava").all
      fun it => !(itemMentions it "Python".data)) = true := by
  exact ⟨rfl, by decide, by decide, by decide⟩

/-! ### Reachability in `parseResumeContent` (C2 amendment) -/

/-- The tag-stripped trimmed form of a line, as computed by the head scan. -/
def stripdL (l : List Char) : List Char :=
  trimBoth (stripTagsF (trimBoth l).length (trimBoth l))

/-- The item forms the non-bullet branch cascade can produce from a cleaned
line. -/
def cleanReach (clean : List Char) (it : PdfItem) : Prop :=
  it = PdfItem.companyItem clean ∨
  (∃ t d, jobSplit clean = some (t, d) ∧ it = PdfItem.jobTitleItem t d) ∨
  it = PdfItem.projDateItem clean ∨
  (∃ t d, projSplit clean = some (t, d) ∧ it = PdfItem.projNameItem t d) ∨
  it = PdfItem.degreeItem clean ∨
  it = PdfItem.regularItem clean

/-- An output item derived from the line `l`: its name/contact form, its
header form, a bullet list holding its bullet text, or one of the non-bullet
branch forms over its cleaned text. -/
def lineDerived (l : List Char) (it : PdfItem) : Prop :=
  it = PdfItem.nameItem (stripdL l) ∨
  it = PdfItem.contactItem (stripdL l) ∨
  it = PdfItem.headerItem (cleanMarkers (trimBoth l)) ∨
  (∃ ls, it = PdfItem.bulletListItem ls ∧
    trimBoth ((cleanMarkers (trimBoth l)).drop 1) ∈ ls) ∨
  cleanReach (cleanMarkers (trimBoth l)) it

theorem degreeDefault_reaches (sec clean : List Char) :
    ∃ it ∈ degreeDefault sec clean, cleanReach clean it := by
  unfold degreeDefault
  split
  · exact ⟨.degreeItem clean, List.mem_singleton.mpr rfl,
      Or.inr (Or.inr (Or.inr (Or.inr (Or.inl rfl))))⟩
  · exact ⟨.regularItem clean, List.mem_singleton.mpr rfl,
      Or.inr (Or.inr (Or.inr (Or.inr (Or.inr rfl))))⟩

theorem projBranch_reaches (sec clean : List Char) :
    ∃ it ∈ projBranch sec clean, cleanReach clean it := by
  unfold projBranch
  split
  · split
    · obtain ⟨it, hm, hr⟩ := degreeDefault_reaches sec clean
      exact ⟨.projDateItem clean, List.mem_cons_self _ _,
        Or.inr (Or.inr (Or.inl rfl))⟩
    · split
      · rename_i t0 t1 nm dat hsplit
        exact ⟨.projNameItem nm dat, List.mem_singleton.mpr rfl,
          Or.inr (Or.inr (Or.inr (Or.inl ⟨nm, dat, hsplit, rfl⟩)))⟩
      · exact degreeDefault_reaches sec clean
  · exact degreeDefault_reaches sec clean

theorem otherBranch_reaches (sec line clean : List Char) :
    ∃ it ∈ otherBranch sec line clean, cleanReach clean it := by
  unfold otherBranch
  split
  · exact ⟨.companyItem clean, List.mem_singleton.mpr rfl, Or.inl rfl⟩
  · split
    · split
      · rename_i t0 t1 ttl dat hsplit
        exact ⟨.jobTitleItem ttl dat, List.mem_singleton.mpr rfl,
          Or.inr (Or.inl ⟨ttl, dat, hsplit, rfl⟩)⟩
      · exact projBranch_reaches sec clean
    · exact projBranch_reaches sec clean

theorem mainLoop_bullet_flush (L : List (List Char)) : ∀ (sec : List Char)
    (items : List (List Char)) (x : List Char), x ∈ items →
    ∃ ls, PdfItem.bulletListItem ls ∈ mainLoopGo L sec true items ∧ x ∈ ls := by
  induction L with
  | nil =>
    intro sec items x hx
    refine ⟨items, ?_, hx⟩
    rw [mainLoopGo]
    rw [if_pos ⟨rfl, by rintro rfl; cases hx⟩]
    exact List.mem_singleton.mpr rfl
  | cons l rest ih =>
    intro sec items x hx
    rw [mainLoopGo]
    dsimp only
    by_cases hblank : trimBoth l = []
    · rw [if_pos hblank]
      exact ih sec items x hx
    · rw [if_neg hblank]
      by_cases hhdr : capsLineTest (cleanMarkers (trimBoth l)) = true ∧
          pdfHeaderVocab (cleanMarkers (trimBoth l))
      · rw [if_pos hhdr]
        refine ⟨items, ?_, hx⟩
        refine List.mem_append_left _ ?_
        rw [if_pos rfl]
        exact List.mem_singleton.mpr rfl
      · rw [if_neg hhdr]
        by_cases hbul : bulletStart (trimBoth l) = true
        · rw [if_pos hbul]
          refine ih sec _ x ?_
          refine List.mem_append_left _ ?_
          rw [if_pos rfl]
          exact hx
        · rw [if_neg hbul]
          refine ⟨items, ?_, hx⟩
          refine List.mem_append_left _ ?_
          refine List.mem_append_left _ ?_
          rw [if_pos rfl]
          exact List.mem_singleton.mpr rfl

theorem mainLoop_reaches (L : List (List Char)) : ∀ (sec : List Char)
    (inB : Bool) (items : List (List Char)) (l : List Char), l ∈ L →
    trimBoth l ≠ [] →
    ∃ it ∈ mainLoopGo L sec inB items, lineDerived l it := by
  induction L with
  | nil =>
    intro sec inB items l hl
    cases hl
  | cons l0 rest ih =>
    intro sec inB items l hl hnb
    rcases List.mem_cons.mp hl with rfl | hl2
    · rw [mainLoopGo]
      dsimp only
      rw [if_neg hnb]
      by_cases hhdr : capsLineTest (cleanMarkers (trimBoth l)) = true ∧
          pdfHeaderVocab (cleanMarkers (trimBoth l))
      · rw [if_pos hhdr]
        refine ⟨.headerItem (cleanMarkers (trimBoth l)), ?_, ?_⟩
        · exact List.mem_append_right _ (List.mem_cons_self _ _)
        · exact Or.inr (Or.inr (Or.inl rfl))
      · rw [if_neg hhdr]
        by_cases hbul : bulletStart (trimBoth l) = true
        · rw [if_pos hbul]
          obtain ⟨ls, hmem, hx⟩ := mainLoop_bullet_flush rest sec
            ((if inB then items else []) ++ [trimBoth ((cleanMarkers (trimBoth l)).drop 1)])
            (trimBoth ((cleanMarkers (trimBoth l)).drop 1))
            (List.mem_append_right _ (List.mem_singleton.mpr rfl))
          exact ⟨.bulletListItem ls, hmem,
            Or.inr (Or.inr (Or.inr (Or.inl ⟨ls, rfl, hx⟩)))⟩
        · rw [if_neg hbul]
          obtain ⟨it, hmem, hreach⟩ :=
            otherBranch_reaches sec (trimBoth l) (cleanMarkers (trimBoth l))
          refine ⟨it, ?_, Or.inr (Or.inr (Or.inr (Or.inr hreach)))⟩
          exact List.mem_append_left _ (List.mem_append_right _ hmem)
    · rw [mainLoopGo]
      dsimp only
      by_cases hblank : trimBoth l0 = []
      · rw [if_pos hblank]
        exact ih sec inB items l hl2 hnb
      · rw [if_neg hblank]
        by_cases hhdr : capsLineTest (cleanMarkers (trimBoth l0)) = true ∧
            pdfHeaderVocab (cleanMarkers (trimBoth l0))
        · rw [if_pos hhdr]
          obtain ⟨it, hmem, hd⟩ := ih (cleanMarkers (trimBoth l0)) false [] l hl2 hnb
          exact ⟨it, List.mem_append_right _
            (List.mem_cons_of_mem _ (List.mem_cons_of_mem _ hmem)), hd⟩
        · rw [if_neg hhdr]
          by_cases hbul : bulletStart (trimBoth l0) = true
          · rw [if_pos hbul]
            exact ih sec true _ l hl2 hnb
          · rw [if_neg hbul]
            obtain ⟨it, hmem, hd⟩ := ih sec false [] l hl2 hnb
            exact ⟨it, List.mem_append_right _ hmem, hd⟩

theorem headScanGo_name_stable (lines : List (List Char)) : ∀ (i start : Nat)
    (nm ct : List Char), nm ≠ [] →
    (headScanGo lines i start nm ct).nameText = nm := by
  induction lines with
  | nil => intro i start nm ct _; rfl
  | cons l rest ih =>
    intro i start nm ct hnm
    rw [headScanGo]
    dsimp only
    by_cases h5 : 5 ≤ i
    · rw [if_pos h5]
    · rw [if_neg h5]
      by_cases hblank : trimBoth l = []
      · rw [if_pos hblank]
        exact ih _ _ _ _ hnm
      · rw [if_neg hblank]
        rw [if_neg hnm]
        by_cases hct : ct = []
        · rw [if_pos hct]
        · rw [if_neg hct]
          exact ih _ _ _ _ hnm

theorem headScanGo_full (lines : List (List Char)) : ∀ (i start : Nat)
    (nm ct : List Char), nm ≠ [] → ct ≠ [] →
    headScanGo lines i start nm ct = ⟨nm, ct, start⟩ := by
  induction lines with
  | nil => intro i start nm ct _ _; rfl
  | cons l rest ih =>
    intro i start nm ct hnm hct
    rw [headScanGo]
    dsimp only
    by_cases h5 : 5 ≤ i
    · rw [if_pos h5]
    · rw [if_neg h5]
      by_cases hblank : trimBoth l = []
      · rw [if_pos hblank]
        exact ih _ _ _ _ hnm hct
      · rw [if_neg hblank, if_neg hnm, if_neg hct]
        exact ih _ _ _ _ hnm hct

theorem headScanGo_consumed (lines : List (List Char)) : ∀ (i start : Nat)
    (nm ct : List Char), start ≤ i →
    ∀ l ∈ lines, trimBoth l ≠ [] → stripdL l ≠ [] →
    l ∈ lines.drop ((headScanGo lines i start nm ct).startIdx - i) ∨
    stripdL l = (headScanGo lines i start nm ct).nameText ∨
    stripdL l = (headScanGo lines i start nm ct).contactText := by
  induction lines with
  | nil => intro i start nm ct _ l hl; cases hl
  | cons l0 rest ih =>
    intro i start nm ct hsi l hl hnb hstrip
    rw [headScanGo]
    dsimp only
    by_cases h5 : 5 ≤ i
    · rw [if_pos h5]
      left
      have h0 : start - i = 0 := by omega
      rw [h0]
      exact hl
    · rw [if_neg h5]
      by_cases hblank : trimBoth l0 = []
      · rw [if_pos hblank]
        rcases List.mem_cons.mp hl with rfl | hl2
        · exact absurd hblank hnb
        · rcases ih (i + 1) start nm ct (by omega) l hl2 hnb hstrip with hL | hR
          · left
            by_cases hbig : i + 1 ≤ (headScanGo rest (i + 1) start nm ct).startIdx
            · have harith : (headScanGo rest (i + 1) start nm ct).startIdx - i =
                  ((headScanGo rest (i + 1) start nm ct).startIdx - (i + 1)) + 1 := by
                omega
              rw [harith, List.drop_succ_cons]
              exact hL
            · have h0 : (headScanGo rest (i + 1) start nm ct).startIdx - i = 0 := by
                omega
              rw [h0]
              exact List.mem_cons_of_mem _ hl2
          · right; exact hR
      · rw [if_neg hblank]
        by_cases hnm : nm = []
        · rw [if_pos hnm]
          rcases List.mem_cons.mp hl with rfl | hl2
          · right; left
            show stripdL l = (headScanGo rest (i + 1) (i + 1) (stripdL l) ct).nameText
            rw [headScanGo_name_stable rest _ _ _ _ hstrip]
          · rcases ih (i + 1) (i + 1) (trimBoth (stripTagsF (trimBoth l0).length
                (trimBoth l0))) ct (le_refl _) l hl2 hnb hstrip with hL | hR
            · left
              by_cases hbig : i + 1 ≤ (headScanGo rest (i + 1) (i + 1)
                  (trimBoth (stripTagsF (trimBoth l0).length (trimBoth l0))) ct).startIdx
              · have harith : (headScanGo rest (i + 1) (i + 1)
                    (trimBoth (stripTagsF (trimBoth l0).length (trimBoth l0))) ct).startIdx
                    - i =
                    ((headScanGo rest (i + 1) (i + 1)
                      (trimBoth (stripTagsF (trimBoth l0).length (trimBoth l0))) ct).startIdx
                      - (i + 1)) + 1 := by
                  omega
                rw [harith, List.drop_succ_cons]
                exact hL
              · have h0 : (headScanGo rest (i + 1) (i + 1)
                    (trimBoth (stripTagsF (trimBoth l0).length (trimBoth l0))) ct).startIdx
                    - i = 0 := by
                  omega
                rw [h0]
                exact List.mem_cons_of_mem _ hl2
            · right; exact hR
        · rw [if_neg hnm]
          by_cases hct : ct = []
          · rw [if_pos hct]
            rcases List.mem_cons.mp hl with rfl | hl2
            · right; right; rfl
            · left
              have h1 : i + 1 - i = 1 := by omega
              rw [h1, List.drop_succ_cons, List.drop_zero]
              exact hl2
          · rw [if_neg hct]
            rw [headScanGo_full rest _ _ _ _ hnm hct]
            left
            have h0 : start - i = 0 := by omega
            rw [h0]
            exact hl

/-- C2 (amended): no surviving line is silently dropped — every line of the
input that is non-blank, does not contain the literal "Skills Emphasized"
(those are dropped by the filter, as the counterexample shows), and has
non-empty tag-stripped content, reaches the structured output: some item
carries its name/contact form, its header form, its bullet text, or one of
the non-bullet branch forms of its cleaned text. -/
theorem c2_amended_no_line_lost :
    ∀ (text : String) (l : List Char),
      l ∈ splitNL text.data →
      trimBoth l ≠ [] →
      containsSub l "Skills Emphasized".data = false →
      stripdL l ≠ [] →
      ∃ it ∈ parseResumeContent text, lineDerived l it := by
  intro text l hmem hnb hno hstrip
  show ∃ it ∈ parseResumeContentL text.data, lineDerived l it
  unfold parseResumeContentL
  dsimp only
  have hlf : l ∈ (splitNL text.data).filter
      (fun l2 => containsSub l2 "Skills Emphasized".data = false) := by
    refine List.mem_filter.mpr ⟨hmem, ?_⟩
    simp [hno]
  rcases headScanGo_consumed _ 0 0 [] [] (le_refl 0) l hlf hnb hstrip
    with hL | hName | hCt
  · rw [Nat.sub_zero] at hL
    obtain ⟨it, hm, hd⟩ := mainLoop_reaches _ [] false [] l hL hnb
    exact ⟨it, List.mem_append_right _ hm, hd⟩
  · have hne : (headScanGo ((splitNL text.data).filter
        (fun l2 => containsSub l2 "Skills Emphasized".data = false)) 0 0 [] []).nameText
        ≠ [] := by
      rw [← hName]
      exact hstrip
    refine ⟨.nameItem (headScanGo ((splitNL text.data).filter
        (fun l2 => containsSub l2 "Skills Emphasized".data = false)) 0 0 [] []).nameText,
      ?_, ?_⟩
    · refine List.mem_append_left _ (List.mem_append_left _ ?_)
      rw [if_pos hne]
      exact List.mem_singleton.mpr rfl
    · left
      rw [hName]
  · have hne : (headScanGo ((splitNL text.data).filter
        (fun l2 => containsSub l2 "Skills Emphasized".data = false)) 0 0 [] []).contactText
        ≠ [] := by
      rw [← hCt]
      exact hstrip
    refine ⟨.contactItem (headScanGo ((splitNL text.data).filter
        (fun l2 => containsSub l2 "Skills Emphasized".data = false)) 0 0 [] []).contactText,
      ?_, ?_⟩
    · refine List.mem_append_left _ (List.mem_append_right _ ?_)
      rw [if_pos hne]
      exact List.mem_singleton.mpr rfl
    · right; left
      rw [hCt]

/-- Witness for C2 (amended) at a concrete input: the line "Java" of a
three-line resume reaches the output. -/
theorem c2_amended_witness :
    ∃ it ∈ parseResumeContent "John Doe\nx@y.z\nJava", lineDerived "Java".data it :=
  c2_amended_no_line_lost "John Doe\nx@y.z\nJava" "Java".data (by decide) (by decide)
    (by decide) (by decide)

/-! ### `generateResumeHTML` (`export-resume-pdf/route.ts` lines 76–563)

The HTML is produced as a string, as in the source.  Modelling notes:
numeric design values that are only ever interpolated into the output
(margins, line/section spacing) are carried as their rendered strings, while
the font sizes are integers because the source computes `fontSize.normal - 1`;
the inert indentation whitespace of the template literals is reproduced as
single newlines; JS string truthiness (`x ? ... : ''`) is modelled by
`optStr`; the unguarded `section.items.map(...)` over a possibly-absent
`items` makes the result an `Option`, with `none` modelling the thrown
`TypeError`. -/

/-- Section position in a template. -/
inductive SectionPos where
  | header
  | sidebar
  | main
deriving Repr, DecidableEq

/-- Per-section template configuration (resume.ts lines 104–113). -/
structure SectionCfg where
  visible : Bool
  position : SectionPos
deriving Repr, DecidableEq

/-- The eight per-section entries of `template.sections`. -/
structure TemplateSections where
  contactInfo : SectionCfg
  summary : SectionCfg
  experience : SectionCfg
  education : SectionCfg
  skills : SectionCfg
  projects : SectionCfg
  certifications : SectionCfg
  additionalSections : SectionCfg
deriving Repr, DecidableEq

/-- ResumeTemplate (the fields `generateResumeHTML` reads). -/
structure ResumeTemplate where
  id : String
  sections : TemplateSections
deriving Repr, DecidableEq

/-- Font sizes (integers: the source computes `fontSize.normal - 1`). -/
structure DesignFontSizes where
  name : Int
  sectionTitle : Int
  itemTitle : Int
  normal : Int
deriving Repr, DecidableEq

/-- Margins, carried as rendered strings (only interpolated). -/
structure DesignMargins where
  top : String
  right : String
  bottom : String
  left : String
deriving Repr, DecidableEq

/-- The legacy `ResumeDesignOptions` interface (resume.ts lines 150–168). -/
structure ResumeDesignOptions where
  template : String
  fontSize : DesignFontSizes
  fontFamily : String
  primaryColor : String
  margins : DesignMargins
  lineSpacing : String
  sectionSpacing : String
deriving Repr, DecidableEq

/-- JS truthy conditional over an optional string:
`${x ? f(x) : ''}` (absent and empty are both falsy). -/
def optStr (o : Option String) (f : String → String) : String :=
  match o with
  | some s => if s = "" then "" else f s
  | none => ""

/-- The `formatDate` helper (route.ts lines 78–82). -/
def formatDate (d : Option String) : String :=
  match d with
  | none => ""
  | some s =>
    if s = "" then ""
    else if s.data.map lcA = "present".data then "Present"
    else s

/-- The CSS template (route.ts lines 85–242), as a function of the template
and design options (braces written `\x7b`/`\x7d`, apostrophes `\x27`). -/
def cssOf (tpl : ResumeTemplate) (d : ResumeDesignOptions) : String :=
  "\n@import url(\x27https://fonts.googleapis.com/css2?family=Inter:wght@400;500;700&family=Roboto:wght@400;500;700&family=Georgia&family=Montserrat:wght@400;500;700&family=Source+Code+Pro:wght@400;600&display=swap\x27);\n" ++
  "* \x7b box-sizing: border-box; margin: 0; padding: 0; \x7d\n" ++
  "body \x7b font-family: " ++ d.fontFamily ++ "; font-size: " ++
    toString d.fontSize.normal ++ "px; line-height: " ++ d.lineSpacing ++
    "; color: #333; margin: 0; padding: 0; -webkit-print-color-adjust: exact; print-color-adjust: exact; \x7d\n" ++
  ".resume-container \x7b max-width: 8.5in; height: 11in; margin: 0 auto; position: relative; overflow: hidden; \x7d\n" ++
  "h1, h2, h3, h4 \x7b margin: 0; padding: 0; font-weight: 600; \x7d\n" ++
  "ul \x7b list-style-type: disc; padding-left: 1.5em; margin-top: 0.25em; \x7d\n" ++
  (if tpl.sections.contactInfo.position = .sidebar then
    "\n.resume-layout \x7b display: flex; height: 100%; \x7d\n" ++
    ".sidebar \x7b width: 30%; background-color: #f5f5f5; padding: " ++
      d.margins.left ++ "px; border-right: 1px solid #ddd; \x7d\n" ++
    ".main-content \x7b width: 70%; padding: " ++ d.margins.right ++
      "px; overflow: hidden; \x7d\n"
   else
    "\n.resume-layout \x7b display: flex; flex-direction: column; height: 100%; \x7d\n" ++
    ".header \x7b padding: " ++ d.margins.top ++ "px " ++ d.margins.left ++
      "px; background-color: #f5f5f5; border-bottom: 2px solid " ++
      d.primaryColor ++ "; text-align: center; \x7d\n" ++
    ".main-content \x7b flex: 1; padding: " ++ d.margins.right ++
      "px; overflow: hidden; \x7d\n") ++
  ".name \x7b font-size: " ++ toString d.fontSize.name ++
    "px; font-weight: bold; color: " ++ d.primaryColor ++ "; margin-bottom: 0.5em; \x7d\n" ++
  ".contact-info \x7b font-size: " ++ toString d.fontSize.normal ++
    "px; margin-bottom: 1.5em; \x7d\n" ++
  ".section \x7b margin-bottom: " ++ d.sectionSpacing ++ "px; \x7d\n" ++
  ".section-title \x7b font-size: " ++ toString d.fontSize.sectionTitle ++
    "px; color: " ++ d.primaryColor ++ "; border-bottom: 1px solid " ++
    d.primaryColor ++ "; padding-bottom: 0.25em; margin-bottom: 0.75em; \x7d\n" ++
  ".item \x7b margin-bottom: 0.75em; \x7d\n" ++
  ".item-header \x7b display: flex; justify-content: space-between; margin-bottom: 0.25em; \x7d\n" ++
  ".item-title \x7b font-size: " ++ toString d.fontSize.itemTitle ++
    "px; font-weight: 600; \x7d\n" ++
  ".item-right \x7b text-align: right; font-size: " ++
    toString (d.fontSize.normal - 1) ++ "px; \x7d\n" ++
  ".item-company, .item-institution \x7b font-weight: 500; \x7d\n" ++
  ".item-subtitle \x7b margin-bottom: 0.25em; \x7d\n" ++
  ".skills-container \x7b margin-top: 0.5em; \x7d\n" ++
  ".skill-category \x7b margin-bottom: 0.75em; \x7d\n" ++
  ".skill-category-name \x7b font-weight: 600; margin-bottom: 0.25em; \x7d\n" ++
  ".skills-list \x7b display: flex; flex-wrap: wrap; gap: 0.5em; \x7d\n" ++
  ".skill-item \x7b background-color: #f0f0f0; padding: 0.25em 0.5em; border-radius: 4px; font-size: " ++
    toString (d.fontSize.normal - 1) ++ "px; \x7d\n"

/-- The sidebar contact block (route.ts lines 252–264). -/
def contactSidebarHTML (rd : ResumeData) (tpl : ResumeTemplate) : String :=
  if tpl.sections.contactInfo.visible then
    "\n<div class=\"section\">\n<h1 class=\"name\">" ++ rd.contactInfo.name ++
    "</h1>\n<div class=\"contact-info\">\n" ++
    (if rd.contactInfo.email ≠ "" then "<div>" ++ rd.contactInfo.email ++ "</div>" else "") ++
    (if rd.contactInfo.phone ≠ "" then "<div>" ++ rd.contactInfo.phone ++ "</div>" else "") ++
    (if rd.contactInfo.location ≠ "" then "<div>" ++ rd.contactInfo.location ++ "</div>" else "") ++
    optStr rd.contactInfo.linkedin (fun s => "<div>" ++ s ++ "</div>") ++
    optStr rd.contactInfo.github (fun s => "<div>" ++ s ++ "</div>") ++
    optStr rd.contactInfo.portfolio (fun s => "<div>" ++ s ++ "</div>") ++
    "\n</div>\n</div>\n"
  else ""

/-- The sidebar skills block (lines 266–280). -/
def skillsSidebarHTML (rd : ResumeData) (tpl : ResumeTemplate) : String :=
  if tpl.sections.skills.visible ∧ tpl.sections.skills.position = .sidebar then
    "\n<div class=\"section\">\n<h2 class=\"section-title\">Skills</h2>\n<div class=\"skills-container\">\n" ++
    String.join (rd.skills.categories.map fun cat =>
      "\n<div class=\"skill-category\">\n<div class=\"skill-category-name\">" ++
      cat.name ++ "</div>\n<ul>\n" ++
      String.join (cat.skills.map fun sk => "<li>" ++ sk ++ "</li>") ++
      "\n</ul>\n</div>\n") ++
    "\n</div>\n</div>\n"
  else ""

/-- One experience item (lines 294–307 / 435–448). -/
def expItemHTML (e : Experience) : String :=
  "\n<div class=\"item\">\n<div class=\"item-header\">\n<span class=\"item-title item-company\">" ++
  e.company ++ "</span>\n<span class=\"item-right\">" ++
  formatDate (some e.startDate) ++ " - " ++ formatDate (some e.endDate) ++
  "</span>\n</div>\n<div class=\"item-subtitle\">\n<span>" ++ e.title ++ "</span>\n" ++
  optStr e.location (fun s => "<span class=\"item-right\">" ++ s ++ "</span>") ++
  "\n</div>\n<ul>\n" ++
  String.join (e.bullets.map fun b => "<li>" ++ b ++ "</li>") ++
  "\n</ul>\n</div>\n"

/-- One education item (lines 315–327 / 456–467). -/
def eduItemHTML (e : Education) : String :=
  "\n<div class=\"item\">\n<div class=\"item-header\">\n<span class=\"item-title item-institution\">" ++
  e.institution ++ "</span>\n<span class=\"item-right\">" ++
  formatDate (some e.startDate) ++ " - " ++ formatDate (some e.endDate) ++
  "</span>\n</div>\n<div class=\"item-subtitle\">\n<span>" ++ e.degree ++
  (if e.field ≠ "" then ", " ++ e.field else "") ++ "</span>\n" ++
  optStr e.location (fun s => "<span class=\"item-right\">" ++ s ++ "</span>") ++
  optStr e.gpa (fun s => "<span class=\"item-right\">GPA: " ++ s ++ "</span>") ++
  "\n</div>\n</div>\n"

/-- The main-content skills block (lines 331–343 / 472–484). -/
def skillsBodyHTML (rd : ResumeData) : String :=
  "\n<div class=\"section\">\n<h2 class=\"section-title\">Skills</h2>\n<div class=\"skills-container\">\n" ++
  String.join (rd.skills.categories.map fun cat =>
    "\n<div class=\"skill-category\">\n<div class=\"skill-category-name\">" ++
    cat.name ++ ":</div>\n<div>" ++ String.intercalate ", " cat.skills ++
    "</div>\n</div>\n") ++
  "\n</div>\n</div>\n"

/-- One project item (lines 348–365 / 489–506). -/
def projItemHTML (p : Project) : String :=
  "\n<div class=\"item\">\n<div class=\"item-header\">\n<span class=\"item-title\">" ++
  p.name ++ "</span>\n" ++
  (if (p.startDate.getD "") ≠ "" ∨ (p.endDate.getD "") ≠ "" then
    "\n<span class=\"item-right\">\n" ++ formatDate p.startDate ++
    (if (p.endDate.getD "") ≠ "" then " - " ++ formatDate p.endDate else "") ++
    "\n</span>\n"
   else "") ++
  "\n</div>\n" ++
  optStr p.description (fun s => "<p>" ++ s ++ "</p>") ++
  (if 0 < p.bullets.length then
    "\n<ul>\n" ++ String.join (p.bullets.map fun b => "<li>" ++ b ++ "</li>") ++ "\n</ul>\n"
   else "") ++
  "\n</div>\n"

/-- One certification item (lines 372–380 / 513–521). -/
def certItemHTML (c : Certification) : String :=
  "\n<div class=\"item\">\n<div class=\"item-header\">\n<span class=\"item-title\">" ++
  c.name ++ "</span>\n" ++
  optStr c.date (fun s => "<span class=\"item-right\">" ++ s ++ "</span>") ++
  "\n</div>\n" ++
  optStr c.issuer (fun s => "<div>" ++ s ++ "</div>") ++
  "\n</div>\n"

/-- The projects block with its guard (lines 345–367 / 486–508). -/
def projectsBlockHTML (rd : ResumeData) (tpl : ResumeTemplate) : String :=
  if tpl.sections.projects.visible ∧ 0 < (rd.projects.getD []).length ∧
      rd.projects.isSome then
    "\n<div class=\"section\">\n<h2 class=\"section-title\">Projects</h2>\n" ++
    String.join ((rd.projects.getD []).map projItemHTML) ++ "\n</div>\n"
  else ""

/-- The certifications block with its guard (lines 369–382 / 510–523). -/
def certsBlockHTML (rd : ResumeData) (tpl : ResumeTemplate) : String :=
  if tpl.sections.certifications.visible ∧ 0 < (rd.certifications.getD []).length ∧
      rd.certifications.isSome then
    "\n<div class=\"section\">\n<h2 class=\"section-title\">Certifications</h2>\n" ++
    String.join ((rd.certifications.getD []).map certItemHTML) ++ "\n</div>\n"
  else ""

/-- One additional-section item (lines 388–397 / 529–538). -/
def addItemHTML (it : AdditionalSectionItem) : String :=
  "\n<div class=\"item\">\n" ++
  optStr it.title (fun s => "<div class=\"item-title\">" ++ s ++ "</div>") ++
  (if (it.bullets.getD []).length > 0 ∧ it.bullets.isSome then
    "\n<ul>\n" ++ String.join ((it.bullets.getD []).map fun b => "<li>" ++ b ++ "</li>") ++
    "\n</ul>\n"
   else "") ++
  "\n</div>\n"

/-- One additional section (lines 385–399 / 526–540): the source reads
`section.items.map(...)` without a guard, so an absent `items` list throws —
modelled as `none`.  Note the `content` field is never rendered. -/
def additionalSectionHTML (sec : AdditionalSection) : Option String :=
  (sec.items).map fun items =>
    "\n<div class=\"section\">\n<h2 class=\"section-title\">" ++ sec.title ++
    "</h2>\n" ++ String.join (items.map addItemHTML) ++ "\n</div>\n"

/-- The additional-sections block with its guard (lines 384–400 / 525–541). -/
def additionalBlockHTML (rd : ResumeData) (tpl : ResumeTemplate) : Option String :=
  if tpl.sections.additionalSections.visible ∧
      0 < (rd.additionalSections.getD []).length ∧ rd.additionalSections.isSome then
    ((rd.additionalSections.getD []).mapM additionalSectionHTML).map
      fun l => "\n" ++ String.join l ++ "\n"
  else some ""

/-- The sidebar layout (lines 247–403). -/
def sidebarLayout (rd : ResumeData) (tpl : ResumeTemplate) (addl : String) : String :=
  "\n<div class=\"resume-layout\">\n<div class=\"sidebar\">\n" ++
  contactSidebarHTML rd tpl ++ skillsSidebarHTML rd tpl ++
  "\n</div>\n<div class=\"main-content\">\n" ++
  (if tpl.sections.summary.visible ∧ tpl.sections.summary.position = .main then
    "\n<div class=\"section\">\n<h2 class=\"section-title\">Summary</h2>\n<p>" ++
    rd.summary ++ "</p>\n</div>\n"
   else "") ++
  (if tpl.sections.experience.visible ∧ tpl.sections.experience.position = .main then
    "\n<div class=\"section\">\n<h2 class=\"section-title\">Experience</h2>\n" ++
    String.join (rd.experience.map expItemHTML) ++ "\n</div>\n"
   else "") ++
  (if tpl.sections.education.visible ∧ tpl.sections.education.position = .main then
    "\n<div class=\"section\">\n<h2 class=\"section-title\">Education</h2>\n" ++
    String.join (rd.education.map eduItemHTML) ++ "\n</div>\n"
   else "") ++
  (if tpl.sections.skills.visible ∧ tpl.sections.skills.position = .main then
    skillsBodyHTML rd
   else "") ++
  projectsBlockHTML rd tpl ++ certsBlockHTML rd tpl ++ addl ++
  "\n</div>\n</div>\n"

/-- The header layout (lines 404–545). -/
def headerLayout (rd : ResumeData) (tpl : ResumeTemplate) (addl : String) : String :=
  "\n<div class=\"resume-layout\">\n" ++
  (if tpl.sections.contactInfo.visible then
    "\n<div class=\"header\">\n<h1 class=\"name\">" ++ rd.contactInfo.name ++
    "</h1>\n<div class=\"contact-info\">\n" ++
    (if rd.contactInfo.email ≠ "" then "<span>" ++ rd.contactInfo.email ++ "</span> • " else "") ++
    (if rd.contactInfo.phone ≠ "" then "<span>" ++ rd.contactInfo.phone ++ "</span> • " else "") ++
    (if rd.contactInfo.location ≠ "" then "<span>" ++ rd.contactInfo.location ++ "</span>" else "") ++
    "\n</div>\n<div class=\"contact-info\">\n" ++
    optStr rd.contactInfo.linkedin (fun s => "<span>" ++ s ++ "</span> • ") ++
    optStr rd.contactInfo.github (fun s => "<span>" ++ s ++ "</span> • ") ++
    optStr rd.contactInfo.portfolio (fun s => "<span>" ++ s ++ "</span>") ++
    "\n</div>\n</div>\n"
   else "") ++
  "\n<div class=\"main-content\">\n" ++
  (if tpl.sections.summary.visible then
    "\n<div class=\"section\">\n<h2 class=\"section-title\">Summary</h2>\n<p>" ++
    rd.summary ++ "</p>\n</div>\n"
   else "") ++
  (if tpl.sections.experience.visible then
    "\n<div class=\"section\">\n<h2 class=\"section-title\">Experience</h2>\n" ++
    String.join (rd.experience.map expItemHTML) ++ "\n</div>\n"
   else "") ++
  (if tpl.sections.education.visible then
    "\n<div class=\"section\">\n<h2 class=\"section-title\">Education</h2>\n" ++
    String.join (rd.education.map eduItemHTML) ++ "\n</div>\n"
   else "") ++
  (if tpl.sections.skills.visible then skillsBodyHTML rd else "") ++
  projectsBlockHTML rd tpl ++ certsBlockHTML rd tpl ++ addl ++
  "\n</div>\n</div>\n"

/-- Embedding of `generateResumeHTML` (route.ts lines 76–563).  `none`
models the `TypeError` thrown by `section.items.map` when an additional
section carries no `items` list. -/
def generateResumeHTML (rd : ResumeData) (tpl : ResumeTemplate)
    (d : ResumeDesignOptions) : Option String :=
  (additionalBlockHTML rd tpl).map fun addl =>
    let contentHTML :=
      if tpl.sections.contactInfo.position = .sidebar then sidebarLayout rd tpl addl
      else headerLayout rd tpl addl
    "\n<!DOCTYPE html>\n<html>\n<head>\n<meta charset=\"UTF-8\">\n" ++
    "<meta name=\"viewport\" content=\"width=device-width, initial-scale=1.0\">\n<title>" ++
    (if rd.contactInfo.name ≠ "" then rd.contactInfo.name else "Resume") ++
    "</title>\n<style>" ++ cssOf tpl d ++ "</style>\n</head>\n<body>\n" ++
    "<div class=\"resume-container\">\n" ++ contentHTML ++
    "\n</div>\n</body>\n</html>\n"

/-- C7: a section whose template entry has `visible = false` contributes no
region to the rendered output — the output does not depend on that
section's data at all (for contactInfo, all fields except the name, which
the `<title>` element uses unconditionally). -/
theorem c7_invisible_sections_not_rendered :
    (∀ (rd : ResumeData) (tpl : ResumeTemplate) (d : ResumeDesignOptions) (sk : Skills),
      tpl.sections.skills.visible = false →
      generateResumeHTML { rd with skills := sk } tpl d = generateResumeHTML rd tpl d) ∧
    (∀ (rd : ResumeData) (tpl : ResumeTemplate) (d : ResumeDesignOptions) (s : String),
      tpl.sections.summary.visible = false →
      generateResumeHTML { rd with summary := s } tpl d = generateResumeHTML rd tpl d) ∧
    (∀ (rd : ResumeData) (tpl : ResumeTemplate) (d : ResumeDesignOptions)
        (e : List Experience),
      tpl.sections.experience.visible = false →
      generateResumeHTML { rd with experience := e } tpl d = generateResumeHTML rd tpl d) ∧
    (∀ (rd : ResumeData) (tpl : ResumeTemplate) (d : ResumeDesignOptions)
        (e : List Education),
      tpl.sections.education.visible = false →
      generateResumeHTML { rd with education := e } tpl d = generateResumeHTML rd tpl d) ∧
    (∀ (rd : ResumeData) (tpl : ResumeTemplate) (d : ResumeDesignOptions)
        (p : Option (List Project)),
      tpl.sections.projects.visible = false →
      generateResumeHTML { rd with projects := p } tpl d = generateResumeHTML rd tpl d) ∧
    (∀ (rd : ResumeData) (tpl : ResumeTemplate) (d : ResumeDesignOptions)
        (c : Option (List Certification)),
      tpl.sections.certifications.visible = false →
      generateResumeHTML { rd with certifications := c } tpl d =
        generateResumeHTML rd tpl d) ∧
    (∀ (rd : ResumeData) (tpl : ResumeTemplate) (d : ResumeDesignOptions)
        (a : Option (List AdditionalSection)),
      tpl.sections.additionalSections.visible = false →
      generateResumeHTML { rd with additionalSections := a } tpl d =
        generateResumeHTML rd tpl d) ∧
    (∀ (rd : ResumeData) (tpl : ResumeTemplate) (d : ResumeDesignOptions)
        (ci : ContactInfo),
      tpl.sections.contactInfo.visible = false → ci.name = rd.contactInfo.name →
      generateResumeHTML { rd with contactInfo := ci } tpl d =
        generateResumeHTML rd tpl d) := by
  refine ⟨?_, ?_, ?_, ?_, ?_, ?_, ?_, ?_⟩
  · intro rd tpl d sk h
    simp [generateResumeHTML, sidebarLayout, headerLayout, contactSidebarHTML,
      skillsSidebarHTML, skillsBodyHTML, projectsBlockHTML, certsBlockHTML,
      additionalBlockHTML, h]
  · intro rd tpl d s h
    simp [generateResumeHTML, sidebarLayout, headerLayout, contactSidebarHTML,
      skillsSidebarHTML, skillsBodyHTML, projectsBlockHTML, certsBlockHTML,
      additionalBlockHTML, h]
  · intro rd tpl d e h
    simp [generateResumeHTML, sidebarLayout, headerLayout, contactSidebarHTML,
      skillsSidebarHTML, skillsBodyHTML, projectsBlockHTML, certsBlockHTML,
      additionalBlockHTML, h]
  · intro rd tpl d e h
    simp [generateResumeHTML, sidebarLayout, headerLayout, contactSidebarHTML,
      skillsSidebarHTML, skillsBodyHTML, projectsBlockHTML, certsBlockHTML,
      additionalBlockHTML, h]
  · intro rd tpl d p h
    simp [generateResumeHTML, sidebarLayout, headerLayout, contactSidebarHTML,
      skillsSidebarHTML, skillsBodyHTML, projectsBlockHTML, certsBlockHTML,
      additionalBlockHTML, h]
  · intro rd tpl d c h
    simp [generateResumeHTML, sidebarLayout, headerLayout, contactSidebarHTML,
      skillsSidebarHTML, skillsBodyHTML, projectsBlockHTML, certsBlockHTML,
      additionalBlockHTML, h]
  · intro rd tpl d a h
    simp [generateResumeHTML, sidebarLayout, headerLayout, contactSidebarHTML,
      skillsSidebarHTML, skillsBodyHTML, projectsBlockHTML, certsBlockHTML,
      additionalBlockHTML, h]
  · intro rd tpl d ci h hn
    simp [generateResumeHTML, sidebarLayout, headerLayout, contactSidebarHTML,
      skillsSidebarHTML, skillsBodyHTML, projectsBlockHTML, certsBlockHTML,
      additionalBlockHTML, h, hn]

/-- A fully-visible header-layout template used by concrete theorems. -/
def exampleTemplate : ResumeTemplate :=
  { id := "modern",
    sections :=
      { contactInfo := ⟨true, .header⟩
        summary := ⟨true, .main⟩
        experience := ⟨true, .main⟩
        education := ⟨true, .main⟩
        skills := ⟨true, .main⟩
        projects := ⟨true, .main⟩
        certifications := ⟨true, .main⟩
        additionalSections := ⟨true, .main⟩ } }

/-- The same template with the skills section hidden. -/
def hiddenSkillsTemplate : ResumeTemplate :=
  { exampleTemplate with
      sections := { exampleTemplate.sections with skills := ⟨false, .main⟩ } }

/-- Concrete design options used by concrete theorems. -/
def exampleDesign : ResumeDesignOptions :=
  { template := "modern", fontSize := ⟨24, 14, 12, 10⟩, fontFamily := "Inter",
    primaryColor := "#2563eb", margins := ⟨"20", "20", "20", "20"⟩,
    lineSpacing := "1.5", sectionSpacing := "16" }

/-- Witness for C7: with skills hidden, a document with one skill category
renders identically to the same document with none. -/
theorem c7_witness :
    generateResumeHTML { exampleDoc with skills := ⟨[⟨"Web", ["React", "CSS"]⟩]⟩ }
        hiddenSkillsTemplate exampleDesign =
      generateResumeHTML exampleDoc hiddenSkillsTemplate exampleDesign :=
  c7_invisible_sections_not_rendered.1 exampleDoc hiddenSkillsTemplate exampleDesign
    ⟨[⟨"Web", ["React", "CSS"]⟩]⟩ rfl

/-- A document whose only additional section carries free-form content and
no items list (legal per the `AdditionalSection` type). -/
def contentOnlyDoc : ResumeData :=
  { getEmptyResumeData with
      additionalSections := some [{ title := "Hobbies", content := some "free text" }] }

/-- C8 (code_bug evidence): rendering a document whose additional section
has only `content` (no `items`) throws (`section.items.map` on `undefined`),
modelled as `none` — contradicting the spec's totality claim; the
`AdditionalSection` type explicitly allows this shape. -/
theorem c8_renderer_throws_on_content_only_section :
    generateResumeHTML contentOnlyDoc exampleTemplate exampleDesign = none ∧
    contentOnlyDoc.additionalSections =
      some [{ title := "Hobbies", items := none, content := some "free text" }] := by
  exact ⟨rfl, rfl⟩

/-! ### Support lemmas for the Rule Engine theorems -/

theorem trimR_length_le (s : List Char) : (trimR s).length ≤ s.length := by
  unfold trimR
  rw [List.length_reverse]
  calc (s.reverse.dropWhile pyWs).length ≤ s.reverse.length :=
        length_dropWhile_le pyWs s.reverse
    _ = s.length := List.length_reverse s.reverse ▸ by simp

theorem trimBoth_length_le (s : List Char) : (trimBoth s).length ≤ s.length := by
  unfold trimBoth trimL
  calc (trimR (s.dropWhile pyWs)).length ≤ (s.dropWhile pyWs).length :=
        trimR_length_le _
    _ ≤ s.length := length_dropWhile_le pyWs s

theorem head_not_ws_of_trimBoth {c : Char} {cs : List Char}
    (h : trimBoth (c :: cs) = c :: cs) : pyWs c = false := by
  by_cases hc : pyWs c = true
  · exfalso
    have h1 : trimBoth (c :: cs) = trimR (cs.dropWhile pyWs) := by
      unfold trimBoth trimL
      rw [List.dropWhile_cons_of_pos hc]
    have h2 : (trimBoth (c :: cs)).length ≤ cs.length := by
      rw [h1]
      calc (trimR (cs.dropWhile pyWs)).length ≤ (cs.dropWhile pyWs).length :=
            trimR_length_le _
        _ ≤ cs.length := length_dropWhile_le pyWs cs
    rw [h] at h2
    simp at h2
  · simpa using hc

theorem dropWhile_eq_self_of_head {c : Char} {cs : List Char} (h : pyWs c = false) :
    (c :: cs).dropWhile pyWs = c :: cs := by
  simp [List.dropWhile, h]

theorem takeWhile_eq_nil_of_head {c : Char} {cs : List Char} (h : pyWs c = false) :
    (c :: cs).takeWhile pyWs = [] := by
  simp [List.takeWhile, h]

theorem endsPunct_concat_dot (u : List Char) : endsPunct (u ++ ['.']) = true := by
  unfold endsPunct
  rw [List.getLast?_concat]
  simp

theorem endsPunct_punctuate (u : List Char) :
    endsPunct (punctuateL u) = true := by
  unfold punctuateL
  by_cases h : endsPunct u = true
  · rw [if_pos h]; exact h
  · rw [if_neg h]; exact endsPunct_concat_dot u

theorem punctuateL_ne_nil {u : List Char} (hu : u ≠ []) : punctuateL u ≠ [] := by
  unfold punctuateL
  by_cases h : endsPunct u = true
  · rw [if_pos h]; exact hu
  · rw [if_neg h]; simp

theorem endsPunct_cons_cons {a b : Char} {v : List Char} (hv : v ≠ []) :
    endsPunct (a :: b :: v) = endsPunct v := by
  unfold endsPunct
  rw [List.getLast?_cons_cons]
  cases v with
  | nil => exact absurd rfl hv
  | cons x xs =>
    cases xs with
    | nil => rfl
    | cons y ys => rw [List.getLast?_cons_cons]

theorem subScanF_ne_nil {p r : List Char} (hr : r ≠ []) :
    ∀ (fuel : Nat) (w : Bool) (s : List Char), s ≠ [] → subScanF p r fuel w s ≠ [] := by
  intro fuel
  induction fuel with
  | zero => intro w s hs; simpa [subScanF] using hs
  | succ n ih =>
    intro w s hs
    match s with
    | [] => exact absurd rfl hs
    | c :: cs =>
      rw [subScanF]
      cases hm : matchCI p (c :: cs) with
      | some rest =>
        by_cases hc : w = false ∧ boundR rest = true ∧ p ≠ []
        · simp [hc, hr]
        · simp [hc]
      | none => simp

theorem weakSub_aux_ne_nil :
    ∀ (rules : List (List Char × List Char)) (s : List Char),
      (∀ pr ∈ rules, pr.2 ≠ []) → s ≠ [] → rules.foldl applyRule s ≠ [] := by
  intro rules
  induction rules with
  | nil => intro s _ hs; simpa using hs
  | cons pr rest ih =>
    intro s hr hs
    rw [List.foldl_cons]
    refine ih _ (fun q hq => hr q (List.mem_cons_of_mem pr hq)) ?_
    unfold applyRule subScan
    exact subScanF_ne_nil (hr pr (List.mem_cons_self pr rest)) _ _ _ hs

theorem weakSubL_ne_nil {s : List Char} (hs : s ≠ []) : weakSubL s ≠ [] := by
  unfold weakSubL
  refine weakSub_aux_ne_nil weakRules s ?_ hs
  decide

/-- C6 (amended): in `_final_grammar_check` a period is appended to a bullet
line's text iff the text is longer than 20 characters and does not already
end in `.`, `!` or `?`; but `_optimize_summary_line` and
`_optimize_experience_line` punctuate every line they process (that does not
already end in `.`, `!` or `?`) regardless of length. -/
theorem c6_amended_period_threshold :
    (∀ t : List Char, trimBoth t = t → t ≠ [] →
      bulletFixLineL ('•' :: ' ' :: t) =
        '•' :: ' ' :: (capFirstL t ++
          (if 20 < t.length ∧ endsPunct (capFirstL t) = false then ['.'] else []))) ∧
    (∀ s : String, s ≠ "" →
      ∃ r, optimizeSummaryLine s = some r ∧ endsPunct r.data = true) ∧
    (∀ (s r : String), optimizeExperienceLine s = some r →
      isBulletLineL s.data = true → endsPunct r.data = true) := by
  refine ⟨?_, ?_, ?_⟩
  · intro t htr htn
    match t, htn with
    | c :: cs, _ =>
      have hc : pyWs c = false := head_not_ws_of_trimBoth htr
      have hdw : ((' ' :: c :: cs).dropWhile pyWs) = c :: cs := by
        rw [List.dropWhile_cons_of_pos (by simp [pyWs])]
        exact dropWhile_eq_self_of_head hc
      have htw : ((' ' :: c :: cs).takeWhile pyWs) = [' '] := by
        rw [List.takeWhile_cons_of_pos (by simp [pyWs])]
        rw [takeWhile_eq_nil_of_head hc]
      have key : bulletFixLineL ('•' :: ' ' :: c :: cs) =
          (match trimBoth ((' ' :: c :: cs).dropWhile pyWs) with
           | [] => '•' :: ' ' :: c :: cs
           | c' :: cs' =>
             ('•' :: (' ' :: c :: cs).takeWhile pyWs) ++
               (if 20 < (ucA c' :: cs').length ∧ endsPunct (ucA c' :: cs') = false then
                  (ucA c' :: cs') ++ ['.']
                else ucA c' :: cs')) := rfl
      rw [key, hdw, htr, htw]
      simp only [capFirstL]
      by_cases h2 : 20 < cs.length + 1 ∧ endsPunct (ucA c :: cs) = false
      · simp [h2]
      · simp [h2]
  · intro s hs
    have hd : s.data ≠ [] := by
      intro hnil
      exact hs (by cases s with | mk l => simp at hnil; simp [hnil])
    have hw : weakSubL s.data ≠ [] := weakSubL_ne_nil hd
    unfold optimizeSummaryLine optimizeSummaryLineL
    match hws : weakSubL s.data with
    | [] => exact absurd hws hw
    | c :: cs =>
      refine ⟨⟨punctuateL (ucA c :: cs)⟩, rfl, ?_⟩
      show endsPunct (punctuateL (ucA c :: cs)) = true
      exact endsPunct_punctuate _
  · intro s r hsome hbul
    unfold optimizeExperienceLine optimizeExperienceLineL at hsome
    rw [if_pos hbul] at hsome
    match hws : weakSubL (stripBulletsL s.data) with
    | [] => rw [hws] at hsome; simp at hsome
    | c :: cs =>
      rw [hws] at hsome
      simp only [Option.map_some'] at hsome
      injection hsome with hsome
      have hrd : r.data = '•' :: ' ' :: punctuateL (ucA c :: cs) := by
        rw [← hsome]
      rw [hrd]
      rw [endsPunct_cons_cons (punctuateL_ne_nil (by simp))]
      exact endsPunct_punctuate _

/-- Witness for C6 (amended) at concrete lines: an over-20-character bullet
text gets a period in the grammar pass, and a short summary line is
punctuated by the summary rewrite. -/
theorem c6_amended_witness :
    bulletFixLineL ('•' :: ' ' :: "delivered the annual report".data) =
      '•' :: ' ' :: (capFirstL "delivered the annual report".data ++
        (if 20 < ("delivered the annual report".data).length ∧
            endsPunct (capFirstL "delivered the annual report".data) = false then ['.']
         else [])) ∧
    (∃ r, optimizeSummaryLine "led x" = some r ∧ endsPunct r.data = true) := by
  constructor
  · exact c6_amended_period_threshold.1 "delivered the annual report".data
      (by decide) (by decide)
  · exact c6_amended_period_threshold.2.1 "led x" (by decide)

/-! ### Occurrence framework for the weak-phrase substitution (C1) -/

/-- Left word-boundary state: the character before the current position (the
last of `a`, or the carried flag `w` when `a` is empty) is not a word
character. -/
def prevOKc (w : Bool) (a : List Char) : Prop :=
  match a.getLast? with
  | none => w = false
  | some c => isW c = false

/-- Boolean left-boundary check for positions inside a concrete string. -/
def prevOKb (a : List Char) : Bool :=
  match a.getLast? with
  | none => true
  | some c => !isW c

/-- A word-boundary-delimited, case-insensitive occurrence of the phrase `q`
in `s`; `w` records whether the character before `s` is a word character. -/
def occF (q : List Char) (w : Bool) (s : List Char) : Prop :=
  ∃ a m b, s = a ++ m ++ b ∧ m.map lcA = q ∧ prevOKc w a ∧ boundR b = true

/-- A right-delimited occurrence of `q2` at the very start of `s` (no
left-boundary requirement). -/
def prefHitP (q2 s : List Char) : Prop :=
  ∃ m b, s = m ++ b ∧ m.map lcA = q2 ∧ boundR b = true

/-- The block structure of one `subScanF` pass: the output interleaves
copied characters (where the pattern did not fire) and replacement blocks. -/
inductive Scan (p r : List Char) : Bool → List Char → List Char → Prop where
  | nil (w : Bool) : Scan p r w [] []
  | copy {w : Bool} {c : Char} {cs out : List Char}
      (hnf : ∀ rest, matchCI p (c :: cs) = some rest →
        ¬(w = false ∧ boundR rest = true ∧ p ≠ []))
      (hsc : Scan p r (isW c) cs out) : Scan p r w (c :: cs) (c :: out)
  | repl {w : Bool} {s rest out : List Char}
      (hm : matchCI p s = some rest) (hw : w = false) (hb : boundR rest = true)
      (hp : p ≠ []) (hsc : Scan p r true rest out) : Scan p r w s (r ++ out)

theorem scan_spec (p r : List Char) : ∀ (fuel : Nat) (w : Bool) (s : List Char),
    s.length ≤ fuel → Scan p r w s (subScanF p r fuel w s) := by
  intro fuel
  induction fuel with
  | zero =>
    intro w s h
    have hs : s = [] := List.eq_nil_of_length_eq_zero (Nat.le_zero.mp h)
    subst hs
    exact Scan.nil w
  | succ n ih =>
    intro w s h
    match s with
    | [] => exact Scan.nil w
    | c :: cs =>
      have hlen : cs.length ≤ n := by
        have h2 : cs.length + 1 ≤ n + 1 := by simpa using h
        omega
      rw [subScanF]
      cases hm : matchCI p (c :: cs) with
      | none =>
        exact Scan.copy (fun rest hr => by rw [hm] at hr; cases hr)
          (ih (isW c) cs hlen)
      | some rest =>
        show Scan p r w (c :: cs)
          (if w = false ∧ boundR rest = true ∧ p ≠ [] then
            r ++ subScanF p r n true rest
          else c :: subScanF p r n (isW c) cs)
        by_cases hc : w = false ∧ boundR rest = true ∧ p ≠ []
        · rw [if_pos hc]
          have hrest := (matchCI_some hm).1
          have hplen : 1 ≤ p.length := by
            cases hp : p with
            | nil => exact absurd hp hc.2.2
            | cons x xs => simp
          have hrl : rest.length ≤ n := by
            rw [hrest, List.length_drop]
            simp only [List.length_cons]
            omega
          exact Scan.repl hm hc.1 hc.2.1 hc.2.2 (ih true rest hrl)
        · rw [if_neg hc]
          refine Scan.copy (fun rest2 hr2 => ?_) (ih (isW c) cs hlen)
          rw [hm] at hr2
          injection hr2 with he
          subst he
          exact hc

theorem toNat_lcA_upper {c : Char} (h : isUpperA c = true) :
    (lcA c).toNat = c.toNat + 32 := by
  have hn := (isUpperA_iff c).mp h
  unfold lcA
  rw [if_pos (by rw [isUpperA_iff]; exact hn)]
  exact toNat_ofNat_of_lt (by omega)

theorem isW_lcA (c : Char) : isW (lcA c) = isW c := by
  by_cases h : isUpperA c = true
  · have hn := (isUpperA_iff c).mp h
    have ht := toNat_lcA_upper h
    have h1 : isW (lcA c) = true := by
      have hl : isLowerA (lcA c) = true := by rw [isLowerA_iff, ht]; omega
      simp [isW, hl]
    have h2 : isW c = true := by simp [isW, h]
    rw [h1, h2]
  · unfold lcA
    rw [if_neg h]

theorem occF_lift {q : List Char} {w : Bool} {c : Char} {cs : List Char}
    (h : occF q (isW c) cs) : occF q w (c :: cs) := by
  obtain ⟨a, m, b, hs, hmq, hprev, hbnd⟩ := h
  refine ⟨c :: a, m, b, by rw [hs]; rfl, hmq, ?_, hbnd⟩
  cases a with
  | nil =>
    have h2 : isW c = false := hprev
    show prevOKc w [c]
    unfold prevOKc
    simp [h2]
  | cons x a2 =>
    unfold prevOKc at hprev ⊢
    rw [List.getLast?_cons_cons]
    exact hprev

theorem occF_head {p : List Char} {w : Bool} {s rest : List Char}
    (hm : matchCI p s = some rest) (hw : w = false) (hb : boundR rest = true) :
    occF p w s := by
  obtain ⟨hrest, hle, htake⟩ := matchCI_some hm
  refine ⟨[], s.take p.length, rest, ?_, htake, hw, hb⟩
  rw [hrest]
  simp

theorem subScanF_id {p r : List Char} : ∀ (fuel : Nat) (w : Bool) (s : List Char),
    ¬ occF p w s → subScanF p r fuel w s = s := by
  intro fuel
  induction fuel with
  | zero => intro w s _; rfl
  | succ n ih =>
    intro w s hno
    match s with
    | [] => rfl
    | c :: cs =>
      rw [subScanF]
      cases hm : matchCI p (c :: cs) with
      | none =>
        show c :: subScanF p r n (isW c) cs = c :: cs
        rw [ih (isW c) cs (fun h => hno (occF_lift h))]
      | some rest =>
        show (if w = false ∧ boundR rest = true ∧ p ≠ [] then
            r ++ subScanF p r n true rest
          else c :: subScanF p r n (isW c) cs) = c :: cs
        rw [if_neg (fun hc => hno (occF_head hm hc.1 hc.2.1))]
        rw [ih (isW c) cs (fun h => hno (occF_lift h))]

/-- Head-is-word-character test. -/
def headIsW : List Char → Bool
  | c :: _ => isW c
  | [] => false

/-- Last-is-word-character test. -/
def lastWb (l : List Char) : Bool :=
  match l.getLast? with
  | some c => isW c
  | none => false

/-- Bad prefix-seam configurations: a right-delimited image of `q2` at the
start of a scan output could begin inside a replacement block. -/
def badPrefAt (q2 r : List Char) : Prop :=
  (∃ i ∈ List.range (r.length + 1), 0 < i ∧ i < r.length ∧
    (r.take i).map lcA = q2 ∧ boundR (r.drop i) = true) ∨
  r.map lcA = q2 ∨
  (r.length < q2.length ∧ q2.take r.length = r.map lcA)

/-- All seam configurations under which substituting `r` could carry or
create a boundary-delimited occurrence of the phrase `q` that does not map
back to an occurrence in the input. -/
def seamBad (q r : List Char) : Prop :=
  (∃ i ∈ List.range (r.length + 1), ∃ j ∈ List.range (r.length + 1),
    ((r.drop i).take j).map lcA = q ∧ prevOKb (r.take i) = true ∧
    i + j < r.length ∧ boundR (r.drop (i + j)) = true) ∨
  (∃ i ∈ List.range (r.length + 1),
    (r.drop i).map lcA = q ∧ prevOKb (r.take i) = true) ∨
  (∃ k ∈ List.range (q.length + 1), 0 < k ∧ k < q.length ∧
    ∃ i ∈ List.range r.length,
      (r.drop i).map lcA = q.take k ∧ prevOKb (r.take i) = true) ∨
  (∃ k ∈ List.range (q.length + 1), badPrefAt (q.drop k) r)

instance (q2 r : List Char) : Decidable (badPrefAt q2 r) := by
  unfold badPrefAt
  exact inferInstance

instance (q r : List Char) : Decidable (seamBad q r) := by
  unfold seamBad
  exact inferInstance

theorem scan_head_bound {p r : List Char} (hrH : headIsW r = true)
    (hpH : headIsW p = true) :
    ∀ {w : Bool} {s out : List Char}, Scan p r w s out → boundR out = boundR s := by
  intro w s out hsc
  cases hsc with
  | nil => rfl
  | copy hnf hsc2 => rfl
  | repl hm hw hb hp hsc2 =>
    rename_i rest out2
    obtain ⟨hrest, hle, htake⟩ := matchCI_some hm
    match p, hpH with
    | pc :: pr2, hpH =>
      match s, hle with
      | sc :: ss, _ =>
        have htk : ((sc :: ss).take (pc :: pr2).length).map lcA = pc :: pr2 := htake
        rw [List.length_cons, List.take_succ_cons, List.map_cons] at htk
        injection htk with hc1 _
        have hscW : isW sc = true := by
          rw [← isW_lcA, hc1]
          exact hpH
        match r, hrH with
        | rc :: rr, hrH =>
          show boundR (rc :: (rr ++ out2)) = boundR (sc :: ss)
          show (!isW rc) = (!isW sc)
          have hrc : isW rc = true := hrH
          rw [hrc, hscW]

theorem prefT {p r q : List Char} (hrH : headIsW r = true) (hpH : headIsW p = true) :
    ∀ {w : Bool} {s out : List Char}, Scan p r w s out → ∀ k, prefHitP (q.drop k) out →
      prefHitP (q.drop k) s ∨ seamBad q r := by
  intro w s out hsc
  induction hsc with
  | nil w => intro k h; left; exact h
  | copy hnf hsc2 ih =>
    rename_i w c cs out2
    intro k h
    obtain ⟨m, b, hout, hmq, hbnd⟩ := h
    cases m with
    | nil =>
      left
      simp only [List.nil_append] at hout
      refine ⟨[], c :: cs, rfl, hmq, ?_⟩
      rw [← hout] at hbnd
      exact hbnd
    | cons c2 m2 =>
      injection hout with h1 h2
      subst h1
      have hdk : q.drop k = lcA c :: m2.map lcA := by
        rw [← hmq, List.map_cons]
      have hq1 : m2.map lcA = q.drop (k + 1) := by
        have h3 : (q.drop k).drop 1 = m2.map lcA := by
          rw [hdk]
          rfl
        rw [List.drop_drop] at h3
        exact h3.symm
      rcases ih (k + 1) ⟨m2, b, h2, hq1, hbnd⟩ with hL | hBad
      · left
        obtain ⟨m2i, b2, hcs, himg, hb2⟩ := hL
        refine ⟨c :: m2i, b2, by rw [hcs]; rfl, ?_, hb2⟩
        rw [List.map_cons, himg, hdk, hq1]
      · right; exact hBad
  | repl hm hw hb hp hsc2 ih =>
    rename_i rest out2
    intro k h
    obtain ⟨m, b, hout, hmq, hbnd⟩ := h
    rcases List.append_eq_append_iff.mp hout.symm with ⟨t, hr_eq, hb_eq⟩ | ⟨m2, hm_eq, hout2_eq⟩
    · -- r = m ++ t, b = t ++ out2
      cases t with
      | nil =>
        right
        rw [List.append_nil] at hr_eq
        rw [← hr_eq] at hmq
        have hk : q.drop k ≠ [] := by
          rw [← hmq]
          match r, hrH with
          | rc :: rr, _ => simp
        have hklt : k < q.length := by
          by_contra hge
          exact hk (List.drop_eq_nil_of_le (by omega))
        refine Or.inr (Or.inr (Or.inr ⟨k, List.mem_range.mpr (by omega), ?_⟩))
        exact Or.inr (Or.inl hmq)
      | cons t0 ts =>
        cases m with
        | nil =>
          exfalso
          rw [hb_eq] at hbnd
          have hbt : boundR ((t0 :: ts) ++ out2) = (!isW t0) := rfl
          rw [hbt] at hbnd
          have ht0 : isW t0 = true := by
            have hhr : headIsW r = isW t0 := by rw [hr_eq]; rfl
            rw [hhr] at hrH
            exact hrH
          rw [ht0] at hbnd
          simp at hbnd
        | cons m0 ms =>
          right
          have hk : q.drop k ≠ [] := by
            rw [← hmq]
            simp
          have hklt : k < q.length := by
            by_contra hge
            exact hk (List.drop_eq_nil_of_le (by omega))
          refine Or.inr (Or.inr (Or.inr ⟨k, List.mem_range.mpr (by omega), ?_⟩))
          refine Or.inl ⟨(m0 :: ms).length, List.mem_range.mpr ?_, by simp, ?_, ?_, ?_⟩
          · rw [hr_eq]
            simp
            omega
          · rw [hr_eq]
            simp
          · rw [hr_eq, List.take_append_eq_append_take]
            simp
            exact hmq
          · rw [hr_eq, List.drop_append_eq_append_drop]
            simp
            rw [hb_eq] at hbnd
            exact hbnd
    · -- m = r ++ m2, out2 = m2 ++ b
      cases m2 with
      | nil =>
        right
        rw [List.append_nil] at hm_eq
        rw [hm_eq] at hmq
        have hk : q.drop k ≠ [] := by
          rw [← hmq]
          match r, hrH with
          | rc :: rr, _ => simp
        have hklt : k < q.length := by
          by_contra hge
          exact hk (List.drop_eq_nil_of_le (by omega))
        refine Or.inr (Or.inr (Or.inr ⟨k, List.mem_range.mpr (by omega), ?_⟩))
        exact Or.inr (Or.inl hmq)
      | cons m20 m2s =>
        right
        have hlen : q.drop k = (r ++ m20 :: m2s).map lcA := by rw [← hmq, hm_eq]
        have hk : q.drop k ≠ [] := by
          rw [hlen]
          match r, hrH with
          | rc :: rr, _ => simp
        have hklt : k < q.length := by
          by_contra hge
          exact hk (List.drop_eq_nil_of_le (by omega))
        refine Or.inr (Or.inr (Or.inr ⟨k, List.mem_range.mpr (by omega), ?_⟩))
        refine Or.inr (Or.inr ⟨?_, ?_⟩)
        · rw [hlen, List.map_append, List.length_append, List.length_map, List.length_map]
          simp
        · rw [hlen, List.map_append, List.take_append_eq_append_take]
          rw [List.length_map]
          simp

theorem prevOKc_false_iff (a : List Char) : prevOKc false a ↔ prevOKb a = true := by
  unfold prevOKc prevOKb
  cases hg : a.getLast? with
  | none => simp
  | some g => cases hi : isW g <;> simp [hi]

theorem prevOKc_append_cons (u v : Bool) (A : List Char) (x : Char) (B : List Char) :
    prevOKc u (A ++ x :: B) ↔ prevOKc v (x :: B) := by
  unfold prevOKc
  rw [List.getLast?_append_cons]
  cases hg : (x :: B).getLast? with
  | none => simp at hg
  | some g => exact Iff.rfl

theorem prevOKc_r_absurd {w : Bool} {r : List Char} (hrH : headIsW r = true)
    (hrL : lastWb r = true) (h : prevOKc w r) : False := by
  unfold prevOKc at h
  unfold lastWb at hrL
  cases hg : r.getLast? with
  | none =>
    rw [hg] at hrL
    simp at hrL
  | some g =>
    rw [hg] at h hrL
    have h2 : isW g = false := h
    have h3 : isW g = true := hrL
    rw [h2] at h3
    simp at h3

theorem mainT {p r q : List Char} (hrH : headIsW r = true) (hpH : headIsW p = true)
    (hrL : lastWb r = true) (hq : q ≠ []) :
    ∀ {w : Bool} {s out : List Char}, Scan p r w s out → occF q w out →
      occF q w s ∨ seamBad q r := by
  intro w s out hsc
  induction hsc with
  | nil w => intro h; left; exact h
  | copy hnf hsc2 ih =>
    rename_i w c cs out2
    intro h
    obtain ⟨a, m, b, hout, hmq, hprev, hbnd⟩ := h
    cases a with
    | nil =>
      have hw : w = false := hprev
      cases m with
      | nil =>
        exact absurd hmq.symm hq
      | cons c2 m2 =>
        simp only [List.nil_append] at hout
        injection hout with h1 h2
        subst h1
        have hdk : q = lcA c :: m2.map lcA := by rw [← hmq, List.map_cons]
        have hq1 : m2.map lcA = q.drop 1 := by rw [hdk]; rfl
        rcases prefT hrH hpH hsc2 1 ⟨m2, b, h2, hq1, hbnd⟩ with hL | hBad
        · left
          obtain ⟨mi, bi, hcs, himg, hbi⟩ := hL
          refine ⟨[], c :: mi, bi, by rw [hcs]; rfl, ?_, hw, hbi⟩
          rw [List.map_cons, himg, hdk]
          rfl
        · right; exact hBad
    | cons c2 a2 =>
      have hout2 : c :: out2 = c2 :: (a2 ++ m ++ b) := by rw [hout]; rfl
      injection hout2 with h1 h2
      subst h1
      have hprev2 : prevOKc (isW c) a2 := by
        cases a2 with
        | nil =>
          have h3 : isW c = false := hprev
          exact h3
        | cons x a3 =>
          unfold prevOKc at hprev ⊢
          rw [List.getLast?_cons_cons] at hprev
          exact hprev
      rcases ih ⟨a2, m, b, h2, hmq, hprev2, hbnd⟩ with hL | hBad
      · left; exact occF_lift hL
      · right; exact hBad
  | repl hm hw hb hp hsc2 ih =>
    rename_i w2 s2 rest out2
    intro h
    obtain ⟨a, m, b, hout, hmq, hprev, hbnd⟩ := h
    have hm_ne : m ≠ [] := by
      intro h0
      rw [h0] at hmq
      exact hq hmq.symm
    have hout2 : a ++ (m ++ b) = r ++ out2 := by
      rw [← List.append_assoc]
      exact hout.symm
    rcases List.append_eq_append_iff.mp hout2 with ⟨t, hr_eq, hmb_eq⟩ | ⟨a2, ha_eq, hout3⟩
    · -- r = a ++ t, m ++ b = t ++ out2
      cases t with
      | nil =>
        exfalso
        rw [List.append_nil] at hr_eq
        rw [← hr_eq] at hprev
        exact prevOKc_r_absurd hrH hrL hprev
      | cons t0 ts =>
        right
        have hprevb : prevOKb a = true := by
          rw [hw] at hprev
          exact (prevOKc_false_iff a).mp hprev
        rcases List.append_eq_append_iff.mp hmb_eq with ⟨u, ht_eq, hb_eq⟩ | ⟨u, hm_eq, hout4⟩
        · -- t0 :: ts = m ++ u, b = u ++ out2
          cases u with
          | nil =>
            -- m = t0 :: ts : suffix-aligned (c2)
            rw [List.append_nil] at ht_eq
            refine Or.inr (Or.inl ⟨a.length, List.mem_range.mpr ?_, ?_, ?_⟩)
            · rw [hr_eq]
              simp
              omega
            · rw [hr_eq, List.drop_left, ht_eq]
              exact hmq
            · rw [hr_eq, List.take_left]
              exact hprevb
          | cons u0 us =>
            -- strictly inside r (c1)
            refine Or.inl ⟨a.length, List.mem_range.mpr ?_, m.length,
              List.mem_range.mpr ?_, ?_, ?_, ?_, ?_⟩
            · rw [hr_eq]; simp; omega
            · rw [hr_eq, ht_eq]; simp; omega
            · rw [hr_eq, List.drop_left, ht_eq, List.take_left]
              exact hmq
            · rw [hr_eq, List.take_left]
              exact hprevb
            · rw [hr_eq, ht_eq]
              simp
            · have hdrop : r.drop (a.length + m.length) = u0 :: us := by
                rw [hr_eq, ht_eq, ← List.append_assoc, ← List.length_append,
                  List.drop_left]
              rw [hdrop]
              rw [hb_eq] at hbnd
              exact hbnd
        · -- m = (t0 :: ts) ++ u, out2 = u ++ b
          cases u with
          | nil =>
            -- m = t0 :: ts again (c2)
            rw [List.append_nil] at hm_eq
            refine Or.inr (Or.inl ⟨a.length, List.mem_range.mpr ?_, ?_, ?_⟩)
            · rw [hr_eq]
              simp
              omega
            · rw [hr_eq, List.drop_left, ← hm_eq]
              exact hmq
            · rw [hr_eq, List.take_left]
              exact hprevb
          | cons u0 us =>
            -- q spans the end of r into the continuation (c3)
            refine Or.inr (Or.inr (Or.inl ⟨(t0 :: ts).length, List.mem_range.mpr ?_,
              by simp, ?_, a.length, List.mem_range.mpr ?_, ?_, ?_⟩))
            · have hql : q.length = m.length := by rw [← hmq]; simp
              rw [hql, hm_eq]
              simp
              omega
            · have hql : q.length = m.length := by rw [← hmq]; simp
              rw [hql, hm_eq]
              simp
            · rw [hr_eq]
              simp
            · rw [hr_eq, List.drop_left, ← hmq, hm_eq, List.map_append,
                List.take_append_eq_append_take]
              simp
            · rw [hr_eq, List.take_left]
              exact hprevb
    · -- a = r ++ a2, out2 = a2 ++ (m ++ b)
      cases a2 with
      | nil =>
        exfalso
        rw [List.append_nil] at ha_eq
        rw [ha_eq] at hprev
        exact prevOKc_r_absurd hrH hrL hprev
      | cons x a2s =>
        have hprev3 : prevOKc true (x :: a2s) := by
          rw [ha_eq] at hprev
          exact (prevOKc_append_cons _ true _ _ _).mp hprev
        have hout4 : out2 = (x :: a2s) ++ m ++ b := by
          rw [hout3, List.append_assoc]
        rcases ih ⟨x :: a2s, m, b, hout4, hmq, hprev3, hbnd⟩ with hL | hBad
        · left
          obtain ⟨hrest, hle, htake⟩ := matchCI_some hm
          obtain ⟨ai, mi, bi, hres, himg, hpi, hbi⟩ := hL
          have hai_ne : ai ≠ [] := by
            intro h0
            rw [h0] at hpi
            have : (true : Bool) = false := hpi
            simp at this
          match ai, hai_ne with
          | ai0 :: ais, _ =>
            refine ⟨s2.take p.length ++ (ai0 :: ais), mi, bi, ?_, himg, ?_, hbi⟩
            · calc s2 = s2.take p.length ++ s2.drop p.length :=
                    (List.take_append_drop _ s2).symm
                _ = s2.take p.length ++ ((ai0 :: ais) ++ mi ++ bi) := by
                    rw [← hrest, hres]
                _ = s2.take p.length ++ (ai0 :: ais) ++ mi ++ bi := by
                    simp [List.append_assoc]
            · exact (prevOKc_append_cons _ true _ _ _).mpr hpi
        · right; exact hBad

theorem selfFree {p r : List Char} (hrH : headIsW r = true) (hpH : headIsW p = true)
    (hrL : lastWb r = true) (hbad : ¬ seamBad p r) :
    ∀ {w : Bool} {s out : List Char}, Scan p r w s out → ¬ occF p w out := by
  intro w s out hsc
  induction hsc with
  | nil w =>
    intro h
    obtain ⟨a, m, b, hout, hmq, hprev, hbnd⟩ := h
    have hm0 : a = [] ∧ m = [] ∧ b = [] := by
      have h2 := hout.symm
      simpa using h2
    rw [hm0.2.1] at hmq
    rw [← hmq] at hpH
    simp [headIsW] at hpH
  | copy hnf hsc2 ih =>
    rename_i w c cs out2
    intro h
    obtain ⟨a, m, b, hout, hmq, hprev, hbnd⟩ := h
    cases a with
    | nil =>
      have hw : w = false := hprev
      cases m with
      | nil =>
        rw [← hmq] at hpH
        simp [headIsW] at hpH
      | cons c2 m2 =>
        simp only [List.nil_append] at hout
        injection hout with h1 h2
        subst h1
        have hdk : p = lcA c :: m2.map lcA := by rw [← hmq, List.map_cons]
        have hq1 : m2.map lcA = p.drop 1 := by rw [hdk]; rfl
        rcases prefT hrH hpH hsc2 1 ⟨m2, b, h2, hq1, hbnd⟩ with hL | hBad
        · obtain ⟨mi, bi, hcs, himg, hbi⟩ := hL
          have hfull : (c :: mi).map lcA = p := by
            rw [List.map_cons, himg, hdk]
            rfl
          have hmc : matchCI p (c :: cs) = some bi := by
            have hsp : c :: cs = (c :: mi) ++ bi := by rw [hcs]; rfl
            rw [hsp]
            exact matchCI_of_split hfull
          refine hnf bi hmc ⟨hw, hbi, ?_⟩
          intro hp0
          rw [hp0] at hpH
          simp [headIsW] at hpH
        · exact hbad hBad
    | cons c2 a2 =>
      have hout2 : c :: out2 = c2 :: (a2 ++ m ++ b) := by rw [hout]; rfl
      injection hout2 with h1 h2
      subst h1
      have hprev2 : prevOKc (isW c) a2 := by
        cases a2 with
        | nil =>
          have h3 : isW c = false := hprev
          exact h3
        | cons x a3 =>
          unfold prevOKc at hprev ⊢
          rw [List.getLast?_cons_cons] at hprev
          exact hprev
      exact ih ⟨a2, m, b, h2, hmq, hprev2, hbnd⟩
  | repl hm hw hb hp hsc2 ih =>
    rename_i w2 s2 rest out2
    intro h
    obtain ⟨a, m, b, hout, hmq, hprev, hbnd⟩ := h
    have hm_ne : m ≠ [] := by
      intro h0
      rw [h0] at hmq
      rw [← hmq] at hpH
      simp [headIsW] at hpH
    have hout2 : a ++ (m ++ b) = r ++ out2 := by
      rw [← List.append_assoc]
      exact hout.symm
    rcases List.append_eq_append_iff.mp hout2 with ⟨t, hr_eq, hmb_eq⟩ | ⟨a2, ha_eq, hout3⟩
    · cases t with
      | nil =>
        rw [List.append_nil] at hr_eq
        rw [← hr_eq] at hprev
        exact prevOKc_r_absurd hrH hrL hprev
      | cons t0 ts =>
        have hprevb : prevOKb a = true := by
          rw [hw] at hprev
          exact (prevOKc_false_iff a).mp hprev
        refine hbad ?_
        rcases List.append_eq_append_iff.mp hmb_eq with ⟨u, ht_eq, hb_eq⟩ | ⟨u, hm_eq, hout4⟩
        · cases u with
          | nil =>
            rw [List.append_nil] at ht_eq
            refine Or.inr (Or.inl ⟨a.length, List.mem_range.mpr ?_, ?_, ?_⟩)
            · rw [hr_eq]
              simp
              omega
            · rw [hr_eq, List.drop_left, ht_eq]
              exact hmq
            · rw [hr_eq, List.take_left]
              exact hprevb
          | cons u0 us =>
            refine Or.inl ⟨a.length, List.mem_range.mpr ?_, m.length,
              List.mem_range.mpr ?_, ?_, ?_, ?_, ?_⟩
            · rw [hr_eq]; simp; omega
            · rw [hr_eq, ht_eq]; simp; omega
            · rw [hr_eq, List.drop_left, ht_eq, List.take_left]
              exact hmq
            · rw [hr_eq, List.take_left]
              exact hprevb
            · rw [hr_eq, ht_eq]
              simp
            · have hdrop : r.drop (a.length + m.length) = u0 :: us := by
                rw [hr_eq, ht_eq, ← List.append_assoc, ← List.length_append,
                  List.drop_left]
              rw [hdrop]
              rw [hb_eq] at hbnd
              exact hbnd
        · cases u with
          | nil =>
            rw [List.append_nil] at hm_eq
            refine Or.inr (Or.inl ⟨a.length, List.mem_range.mpr ?_, ?_, ?_⟩)
            · rw [hr_eq]
              simp
              omega
            · rw [hr_eq, List.drop_left, ← hm_eq]
              exact hmq
            · rw [hr_eq, List.take_left]
              exact hprevb
          | cons u0 us =>
            refine Or.inr (Or.inr (Or.inl ⟨(t0 :: ts).length, List.mem_range.mpr ?_,
              by simp, ?_, a.length, List.mem_range.mpr ?_, ?_, ?_⟩))
            · have hql : p.length = m.length := by rw [← hmq]; simp
              rw [hql, hm_eq]
              simp
              omega
            · have hql : p.length = m.length := by rw [← hmq]; simp
              rw [hql, hm_eq]
              simp
            · rw [hr_eq]
              simp
            · rw [hr_eq, List.drop_left, ← hmq, hm_eq, List.map_append,
                List.take_append_eq_append_take]
              simp
            · rw [hr_eq, List.take_left]
              exact hprevb
    · cases a2 with
      | nil =>
        rw [List.append_nil] at ha_eq
        rw [ha_eq] at hprev
        exact prevOKc_r_absurd hrH hrL hprev
      | cons x a2s =>
        have hprev3 : prevOKc true (x :: a2s) := by
          rw [ha_eq] at hprev
          exact (prevOKc_append_cons _ true _ _ _).mp hprev
        have hout4 : out2 = (x :: a2s) ++ m ++ b := by
          rw [hout3, List.append_assoc]
        exact ih ⟨x :: a2s, m, b, hout4, hmq, hprev3, hbnd⟩

/-- Head-character-not-whitespace test. -/
def headNoWs : List Char → Bool
  | c :: _ => !pyWs c
  | [] => true

/-- The per-rule well-formedness facts used by the idempotence proof. -/
def ruleOK (pr : List Char × List Char) : Prop :=
  headIsW pr.2 = true ∧ headIsW pr.1 = true ∧ lastWb pr.2 = true ∧
  pr.1 ≠ [] ∧ ('.' ∉ pr.1) ∧ headNoWs pr.2 = true

instance (pr : List Char × List Char) : Decidable (ruleOK pr) := by
  unfold ruleOK; infer_instance

theorem allRulesOK : ∀ pr ∈ weakRules, ruleOK pr := by decide

theorem noSeamBad : ∀ pr ∈ weakRules, ∀ pr2 ∈ weakRules, ¬ seamBad pr.1 pr2.2 := by
  decide

/-! ### Composition: freeness through the weak-phrase foldl -/

theorem subScan_free_self {p r : List Char} (hrH : headIsW r = true)
    (hpH : headIsW p = true) (hrL : lastWb r = true) (hbad : ¬ seamBad p r)
    (s : List Char) : ¬ occF p false (subScan p r false s) :=
  selfFree hrH hpH hrL hbad (scan_spec p r s.length false s (le_refl _))

theorem subScan_pres {p r q : List Char} (hrH : headIsW r = true)
    (hpH : headIsW p = true) (hrL : lastWb r = true) (hq : q ≠ [])
    (hbad : ¬ seamBad q r) {s : List Char} (hfree : ¬ occF q false s) :
    ¬ occF q false (subScan p r false s) := by
  intro h
  rcases mainT hrH hpH hrL hq (scan_spec p r s.length false s (le_refl _)) h with hL | hB
  · exact hfree hL
  · exact hbad hB

theorem foldl_pres {q : List Char} (hq : q ≠ []) :
    ∀ (rs : List (List Char × List Char)), (∀ pr ∈ rs, ruleOK pr) →
    (∀ pr ∈ rs, ¬ seamBad q pr.2) → ∀ (s : List Char),
    ¬ occF q false s → ¬ occF q false (rs.foldl applyRule s) := by
  intro rs
  induction rs with
  | nil => intro _ _ s h; exact h
  | cons pr rest ih =>
    intro hok hbad s h
    show ¬ occF q false (rest.foldl applyRule (applyRule s pr))
    refine ih (fun x hx => hok x (List.mem_cons_of_mem _ hx))
      (fun x hx => hbad x (List.mem_cons_of_mem _ hx)) _ ?_
    have hokp := hok pr (List.mem_cons_self _ _)
    exact subScan_pres hokp.1 hokp.2.1 hokp.2.2.1 hq (hbad pr (List.mem_cons_self _ _)) h

theorem foldl_self_free :
    ∀ (rs : List (List Char × List Char)), (∀ pr ∈ rs, ruleOK pr) →
    (∀ pr ∈ rs, ∀ pr2 ∈ rs, ¬ seamBad pr.1 pr2.2) →
    ∀ (s : List Char) (pr0 : List Char × List Char), pr0 ∈ rs →
    ¬ occF pr0.1 false (rs.foldl applyRule s) := by
  intro rs
  induction rs with
  | nil => intro _ _ s pr0 h; cases h
  | cons pr rest ih =>
    intro hok hbad s pr0 hmem
    show ¬ occF pr0.1 false (rest.foldl applyRule (applyRule s pr))
    rcases List.mem_cons.mp hmem with heq | hmem2
    · rw [heq]
      have hokp := hok pr (List.mem_cons_self _ _)
      have hfree0 : ¬ occF pr.1 false (applyRule s pr) :=
        subScan_free_self hokp.1 hokp.2.1 hokp.2.2.1
          (hbad pr (List.mem_cons_self _ _) pr (List.mem_cons_self _ _)) s
      exact foldl_pres hokp.2.2.2.1 rest
        (fun x hx => hok x (List.mem_cons_of_mem _ hx))
        (fun x hx => hbad pr (List.mem_cons_self _ _) x (List.mem_cons_of_mem _ hx))
        _ hfree0
    · exact ih (fun x hx => hok x (List.mem_cons_of_mem _ hx))
        (fun x hx y hy => hbad x (List.mem_cons_of_mem _ hx) y (List.mem_cons_of_mem _ hy))
        _ pr0 hmem2

theorem foldl_id :
    ∀ (rs : List (List Char × List Char)) (s : List Char),
    (∀ pr ∈ rs, ¬ occF pr.1 false s) → rs.foldl applyRule s = s := by
  intro rs
  induction rs with
  | nil => intro s _; rfl
  | cons pr rest ih =>
    intro s hfree
    show rest.foldl applyRule (subScan pr.1 pr.2 false s) = s
    have h1 : subScan pr.1 pr.2 false s = s :=
      subScanF_id s.length false s (hfree pr (List.mem_cons_self _ _))
    rw [h1]
    exact ih s (fun x hx => hfree x (List.mem_cons_of_mem _ hx))

theorem weakSubL_free (s : List Char) :
    ∀ pr ∈ weakRules, ¬ occF pr.1 false (weakSubL s) := by
  intro pr hmem
  exact foldl_self_free weakRules allRulesOK noSeamBad s pr hmem

theorem weakSubL_id {s : List Char}
    (hfree : ∀ pr ∈ weakRules, ¬ occF pr.1 false s) : weakSubL s = s :=
  foldl_id weakRules s hfree

/-! ### Freeness is preserved backwards by capitalization and punctuation -/

theorem occF_capFirst {q : List Char} {w : Bool} {c : Char} {cs : List Char}
    (h : occF q w (ucA c :: cs)) : occF q w (c :: cs) := by
  obtain ⟨a, m, b, hs, hmq, hprev, hbnd⟩ := h
  cases a with
  | nil =>
    cases m with
    | nil =>
      rw [List.nil_append, List.nil_append] at hs
      refine ⟨[], [], c :: cs, by simp, hmq, hprev, ?_⟩
      rw [← hs] at hbnd
      show (!(isW c)) = true
      rw [← isW_ucA]
      exact hbnd
    | cons m0 m1 =>
      rw [List.nil_append] at hs
      injection hs with h1 h2
      refine ⟨[], c :: m1, b, by rw [h2]; rfl, ?_, hprev, hbnd⟩
      rw [← hmq, ← h1]
      show lcA c :: m1.map lcA = lcA (ucA c) :: m1.map lcA
      rw [lcA_ucA]
  | cons a0 a1 =>
    injection hs with h1 h2
    refine ⟨c :: a1, m, b, by rw [h2]; rfl, hmq, ?_, hbnd⟩
    rw [← h1] at hprev
    cases a1 with
    | nil =>
      have h3 : isW (ucA c) = false := hprev
      show isW c = false
      rw [← isW_ucA]
      exact h3
    | cons d ds =>
      have h4 := (prevOKc_append_cons w w [ucA c] d ds).mp hprev
      exact (prevOKc_append_cons w w [c] d ds).mpr h4

theorem occF_dropDot {q : List Char} {w : Bool} {s : List Char} (hq : q ≠ [])
    (hdot : '.' ∉ q) (h : occF q w (s ++ ['.'])) : occF q w s := by
  obtain ⟨a, m, b, hs, hmq, hprev, hbnd⟩ := h
  have hs2 : s ++ ['.'] = (a ++ m) ++ b := hs
  rcases List.append_eq_append_iff.mp hs2 with ⟨a', ha1, ha2⟩ | ⟨c', hc1, hc2⟩
  · cases a' with
    | nil =>
      have has : a ++ m = s := by simpa using ha1
      refine ⟨a, m, [], ?_, hmq, hprev, rfl⟩
      rw [List.append_nil]
      exact has.symm
    | cons x xs =>
      injection ha2 with h1 h2
      rcases List.append_eq_nil.mp h2.symm with ⟨hxs, hb⟩
      rw [hxs] at ha1
      have hm : m ≠ [] := by
        intro hm0
        rw [hm0] at hmq
        exact hq hmq.symm
      cases m with
      | nil => exact absurd rfl hm
      | cons m0 m1 =>
        exfalso
        have h3 : (a ++ m0 :: m1).getLast? = (s ++ [x]).getLast? := by rw [ha1]
        rw [List.getLast?_append_cons, List.getLast?_concat] at h3
        have h4 : (m0 :: m1).getLast (by simp) ∈ m0 :: m1 := List.getLast_mem _
        rw [List.getLast?_eq_getLast _ (by simp)] at h3
        injection h3 with h5
        rw [h5, ← h1] at h4
        have h6 : lcA '.' ∈ q := by
          rw [← hmq]
          exact List.mem_map_of_mem lcA h4
        exact hdot h6
  · refine ⟨a, m, c', hc1, hmq, hprev, ?_⟩
    cases c' with
    | nil => rfl
    | cons x xs =>
      rw [hc2] at hbnd
      exact hbnd

theorem occF_punctuate {q : List Char} (hq : q ≠ []) (hdot : '.' ∉ q)
    {u : List Char} (h : occF q false (punctuateL u)) : occF q false u := by
  unfold punctuateL at h
  by_cases he : endsPunct u = true
  · rw [if_pos he] at h
    exact h
  · rw [if_neg he] at h
    exact occF_dropDot hq hdot h

/-! ### Whitespace-head and trimming facts -/

theorem pyWs_iff_toNat (c : Char) : pyWs c = true ↔
    (c.toNat = 32 ∨ c.toNat = 9 ∨ c.toNat = 10 ∨ c.toNat = 13 ∨
     c.toNat = 11 ∨ c.toNat = 12) := by
  have he : ∀ (d : Char), (c = d) = (c.toNat = d.toNat) :=
    fun d => propext ⟨fun h => by rw [h], char_toNat_inj⟩
  unfold pyWs
  simp only [Bool.or_eq_true, decide_eq_true_eq, he]
  simp only [show (' ').toNat = 32 from rfl, show ('\t').toNat = 9 from rfl,
    show ('\n').toNat = 10 from rfl, show ('\r').toNat = 13 from rfl,
    show ('\x0b').toNat = 11 from rfl, show ('\x0c').toNat = 12 from rfl]
  omega

theorem pyWs_ucA (c : Char) : pyWs (ucA c) = pyWs c := by
  by_cases hl : isLowerA c = true
  · have hn := (isLowerA_iff c).mp hl
    have ht := toNat_ucA_lower hl
    have hA : pyWs (ucA c) = false := by
      cases hx : pyWs (ucA c)
      · rfl
      · have h2 := (pyWs_iff_toNat (ucA c)).mp hx
        rw [ht] at h2
        omega
    have hB : pyWs c = false := by
      cases hx : pyWs c
      · rfl
      · have h2 := (pyWs_iff_toNat c).mp hx
        omega
    rw [hA, hB]
  · rw [ucA_of_not_lower hl]

theorem ne_nil_of_headIsW {l : List Char} (h : headIsW l = true) : l ≠ [] := by
  cases l with
  | nil => exact absurd h (by decide)
  | cons c cs => simp

theorem headNoWs_subScanF {p r : List Char} (hr : headNoWs r = true) (hrn : r ≠ []) :
    ∀ (fuel : Nat) (w : Bool) (s : List Char), headNoWs s = true →
      headNoWs (subScanF p r fuel w s) = true := by
  have happ : ∀ X : List Char, headNoWs (r ++ X) = true := by
    intro X
    cases r with
    | nil => exact absurd rfl hrn
    | cons r0 rr =>
      show (!pyWs r0) = true
      exact hr
  intro fuel
  induction fuel with
  | zero => intro w s h; exact h
  | succ n ih =>
    intro w s h
    match s with
    | [] => rfl
    | c :: cs =>
      rw [subScanF]
      cases hm : matchCI p (c :: cs) with
      | none =>
        show headNoWs (c :: subScanF p r n (isW c) cs) = true
        exact h
      | some rest =>
        show headNoWs (if w = false ∧ boundR rest = true ∧ p ≠ [] then
            r ++ subScanF p r n true rest
          else c :: subScanF p r n (isW c) cs) = true
        by_cases hc : w = false ∧ boundR rest = true ∧ p ≠ []
        · rw [if_pos hc]
          exact happ _
        · rw [if_neg hc]
          exact h

theorem headNoWs_foldl :
    ∀ (rs : List (List Char × List Char)), (∀ pr ∈ rs, ruleOK pr) →
    ∀ (s : List Char), headNoWs s = true →
      headNoWs (rs.foldl applyRule s) = true := by
  intro rs
  induction rs with
  | nil => intro _ s h; exact h
  | cons pr rest ih =>
    intro hok s h
    show headNoWs (rest.foldl applyRule (subScan pr.1 pr.2 false s)) = true
    refine ih (fun x hx => hok x (List.mem_cons_of_mem _ hx)) _ ?_
    have hokp := hok pr (List.mem_cons_self _ _)
    exact headNoWs_subScanF hokp.2.2.2.2.2 (ne_nil_of_headIsW hokp.1) s.length false s h

theorem headNoWs_weakSubL {s : List Char} (h : headNoWs s = true) :
    headNoWs (weakSubL s) = true :=
  headNoWs_foldl weakRules allRulesOK s h

theorem trimR_isPfx (y : List Char) : trimR y <+: y :=
  ⟨(y.reverse.takeWhile pyWs).reverse, by
    rw [trimR, ← List.reverse_append, List.takeWhile_append_dropWhile,
      List.reverse_reverse]⟩

theorem headNoWs_trimL (x : List Char) : headNoWs (trimL x) = true := by
  unfold trimL
  induction x with
  | nil => rfl
  | cons c cs ih =>
    by_cases hc : pyWs c = true
    · rw [List.dropWhile_cons_of_pos hc]
      exact ih
    · rw [List.dropWhile_cons_of_neg hc]
      show (!pyWs c) = true
      cases hx : pyWs c
      · rfl
      · exact absurd hx hc

theorem headNoWs_of_isPfx {u y : List Char} (hp : u <+: y) (h : headNoWs y = true) :
    headNoWs u = true := by
  cases u with
  | nil => rfl
  | cons c cs =>
    obtain ⟨t, ht⟩ := hp
    rw [← ht] at h
    exact h

theorem headNoWs_trimBoth (x : List Char) : headNoWs (trimBoth x) = true :=
  headNoWs_of_isPfx (trimR_isPfx (trimL x)) (headNoWs_trimL x)

theorem headNoWs_stripBullets (s : List Char) : headNoWs (stripBulletsL s) = true := by
  cases s with
  | nil => exact headNoWs_trimBoth []
  | cons c cs =>
    by_cases hc : c = '•'
    · rw [hc]
      show headNoWs (trimBoth (cs.dropWhile pyWs)) = true
      exact headNoWs_trimBoth _
    · have key : stripBulletsL (c :: cs) = trimBoth (c :: cs) := by
        unfold stripBulletsL
        split
        · rename_i rest heq
          injection heq with h1 _
          exact absurd h1 hc
        · rfl
      rw [key]
      exact headNoWs_trimBoth _

theorem dropWhile_of_headNoWs {s : List Char} (h : headNoWs s = true) :
    s.dropWhile pyWs = s := by
  cases s with
  | nil => rfl
  | cons c cs =>
    have hc : pyWs c = false := by
      have h2 : (!pyWs c) = true := h
      simpa using h2
    exact dropWhile_eq_self_of_head hc

theorem trimR_of_endsPunct {s : List Char} (h : endsPunct s = true) : trimR s = s := by
  unfold endsPunct at h
  cases hg : s.getLast? with
  | none =>
    rw [hg] at h
    exact absurd h (by decide)
  | some g =>
    rw [hg] at h
    have hpw : pyWs g = false := by
      have hd : (g = '.' ∨ g = '!') ∨ g = '?' := by simpa using h
      rcases hd with (rfl | rfl) | rfl <;> decide
    cases hrev : s.reverse with
    | nil =>
      have hnil : s = [] := by
        rw [← List.reverse_reverse s, hrev]
        rfl
      rw [hnil] at hg
      cases hg
    | cons rc rr =>
      have h2 := List.getLast?_reverse s.reverse
      rw [List.reverse_reverse] at h2
      rw [hg, hrev] at h2
      simp at h2
      unfold trimR
      rw [hrev, List.dropWhile_cons_of_neg (by rw [← h2]; simp [hpw])]
      rw [← hrev, List.reverse_reverse]

/-! ### Idempotence of the experience-line rewrite -/

theorem optimizeExperienceLineL_idem (s : List Char) :
    (optimizeExperienceLineL s).bind optimizeExperienceLineL = optimizeExperienceLineL s := by
  cases hx : optimizeExperienceLineL s with
  | none => rfl
  | some out =>
    show optimizeExperienceLineL out = some out
    unfold optimizeExperienceLineL at hx
    by_cases hb : isBulletLineL s = true
    · rw [if_pos hb] at hx
      cases hws : weakSubL (stripBulletsL s) with
      | nil =>
        rw [hws] at hx
        exact Option.noConfusion hx
      | cons c cs =>
        rw [hws] at hx
        have hx2 : some ('•' :: ' ' :: punctuateL (ucA c :: cs)) = some out := hx
        injection hx2 with hout
        rw [← hout]
        have hH : headNoWs (c :: cs) = true := by
          rw [← hws]
          exact headNoWs_weakSubL (headNoWs_stripBullets s)
        have hc0 : pyWs c = false := by
          have h2 : (!pyWs c) = true := hH
          simpa using h2
        have hcU : pyWs (ucA c) = false := by
          rw [pyWs_ucA]
          exact hc0
        have hF : ∀ pr ∈ weakRules, ¬ occF pr.1 false (c :: cs) := by
          intro pr hpr
          rw [← hws]
          exact weakSubL_free _ pr hpr
        by_cases hep : endsPunct (ucA c :: cs) = true
        · have hP : punctuateL (ucA c :: cs) = ucA c :: cs := by
            rw [punctuateL, if_pos hep]
          rw [hP]
          have hstrip : stripBulletsL ('•' :: ' ' :: ucA c :: cs) = ucA c :: cs := by
            show trimBoth ((' ' :: ucA c :: cs).dropWhile pyWs) = ucA c :: cs
            rw [List.dropWhile_cons_of_pos (by decide), dropWhile_eq_self_of_head hcU]
            unfold trimBoth trimL
            rw [dropWhile_eq_self_of_head hcU, trimR_of_endsPunct hep]
          have hfree2 : ∀ pr ∈ weakRules, ¬ occF pr.1 false (ucA c :: cs) := by
            intro pr hpr h
            exact hF pr hpr (occF_capFirst h)
          have hsub : weakSubL (ucA c :: cs) = ucA c :: cs := weakSubL_id hfree2
          unfold optimizeExperienceLineL
          rw [if_pos (show isBulletLineL ('•' :: ' ' :: ucA c :: cs) = true from rfl)]
          rw [hstrip, hsub]
          show some ('•' :: ' ' :: punctuateL (ucA (ucA c) :: cs)) =
            some ('•' :: ' ' :: ucA c :: cs)
          rw [ucA_ucA, hP]
        · have hP : punctuateL (ucA c :: cs) = ucA c :: (cs ++ ['.']) := by
            rw [punctuateL, if_neg hep]
            rfl
          rw [hP]
          have hep2 : endsPunct (ucA c :: (cs ++ ['.'])) = true :=
            endsPunct_concat_dot (ucA c :: cs)
          have hstrip : stripBulletsL ('•' :: ' ' :: ucA c :: (cs ++ ['.'])) =
              ucA c :: (cs ++ ['.']) := by
            show trimBoth ((' ' :: ucA c :: (cs ++ ['.'])).dropWhile pyWs) =
              ucA c :: (cs ++ ['.'])
            rw [List.dropWhile_cons_of_pos (by decide), dropWhile_eq_self_of_head hcU]
            unfold trimBoth trimL
            rw [dropWhile_eq_self_of_head hcU, trimR_of_endsPunct hep2]
          have hfree2 : ∀ pr ∈ weakRules, ¬ occF pr.1 false (ucA c :: (cs ++ ['.'])) := by
            intro pr hpr h
            have hq := allRulesOK pr hpr
            have h1 : occF pr.1 false ((ucA c :: cs) ++ ['.']) := h
            have h2 : occF pr.1 false (ucA c :: cs) :=
              occF_dropDot hq.2.2.2.1 hq.2.2.2.2.1 h1
            exact hF pr hpr (occF_capFirst h2)
          have hsub : weakSubL (ucA c :: (cs ++ ['.'])) = ucA c :: (cs ++ ['.']) :=
            weakSubL_id hfree2
          unfold optimizeExperienceLineL
          rw [if_pos (show isBulletLineL ('•' :: ' ' :: ucA c :: (cs ++ ['.'])) = true
            from rfl)]
          rw [hstrip, hsub]
          show some ('•' :: ' ' :: punctuateL (ucA (ucA c) :: (cs ++ ['.']))) =
            some ('•' :: ' ' :: ucA c :: (cs ++ ['.']))
          rw [ucA_ucA, punctuateL, if_pos hep2]
    · rw [if_neg hb] at hx
      injection hx with hout
      rw [← hout]
      unfold optimizeExperienceLineL
      rw [if_neg hb]

theorem optimizeExperienceLine_idem (s : String) :
    (optimizeExperienceLine s).bind optimizeExperienceLine = optimizeExperienceLine s := by
  unfold optimizeExperienceLine
  have h := optimizeExperienceLineL_idem s.data
  cases hx : optimizeExperienceLineL s.data with
  | none => rfl
  | some l =>
    rw [hx] at h
    have h2 : optimizeExperienceLineL l = some l := h
    show (optimizeExperienceLineL l).map (fun u => (⟨u⟩ : String)) = some (⟨l⟩ : String)
    rw [h2]
    rfl

/-- C1 (amended): the experience-bullet rewrite `_optimize_experience_line`
is idempotent — applying it twice yields the same result as applying it once,
for every input string — but the final grammar pass `_final_grammar_check` is
not idempotent: its a→an substitution can create a fresh match, as on
"a a egg" → "an a egg" → "an an egg". -/
theorem c1_amended_experience_idempotent_grammar_not :
    (∀ s : String, (optimizeExperienceLine s).bind optimizeExperienceLine =
      optimizeExperienceLine s) ∧
    finalGrammarCheck (finalGrammarCheck "a a egg") ≠ finalGrammarCheck "a a egg" := by
  constructor
  · exact optimizeExperienceLine_idem
  · decide
